import Mathlib

/-!
# A verification development for `queue.c`

`queue.c` implements a singly linked queue of C strings (`q_new`,
`q_insert_head`, `q_insert_tail`, `q_remove_head`, `q_size`, `q_reverse`,
`q_sort` with its helper `split_and_merge`).

The embedding is shallow.  List elements live in an explicit heap that maps
addresses to cells; a C pointer is an `Option Ptr` (`none` is `NULL`).  Every
function of the source becomes a Lean function on the heap and the queue
record.  A function returns `none` when the C code would perform an undefined
operation (dereferencing `NULL` or a freed element, writing past a buffer) or
when a loop runs out of the fuel it was given.
-/

namespace Queue

/-! ## Memory model -/

/-- Addresses of list elements. -/
abbrev Ptr := Nat

/-- Modelled from the spec: `list_ele_t` is declared in `queue.h`, which is not
part of the sources.  A node holds `value`, the bytes of the block that
`malloc` returned for the string (the characters followed by the terminator),
and `next`, the link to the following node. -/
structure list_ele_t where
  value : List Nat
  next : Option Ptr
deriving DecidableEq

/-- Modelled from the spec: `queue_t` is declared in `queue.h`, which is not
part of the sources.  The record has `head`, `tail` and the element count
`size`; the count is an `int`, kept here as a mathematical integer. -/
structure queue_t where
  head : Option Ptr
  tail : Option Ptr
  size : Int
deriving DecidableEq

/-- The heap of list elements: `none` at an address means that no live element
is stored there (never allocated, or freed). -/
abbrev Heap := Ptr → Option list_ele_t

/-- Heap update at one address. -/
def Heap.set (h : Heap) (p : Ptr) (c : Option list_ele_t) : Heap :=
  fun x => if x = p then c else h x

/-- The empty heap. -/
def Heap.empty : Heap := fun _ => none

/-- A program state: the heap of list elements and the queue record that the
pointer `q` designates (`none` when `q` is `NULL`). -/
structure World where
  heap : Heap
  q : Option queue_t

/-! ## The C library functions used by the source -/

/-- The characters of the C string stored at the start of a byte block: the
bytes before the first zero byte. -/
def cstr (s : List Nat) : List Nat := s.takeWhile (fun b => b ≠ 0)

/-- `strlen`: the number of bytes before the terminator. -/
def strlen (s : List Nat) : Nat := (cstr s).length

/-- `memset(buf, c, n)`: the first `n` bytes become `c`.  Writing past the end
of the block is undefined. -/
def memset (buf : List Nat) (c : Nat) (n : Nat) : Option (List Nat) :=
  if n ≤ buf.length then some (List.replicate n c ++ buf.drop n) else none

/-- `strncpy(dst, src, n)`: exactly `n` bytes of `dst` are written, the
characters of `src` (at most `n` of them) followed by zero padding.  Writing
past the end of the block is undefined. -/
def strncpy (dst : List Nat) (src : List Nat) (n : Nat) : Option (List Nat) :=
  if n ≤ dst.length then
    some ((cstr src).take n ++ List.replicate (n - (cstr src).length) 0 ++ dst.drop n)
  else none

/-- `strcmp`: byte-wise comparison up to the first difference or the
terminator; the result is the difference of the two bytes where the strings
first differ.  The end of a block reads as a terminator. -/
def strcmp : List Nat → List Nat → Int
  | [], [] => 0
  | [], b :: _ => 0 - (b : Int)
  | a :: _, [] => (a : Int)
  | a :: as, b :: bs =>
    if a ≠ b then (a : Int) - (b : Int) else if a = 0 then 0 else strcmp as bs

/-- `size_t` arithmetic is modulo `2 ^ 64`. -/
def SIZE_MOD : Nat := 2 ^ 64

/-! ## The functions of `queue.c` -/

/-- `q_new` (lines 12-21).  `ok` tells whether `malloc` succeeded. -/
def q_new (ok : Bool) : World :=
  if ok then
    { heap := Heap.empty, q := some { head := none, tail := none, size := 0 } }
  else
    { heap := Heap.empty, q := none }

/-- The block that lines 57-65 (and 92-99) build for the value of a new node:
`malloc(strlen(s) + 1)`, `memset` of the whole block to zero, then `strncpy`
of `strlen(s)` bytes. -/
def new_value (s : List Nat) : Option (List Nat) := do
  let block := List.replicate (strlen s + 1) 0
  let block ← memset block 0 (strlen s + 1)
  strncpy block s (strlen s)

/-- `q_insert_head` (lines 47-73).  `newh` is what `malloc` returns for the
node (`none` for failure); `malloc` never returns the address of a live
element, so there is no result when `newh` is one.  `value_ok` tells whether
the `malloc` for the string succeeds; when it fails the node is freed again. -/
def q_insert_head (w : World) (s : List Nat) (newh : Option Ptr) (value_ok : Bool) :
    Option (Bool × World) :=
  match w.q with
  | none => some (false, w)
  | some q =>
    match newh with
    | none => some (false, w)
    | some p =>
      match w.heap p with
      | some _ => none
      | none =>
        if value_ok then do
          let v ← new_value s
          let h1 := w.heap.set p (some { value := v, next := q.head })
          let q1 : queue_t := { q with head := some p }
          let q2 : queue_t := if q1.tail.isNone then { q1 with tail := some p } else q1
          some (true, { heap := h1, q := some { q2 with size := q2.size + 1 } })
        else
          some (false, { w with heap := (w.heap.set p (some { value := [], next := none })).set p none })

/-- `q_insert_tail` (lines 82-109), with the same inputs as `q_insert_head`. -/
def q_insert_tail (w : World) (s : List Nat) (newh : Option Ptr) (value_ok : Bool) :
    Option (Bool × World) :=
  match w.q with
  | none => some (false, w)
  | some q =>
    match newh with
    | none => some (false, w)
    | some p =>
      match w.heap p with
      | some _ => none
      | none =>
        if value_ok then do
          let v ← new_value s
          let h1 := w.heap.set p (some { value := v, next := none })
          match q.head with
          | none =>
            some (true, { heap := h1, q := some { q with head := some p, tail := some p, size := q.size + 1 } })
          | some _ => do
            let t ← q.tail
            let tn ← h1 t
            let h2 := h1.set t (some { tn with next := some p })
            let tn2 ← h2 t
            some (true, { heap := h2, q := some { q with tail := tn2.next, size := q.size + 1 } })
        else
          some (false, { w with heap := (w.heap.set p (some { value := [], next := none })).set p none })

/-- The copy length of lines 126-128: `strlen(value) > bufsize - 1 ? bufsize - 1
: strlen(value)`, in `size_t` arithmetic. -/
def remove_maxsize (value : List Nat) (bufsize : Nat) : Nat :=
  if strlen value % SIZE_MOD > (bufsize + SIZE_MOD - 1) % SIZE_MOD then
    (bufsize + SIZE_MOD - 1) % SIZE_MOD
  else strlen value % SIZE_MOD

/-- Lines 125-132: what happens to the block `sp` points to (`none` when `sp`
is `NULL`).  The outer `Option` is `none` when a write leaves the block. -/
def remove_copy (value : List Nat) (sp : Option (List Nat)) (bufsize : Nat) :
    Option (Option (List Nat)) :=
  match sp with
  | none => some none
  | some buf => do
    let maxsize := remove_maxsize value bufsize
    let buf1 ← memset buf 0 ((maxsize + 1) % SIZE_MOD)
    let buf2 ← strncpy buf1 value maxsize
    some (some buf2)

/-- `q_remove_head` (lines 119-139).  The result is the return value, the new
state and the new contents of the block at `sp`. -/
def q_remove_head (w : World) (sp : Option (List Nat)) (bufsize : Nat) :
    Option (Bool × World × Option (List Nat)) :=
  match w.q with
  | none => some (false, w, sp)
  | some q =>
    match q.head with
    | none => some (false, w, sp)
    | some index => do
      let node ← w.heap index
      let sp1 ← remove_copy node.value sp bufsize
      let q1 : queue_t := { q with head := node.next }
      let q2 : queue_t := { q1 with size := q1.size - 1 }
      some (true, { heap := w.heap.set index none, q := some q2 }, sp1)

/-- `q_size` (lines 145-148). -/
def q_size (w : World) : Int :=
  match w.q with
  | none => 0
  | some q => q.size

/-- The loop of lines 170-175 in `q_reverse`; it returns the heap and the final
`prev` and `cur`. -/
def reverse_loop : Nat → Heap → Ptr → Ptr → Option Ptr → Option (Heap × Ptr × Ptr)
  | 0, _, _, _, _ => none
  | fuel + 1, h, prev, cur, foward =>
    match foward with
    | none => some (h, prev, cur)
    | some f => do
      let cn ← h cur
      let h1 := h.set cur (some { cn with next := some prev })
      let fn ← h1 f
      reverse_loop fuel h1 cur f fn.next

/-- `q_reverse` (lines 157-180). -/
def q_reverse (fuel : Nat) (w : World) : Option World :=
  match w.q with
  | none => some w
  | some q =>
    match q.head with
    | none => some w
    | some hd =>
      if q.size = 1 then some w
      else do
        let pn ← w.heap hd
        let cur ← pn.next
        let cn ← w.heap cur
        let (h1, prev1, cur1) ← reverse_loop fuel w.heap hd cur cn.next
        let c1 ← h1 cur1
        let h2 := h1.set cur1 (some { c1 with next := some prev1 })
        let q1 : queue_t := { q with tail := q.head }
        let hn ← h2 hd
        let h3 := h2.set hd (some { hn with next := none })
        some { heap := h3, q := some { q1 with head := some cur1 } }

/-- The slow/fast walk of lines 191-194 in `split_and_merge`; it returns the
final `lhead`. -/
def split_loop : Nat → Heap → Option Ptr → Option Ptr → Option (Option Ptr)
  | 0, _, _, _ => none
  | fuel + 1, h, lhead, rhead =>
    match rhead with
    | none => some lhead
    | some r => do
      let rn ← h r
      match rn.next with
      | none => some lhead
      | some r1 => do
        let r1n ← h r1
        let l ← lhead
        let ln ← h l
        split_loop fuel h ln.next r1n.next

/-- The place a `list_ele_t **` designates in `split_and_merge`: the caller's
variable `*head`, or the `next` field of a list element. -/
inductive Loc where
  | var : Loc
  | next : Ptr → Loc
deriving DecidableEq

/-- Assignment through a `list_ele_t **`. -/
def Loc.store (a : Loc) (h : Heap) (head : Option Ptr) (v : Option Ptr) :
    Option (Heap × Option Ptr) :=
  match a with
  | .var => some (h, v)
  | .next p => do
    let n ← h p
    some (h.set p (some { n with next := v }), head)

/-- Reading through a `list_ele_t **`. -/
def Loc.load (a : Loc) (h : Heap) (head : Option Ptr) : Option (Option Ptr) :=
  match a with
  | .var => some head
  | .next p => do
    let n ← h p
    some n.next

/-- The merge of lines 205-220 in `split_and_merge`: the loop and the final
assignment through `appender`. -/
def merge_loop : Nat → Heap → Option Ptr → Loc → Option Ptr → Option Ptr →
    Option (Heap × Option Ptr)
  | 0, _, _, _, _, _ => none
  | fuel + 1, h, head, appender, lhead, rhead =>
    match lhead, rhead with
    | some l, some r => do
      let ln ← h l
      let rn ← h r
      if strcmp ln.value rn.value < 0 then do
        let (h1, head1) ← appender.store h head lhead
        let ln1 ← h1 l
        let lhead1 := ln1.next
        let cur ← (← appender.load h1 head1)
        let cn ← h1 cur
        let h2 := h1.set cur (some { cn with next := none })
        merge_loop fuel h2 head1 (.next cur) lhead1 rhead
      else do
        let (h1, head1) ← appender.store h head rhead
        let rn1 ← h1 r
        let rhead1 := rn1.next
        let cur ← (← appender.load h1 head1)
        let cn ← h1 cur
        let h2 := h1.set cur (some { cn with next := none })
        merge_loop fuel h2 head1 (.next cur) lhead rhead1
    | _, _ => appender.store h head (if lhead.isSome then lhead else rhead)

/-- `split_and_merge` (lines 182-221): the heap and `*head` on entry give the
heap and `*head` on return. -/
def split_and_merge : Nat → Heap → Option Ptr → Option (Heap × Option Ptr)
  | 0, _, _ => none
  | fuel + 1, h, head => do
    let hd ← head
    let hn ← h hd
    match hn.next with
    | none => some (h, head)
    | some _ => do
      let lhead ← (← split_loop (fuel + 1) h head hn.next)
      let ln ← h lhead
      let rhead := ln.next
      let h1 := h.set lhead (some { ln with next := none })
      let (h2, lhead2) ← split_and_merge fuel h1 head
      let (h3, rhead2) ← split_and_merge fuel h2 rhead
      merge_loop (fuel + 1) h3 none .var lhead2 rhead2

/-- The loop of lines 233-235 in `q_sort`, which moves `q->tail` to the end of
the chain; it returns the final `q->tail`. -/
def tail_loop : Nat → Heap → Option Ptr → Option (Option Ptr)
  | 0, _, _ => none
  | fuel + 1, h, tail => do
    let t ← tail
    let tn ← h t
    match tn.next with
    | none => some tail
    | some _ => tail_loop fuel h tn.next

/-- `q_sort` (lines 227-236). -/
def q_sort (fuel : Nat) (w : World) : Option World :=
  match w.q with
  | none => some w
  | some q =>
    if q.size ≤ 1 then some w
    else do
      let (h1, head1) ← split_and_merge fuel w.heap q.head
      let tail1 ← tail_loop fuel h1 q.tail
      some { heap := h1, q := some { q with head := head1, tail := tail1 } }

/-! ## Reading a queue -/

/-- The addresses met when following `next` from `p` until `NULL`. -/
def walk : Nat → Heap → Option Ptr → Option (List Ptr)
  | _, _, none => some []
  | 0, _, some _ => none
  | fuel + 1, h, some a => do
    let n ← h a
    let t ← walk fuel h n.next
    some (a :: t)

/-- The block stored in the element at address `a` (empty when there is none). -/
def valOf (h : Heap) (a : Ptr) : List Nat :=
  match h a with
  | some n => n.value
  | none => []

/-- The strings held by the elements at the addresses `l`. -/
def values (h : Heap) (l : List Ptr) : List (List Nat) :=
  l.map (fun a => cstr (valOf h a))

/-- The strings of the queue, read from `head`. -/
def q_values (fuel : Nat) (w : World) : Option (List (List Nat)) := do
  let q ← w.q
  let l ← walk fuel w.heap q.head
  some (values w.heap l)

/-- Bytes of a string literal. -/
def bytes (s : String) : List Nat := s.toList.map Char.toNat

end Queue


namespace Queue

/-! ## Well-formed queues -/

/-- The list segment: following `next` from `p` visits exactly the live
elements `l`, in order, and arrives at `e`. -/
def lseg (h : Heap) : Option Ptr → List Ptr → Option Ptr → Prop
  | p, [], e => p = e
  | p, a :: l, e => p = some a ∧ ∃ n, h a = some n ∧ lseg h n.next l e

/-- A chain: a list segment that ends with `NULL`. -/
def chain (h : Heap) (p : Option Ptr) (l : List Ptr) : Prop := lseg h p l none

/-- The data-model invariants: the queue exists, the chain from `head` is the
acyclic list `l` of elements, `size` is its length and `tail` is its last
element (`NULL` when the chain is empty). -/
def wf (w : World) (l : List Ptr) : Prop :=
  ∃ q, w.q = some q ∧ chain w.heap q.head l ∧ q.size = (l.length : Int) ∧ q.tail = l.getLast?

/-- Two heaps hold the same live elements with the same values (only `next`
fields may differ). -/
def sameVals (h h' : Heap) : Prop :=
  ∀ a, (h' a).map (fun n => n.value) = (h a).map (fun n => n.value)

/-- The order `strcmp` induces on list elements through their values. -/
def le_val (val : Ptr → List Nat) (a b : Ptr) : Prop := strcmp (val a) (val b) ≤ 0

/-- The order in which the merge of lines 205-220 emits the elements of two
lists: the front of the left list when it is strictly smaller, otherwise the
front of the right list; the remainder of the longer list at the end. -/
def mergeL (val : Ptr → List Nat) : List Ptr → List Ptr → List Ptr
  | [], r => r
  | a :: l, [] => a :: l
  | a :: l, b :: r =>
    if strcmp (val a) (val b) < 0 then a :: mergeL val l (b :: r)
    else b :: mergeL val (a :: l) r
termination_by l r => l.length + r.length

/-- The order of the elements after `split_and_merge`: the first
`(n + 1) / 2` elements and the remaining ones are ordered recursively and then
merged. -/
def sortL (val : Ptr → List Nat) : Nat → List Ptr → List Ptr
  | 0, l => l
  | fuel + 1, l =>
    if l.length ≤ 1 then l
    else
      mergeL val (sortL val fuel (l.take ((l.length + 1) / 2)))
        (sortL val fuel (l.drop ((l.length + 1) / 2)))

/-- The state of `appender` during the merge: it designates `*head` while
nothing has been emitted, and afterwards the `next` field of the last element
of the chain emitted so far. -/
def appOK (app : Loc) (h : Heap) (head : Option Ptr) (out : List Ptr) : Prop :=
  match app with
  | .var => out = []
  | .next p => (∃ o1, out = o1 ++ [p]) ∧ chain h head out

/-! ## Call sequences -/

/-- A call of one of the queue operations, with the inputs the embedding
gives it (the outcomes of `malloc`, the caller's buffer, the fuel of a loop). -/
inductive Call where
  | insert_head (s : List Nat) (newh : Option Ptr) (value_ok : Bool)
  | insert_tail (s : List Nat) (newh : Option Ptr) (value_ok : Bool)
  | remove_head (sp : Option (List Nat)) (bufsize : Nat)
  | reverse (fuel : Nat)
  | sort (fuel : Nat)

/-- Runs a sequence of calls.  The result is the final state, the number of
insertions that returned true and the number of removals that returned true. -/
def run : World → List Call → Option (World × Nat × Nat)
  | w, [] => some (w, 0, 0)
  | w, .insert_head s newh value_ok :: cs => do
    let (r, w1) ← q_insert_head w s newh value_ok
    let (w2, i, d) ← run w1 cs
    some (w2, i + (if r then 1 else 0), d)
  | w, .insert_tail s newh value_ok :: cs => do
    let (r, w1) ← q_insert_tail w s newh value_ok
    let (w2, i, d) ← run w1 cs
    some (w2, i + (if r then 1 else 0), d)
  | w, .remove_head sp bufsize :: cs => do
    let (r, w1, _) ← q_remove_head w sp bufsize
    let (w2, i, d) ← run w1 cs
    some (w2, i, d + (if r then 1 else 0))
  | w, .reverse fuel :: cs => do
    let w1 ← q_reverse fuel w
    run w1 cs
  | w, .sort fuel :: cs => do
    let w1 ← q_sort fuel w
    run w1 cs

/-! ## The insertions and the removal on a flat memory

In the functions above a load or store through a pointer to a freed element
has no result.  On the machine the store lands in the freed block and the
load reads it back.  The functions below are `q_new`, `q_insert_head`,
`q_insert_tail` and `q_remove_head` once more, line by line, over a memory
in which every address holds the element last written there and `free`
leaves the bytes in place.  The only operations without a result are the
dereference of `NULL` and a write past the end of the caller's buffer. -/

/-- A flat memory of list elements: the element last written at each address. -/
abbrev Mem := Ptr → list_ele_t

/-- Memory update at one address. -/
def Mem.set (m : Mem) (p : Ptr) (c : list_ele_t) : Mem :=
  fun x => if x = p then c else m x

/-- A program state over a flat memory. -/
structure FlatWorld where
  mem : Mem
  q : Option queue_t

/-- `q_new` (lines 12-21) over a flat memory with the contents `m`. -/
def q_new_flat (ok : Bool) (m : Mem) : FlatWorld :=
  if ok then { mem := m, q := some { head := none, tail := none, size := 0 } }
  else { mem := m, q := none }

/-- `q_insert_head` (lines 47-73) over a flat memory.  `newh` is what `malloc`
returns for the node, `value_ok` tells whether the `malloc` for the string
succeeds.  When it fails the node has received a null `value` (no bytes) and
is freed, which leaves it in memory. -/
def q_insert_head_flat (w : FlatWorld) (s : List Nat) (newh : Option Ptr) (value_ok : Bool) :
    Option (Bool × FlatWorld) :=
  match w.q with
  | none => some (false, w)
  | some q =>
    match newh with
    | none => some (false, w)
    | some p =>
      if value_ok then do
        let v ← new_value s
        let m1 := w.mem.set p { value := v, next := q.head }
        let q1 : queue_t := { q with head := some p }
        let q2 : queue_t := if q1.tail.isNone then { q1 with tail := some p } else q1
        some (true, { mem := m1, q := some { q2 with size := q2.size + 1 } })
      else
        some (false, { w with mem := w.mem.set p { (w.mem p) with value := [] } })

/-- `q_insert_tail` (lines 82-109) over a flat memory, with the same inputs as
`q_insert_head_flat`. -/
def q_insert_tail_flat (w : FlatWorld) (s : List Nat) (newh : Option Ptr) (value_ok : Bool) :
    Option (Bool × FlatWorld) :=
  match w.q with
  | none => some (false, w)
  | some q =>
    match newh with
    | none => some (false, w)
    | some p =>
      if value_ok then do
        let v ← new_value s
        let m1 := w.mem.set p { value := v, next := none }
        match q.head with
        | none =>
          some (true, { mem := m1, q := some { q with head := some p, tail := some p, size := q.size + 1 } })
        | some _ => do
          let t ← q.tail
          let tn := m1 t
          let m2 := m1.set t { tn with next := some p }
          let tn2 := m2 t
          some (true, { mem := m2, q := some { q with tail := tn2.next, size := q.size + 1 } })
      else
        some (false, { w with mem := w.mem.set p { (w.mem p) with value := [] } })

/-- `q_remove_head` (lines 119-139) over a flat memory: the two calls of `free`
leave the memory as it is. -/
def q_remove_head_flat (w : FlatWorld) (sp : Option (List Nat)) (bufsize : Nat) :
    Option (Bool × FlatWorld × Option (List Nat)) :=
  match w.q with
  | none => some (false, w, sp)
  | some q =>
    match q.head with
    | none => some (false, w, sp)
    | some index => do
      let node := w.mem index
      let sp1 ← remove_copy node.value sp bufsize
      let q1 : queue_t := { q with head := node.next }
      let q2 : queue_t := { q1 with size := q1.size - 1 }
      some (true, { mem := w.mem, q := some q2 }, sp1)

/-- `q_size` (lines 145-148) over a flat memory. -/
def q_size_flat (w : FlatWorld) : Int :=
  match w.q with
  | none => 0
  | some q => q.size

/-- A call of `q_insert_head`, `q_insert_tail` or `q_remove_head`. -/
inductive BasicCall where
  | insert_head (s : List Nat) (newh : Option Ptr) (value_ok : Bool)
  | insert_tail (s : List Nat) (newh : Option Ptr) (value_ok : Bool)
  | remove_head (sp : Option (List Nat)) (bufsize : Nat)

/-- The same call as a `Call`. -/
def BasicCall.toCall : BasicCall → Call
  | .insert_head s newh value_ok => .insert_head s newh value_ok
  | .insert_tail s newh value_ok => .insert_tail s newh value_ok
  | .remove_head sp bufsize => .remove_head sp bufsize

/-- The caller's side of the contract of `q_remove_head`: a buffer, when one
is given, has room for the `bufsize >= 1` bytes announced, and `bufsize` is a
`size_t`. -/
def BasicCall.buffer_ok : BasicCall → Prop
  | .remove_head (some buf) bufsize => 1 ≤ bufsize ∧ bufsize < SIZE_MOD ∧ bufsize ≤ buf.length
  | _ => True

/-- Runs a sequence of calls over a flat memory.  The result is the final
state, the number of insertions that returned true and the number of removals
that returned true. -/
def run_flat : FlatWorld → List BasicCall → Option (FlatWorld × Nat × Nat)
  | w, [] => some (w, 0, 0)
  | w, .insert_head s newh value_ok :: cs => do
    let (r, w1) ← q_insert_head_flat w s newh value_ok
    let (w2, i, d) ← run_flat w1 cs
    some (w2, i + (if r then 1 else 0), d)
  | w, .insert_tail s newh value_ok :: cs => do
    let (r, w1) ← q_insert_tail_flat w s newh value_ok
    let (w2, i, d) ← run_flat w1 cs
    some (w2, i + (if r then 1 else 0), d)
  | w, .remove_head sp bufsize :: cs => do
    let (r, w1, _) ← q_remove_head_flat w sp bufsize
    let (w2, i, d) ← run_flat w1 cs
    some (w2, i, d + (if r then 1 else 0))

/-- The flat state agrees with the state `w`: the same queue record, and every
live element of `w` is in the flat memory. -/
def sim (w : World) (f : FlatWorld) : Prop :=
  f.q = w.q ∧ ∀ a n, w.heap a = some n → f.mem a = n

/-- Once `tail` has been set the flat functions never dereference `NULL`:
a queue with a null `tail` has a null `head`. -/
def tail_set (f : FlatWorld) : Prop :=
  ∀ q, f.q = some q → q.tail = none → q.head = none

/-- The sequence `insert_tail a; remove_head; insert_head b; insert_tail c`
with a fresh address for every node. -/
def calls_stale : List BasicCall :=
  [.insert_tail (bytes "a") (some 0) true, .remove_head none 0,
    .insert_head (bytes "b") (some 1) true, .insert_tail (bytes "c") (some 2) true]

/-- A memory that holds no bytes anywhere. -/
def mem_zero : Mem := fun _ => ⟨[], none⟩

/-- The states reached from a queue made by `q_new` through calls that
return, where `q_reverse` and `q_sort` are given fuel at least the size of the
queue and `q_remove_head` is not called on a queue of exactly one element. -/
inductive Reach : World → Prop where
  | new : Reach (q_new true)
  | insert_head (w w' : World) (s : List Nat) (newh : Option Ptr) (ok r : Bool) :
      Reach w → q_insert_head w s newh ok = some (r, w') → Reach w'
  | insert_tail (w w' : World) (s : List Nat) (newh : Option Ptr) (ok r : Bool) :
      Reach w → q_insert_tail w s newh ok = some (r, w') → Reach w'
  | remove_head (w w' : World) (sp sp' : Option (List Nat)) (bufsize : Nat) (r : Bool) :
      Reach w → q_size w ≠ 1 → q_remove_head w sp bufsize = some (r, w', sp') → Reach w'
  | reverse (w w' : World) (fuel : Nat) :
      Reach w → q_size w ≤ (fuel : Int) → q_reverse fuel w = some w' → Reach w'
  | sort (w w' : World) (fuel : Nat) :
      Reach w → q_size w ≤ (fuel : Int) → q_sort fuel w = some w' → Reach w'

/-! ## Scenarios and concrete states -/

/-- The scenario `create; insert_tail banana; insert_tail apple; insert_tail
cherry; sort`. -/
def scenario_sort : Option World := do
  let (_, w1) ← q_insert_tail (q_new true) (bytes "banana") (some 0) true
  let (_, w2) ← q_insert_tail w1 (bytes "apple") (some 1) true
  let (_, w3) ← q_insert_tail w2 (bytes "cherry") (some 2) true
  q_sort 3 w3

/-- A heap with the elements "banana", "apple", "cherry" at the addresses 0, 1
and 2, linked in this order. -/
def heap_bac : Heap := fun a =>
  if a = 0 then some ⟨bytes "banana" ++ [0], some 1⟩
  else if a = 1 then some ⟨bytes "apple" ++ [0], some 2⟩
  else if a = 2 then some ⟨bytes "cherry" ++ [0], none⟩
  else none

/-- The queue over `heap_bac`. -/
def world_bac : World := ⟨heap_bac, some ⟨some 0, some 2, 3⟩⟩

/-- A heap with two elements that both hold "a", at the addresses 0 and 1. -/
def heap_aa : Heap := fun a =>
  if a = 0 then some ⟨bytes "a" ++ [0], some 1⟩
  else if a = 1 then some ⟨bytes "a" ++ [0], none⟩
  else none

/-- The queue over `heap_aa`. -/
def world_aa : World := ⟨heap_aa, some ⟨some 0, some 1, 2⟩⟩

/-- A heap with the single element "hello" at address 0. -/
def heap_hello : Heap := fun a =>
  if a = 0 then some ⟨bytes "hello" ++ [0], none⟩ else none

/-- The queue over `heap_hello`. -/
def world_hello : World := ⟨heap_hello, some ⟨some 0, some 0, 1⟩⟩

/-- The scenario `create; insert_head a; insert_head b; insert_head c; reverse`. -/
def scenario_reverse : Option World := do
  let (_, w1) ← q_insert_head (q_new true) (bytes "a") (some 0) true
  let (_, w2) ← q_insert_head w1 (bytes "b") (some 1) true
  let (_, w3) ← q_insert_head w2 (bytes "c") (some 2) true
  q_reverse 3 w3

/-- A sequence of calls in which two insertions succeed, one fails and one
removal succeeds. -/
def calls_example : List Call :=
  [.insert_head (bytes "a") (some 0) true, .insert_tail (bytes "b") (some 1) true,
    .remove_head none 0, .insert_head (bytes "c") none true, .reverse 1, .sort 1]

/-- The order of two strings under `strcmp`, together with the fact that
strings that compare equal are the same string. -/
def str_le (x y : List Nat) : Prop := strcmp x y ≤ 0 ∧ (strcmp x y = 0 → x = y)

/-! ## Lemmas on heaps and list segments -/

@[simp]
theorem Heap.set_same (h : Heap) (p : Ptr) (c : Option list_ele_t) :
    (h.set p c) p = c := by
  simp [Heap.set]

theorem Heap.set_other (h : Heap) (p a : Ptr) (c : Option list_ele_t) (hne : a ≠ p) :
    (h.set p c) a = h a := by
  simp [Heap.set, hne]

@[simp]
theorem lseg_nil (h : Heap) (p e : Option Ptr) : lseg h p [] e ↔ p = e := Iff.rfl

theorem lseg_cons (h : Heap) (p e : Option Ptr) (a : Ptr) (l : List Ptr) :
    lseg h p (a :: l) e ↔ p = some a ∧ ∃ n, h a = some n ∧ lseg h n.next l e := Iff.rfl

theorem lseg_congr (h h' : Heap) (l : List Ptr) (heq : ∀ a ∈ l, h' a = h a) :
    ∀ (p e : Option Ptr), lseg h p l e → lseg h' p l e := by
  induction l with
  | nil => intro p e hp; exact hp
  | cons a t ih =>
    intro p e hp
    obtain ⟨hpa, n, hn, ht⟩ := hp
    refine ⟨hpa, n, ?_, ih (fun b hb => heq b (List.mem_cons_of_mem _ hb)) _ _ ht⟩
    rw [heq a (List.mem_cons_self _ _)]; exact hn

theorem lseg_set (h : Heap) (x : Ptr) (c : Option list_ele_t) (l : List Ptr)
    (hx : x ∉ l) (p e : Option Ptr) (hp : lseg h p l e) : lseg (h.set x c) p l e := by
  apply lseg_congr h _ l _ p e hp
  intro a ha
  apply Heap.set_other
  rintro rfl
  exact hx ha

theorem lseg_append (h : Heap) (l1 l2 : List Ptr) :
    ∀ (p e : Option Ptr), lseg h p (l1 ++ l2) e ↔ ∃ m, lseg h p l1 m ∧ lseg h m l2 e := by
  induction l1 with
  | nil =>
    intro p e
    constructor
    · intro hp; exact ⟨p, rfl, hp⟩
    · rintro ⟨m, hm, hp⟩
      rw [lseg_nil] at hm
      subst hm; exact hp
  | cons a t ih =>
    intro p e
    constructor
    · rintro ⟨hpa, n, hn, ht⟩
      obtain ⟨m, h1, h2⟩ := (ih _ _).1 ht
      exact ⟨m, ⟨hpa, n, hn, h1⟩, h2⟩
    · rintro ⟨m, ⟨hpa, n, hn, h1⟩, h2⟩
      exact ⟨hpa, n, hn, (ih _ _).2 ⟨m, h1, h2⟩⟩

theorem chain_head (h : Heap) (p : Option Ptr) (l : List Ptr) (hp : chain h p l) :
    p = l.head? := by
  cases l with
  | nil => exact hp
  | cons a t => exact hp.1

theorem chain_unique (h : Heap) (l1 : List Ptr) :
    ∀ (l2 : List Ptr) (p : Option Ptr), chain h p l1 → chain h p l2 → l1 = l2 := by
  induction l1 with
  | nil =>
    intro l2 p h1 h2
    have h1' : p = none := h1
    subst h1'
    cases l2 with
    | nil => rfl
    | cons b t => exact absurd h2.1 (by simp)
  | cons a t ih =>
    intro l2 p h1 h2
    obtain ⟨hpa, n, hn, ht⟩ := h1
    subst hpa
    cases l2 with
    | nil =>
      have h2' : some a = none := h2
      exact absurd h2' (by simp)
    | cons b t2 =>
      obtain ⟨hpb, n2, hn2, ht2⟩ := h2
      have hab : a = b := by simpa using hpb
      subst hab
      rw [hn] at hn2
      have hnn : n = n2 := by simpa using hn2
      subst hnn
      rw [ih t2 _ ht ht2]

theorem chain_suffix (h : Heap) (l1 l2 : List Ptr) (p : Option Ptr)
    (hp : chain h p (l1 ++ l2)) : chain h l2.head? l2 := by
  obtain ⟨m, _, h2⟩ := (lseg_append h l1 l2 p none).1 hp
  have := chain_head h m l2 h2
  rw [← this]; exact h2

theorem chain_nodup (h : Heap) (l : List Ptr) :
    ∀ (p : Option Ptr), chain h p l → l.Nodup := by
  induction l with
  | nil => intro _ _; exact List.nodup_nil
  | cons a t ih =>
    intro p hp
    have hp0 := hp
    obtain ⟨hpa, n, hn, ht⟩ := hp
    refine List.nodup_cons.2 ⟨?_, ih _ ht⟩
    intro hmem
    obtain ⟨t1, t2, rfl⟩ := List.append_of_mem hmem
    have hs : chain h (some a) (a :: t2) := by
      have := chain_suffix h t1 (a :: t2) _ ht
      simpa using this
    subst hpa
    have := chain_unique h _ _ _ hs hp0
    have hlen := congrArg List.length this
    simp at hlen
    omega

theorem chain_live (h : Heap) (l : List Ptr) :
    ∀ (p : Option Ptr), chain h p l → ∀ a ∈ l, ∃ n, h a = some n := by
  induction l with
  | nil => intro _ _ a ha; exact absurd ha (List.not_mem_nil a)
  | cons b t ih =>
    intro p hp a ha
    obtain ⟨_, n, hn, ht⟩ := hp
    rcases List.mem_cons.1 ha with rfl | hmem
    · exact ⟨n, hn⟩
    · exact ih _ ht a hmem

theorem walk_of_chain (h : Heap) (l : List Ptr) :
    ∀ (p : Option Ptr) (fuel : Nat), chain h p l → l.length ≤ fuel → walk fuel h p = some l := by
  induction l with
  | nil =>
    intro p fuel hp _
    have : p = none := hp
    subst this
    cases fuel <;> rfl
  | cons a t ih =>
    intro p fuel hp hf
    obtain ⟨hpa, n, hn, ht⟩ := hp
    subst hpa
    cases fuel with
    | zero => simp at hf
    | succ f =>
      have := ih _ f ht (by simpa using hf)
      simp [walk, hn, this]

theorem sameVals_refl (h : Heap) : sameVals h h := fun _ => rfl

theorem sameVals_trans (h1 h2 h3 : Heap) (h12 : sameVals h1 h2) (h23 : sameVals h2 h3) :
    sameVals h1 h3 := fun a => (h23 a).trans (h12 a)

theorem sameVals_set_next (h : Heap) (a : Ptr) (n : list_ele_t) (v : Option Ptr)
    (hn : h a = some n) : sameVals h (h.set a (some { n with next := v })) := by
  intro x
  by_cases hx : x = a
  · subst hx; simp [hn]
  · rw [Heap.set_other _ _ _ _ hx]

theorem valOf_sameVals (h h' : Heap) (hs : sameVals h h') (a : Ptr) : valOf h' a = valOf h a := by
  have := hs a
  unfold valOf
  cases h1 : h a <;> cases h2 : h' a <;> simp [h1, h2] at this ⊢
  exact this

theorem values_sameVals (h h' : Heap) (hs : sameVals h h') (l : List Ptr) :
    values h' l = values h l := by
  unfold values
  apply List.map_congr_left
  intro a _
  rw [valOf_sameVals h h' hs a]

/-! ## `q_reverse` -/

theorem reverse_loop_spec (hd : Ptr) (rest : List Ptr) :
    ∀ (fuel : Nat) (h : Heap) (prev cur : Ptr) (fw : Option Ptr) (D : List Ptr)
      (cn : list_ele_t),
      rest.length < fuel →
      lseg h (some prev) D (some hd) →
      h cur = some cn →
      chain h fw rest →
      (hd :: (D.reverse ++ cur :: rest)).Nodup →
      ∃ h' prev' cur' D' c',
        reverse_loop fuel h prev cur fw = some (h', prev', cur') ∧
        lseg h' (some prev') D' (some hd) ∧
        cur' :: D' = rest.reverse ++ cur :: D ∧
        h' cur' = some c' ∧ h' hd = h hd ∧ sameVals h h' := by
  induction rest with
  | nil =>
    intro fuel h prev cur fw D cn hf hD hcur hfw _
    have hfw' : fw = none := hfw
    subst hfw'
    cases fuel with
    | zero => simp at hf
    | succ k =>
      exact ⟨h, prev, cur, D, cn, rfl, hD, by simp, hcur, rfl, sameVals_refl h⟩
  | cons f rest ih =>
    intro fuel h prev cur fw D cn hf hD hcur hfw hnd
    obtain ⟨hfwf, fn, hfn, hrest⟩ := hfw
    subst hfwf
    cases fuel with
    | zero => simp at hf
    | succ k =>
      have hnd' := hnd
      simp only [List.nodup_cons, List.nodup_append, List.mem_append, List.mem_cons,
        List.mem_reverse, List.nodup_reverse, List.disjoint_left, not_or] at hnd'
      obtain ⟨⟨_, hhdcur, _, _⟩, _, ⟨⟨hcurf, hcurrest⟩, _, _⟩, hDdisj⟩ := hnd'
      have hcurD : cur ∉ D := fun hm => (hDdisj hm).1 rfl
      have hfcur : f ≠ cur := fun e => hcurf e.symm
      have h1f : (h.set cur (some { cn with next := some prev })) f = some fn := by
        rw [Heap.set_other _ _ _ _ hfcur]; exact hfn
      have hD1 : lseg (h.set cur (some { cn with next := some prev })) (some cur) (cur :: D)
          (some hd) :=
        ⟨rfl, _, Heap.set_same _ _ _, lseg_set h cur _ D hcurD _ _ hD⟩
      have hrest1 : chain (h.set cur (some { cn with next := some prev })) fn.next rest :=
        lseg_set h cur _ rest hcurrest _ _ hrest
      have hnd1 : (hd :: ((cur :: D).reverse ++ f :: rest)).Nodup := by
        simpa only [List.reverse_cons, List.append_assoc, List.singleton_append] using hnd
      obtain ⟨h', prev', cur', D', c', hrun, hseg, hlist, hc', hhd, hsv⟩ :=
        ih k _ cur f fn.next (cur :: D) fn (by simpa using hf) hD1 h1f hrest1 hnd1
      refine ⟨h', prev', cur', D', c', ?_, hseg, ?_, hc', ?_, ?_⟩
      · simp only [reverse_loop, hcur, h1f, Option.bind_eq_bind, Option.some_bind]
        exact hrun
      · rw [hlist]; simp
      · rw [hhd, Heap.set_other _ _ _ _ hhdcur]
      · exact sameVals_trans _ _ _ (sameVals_set_next h cur cn _ hcur) hsv

theorem q_reverse_spec (fuel : Nat) (w : World) (l : List Ptr) (hwf : wf w l)
    (hf : l.length ≤ fuel) :
    ∃ w' q q', q_reverse fuel w = some w' ∧ w.q = some q ∧ w'.q = some q' ∧
      wf w' l.reverse ∧ q'.head = q.tail ∧ q'.tail = q.head ∧ q'.size = q.size ∧
      sameVals w.heap w'.heap ∧ (l.length ≤ 1 → w' = w) := by
  obtain ⟨q, hq, hch, hsz, htl⟩ := hwf
  match l, hch, hsz, htl, hf with
  | [], hch, hsz, htl, _ =>
    have hh : q.head = none := hch
    refine ⟨w, q, q, ?_, hq, hq, ⟨q, hq, hch, hsz, htl⟩, ?_, ?_, rfl, sameVals_refl _, fun _ => rfl⟩
    · simp [q_reverse, hq, hh]
    · rw [hh, htl]; rfl
    · rw [hh, htl]; rfl
  | [a], hch, hsz, htl, _ =>
    have hh : q.head = some a := hch.1
    have hs1 : q.size = 1 := by simpa using hsz
    refine ⟨w, q, q, ?_, hq, hq, ⟨q, hq, hch, hsz, htl⟩, ?_, ?_, rfl, sameVals_refl _, fun _ => rfl⟩
    · simp [q_reverse, hq, hh, hs1]
    · rw [hh, htl]; rfl
    · rw [hh, htl]; rfl
  | hd :: cur :: rest, hch, hsz, htl, hf =>
    have hnd := chain_nodup _ _ _ hch
    obtain ⟨hh, pn, hpn, hch1⟩ := hch
    obtain ⟨hpnn, cn, hcn, hch2⟩ := hch1
    have hs1 : q.size ≠ 1 := by
      rw [hsz]; simp only [List.length_cons]; push_cast; omega
    obtain ⟨h1, prev1, cur1, D, c1, hrun, hseg, hlist, hc1, hhd, hsv⟩ :=
      reverse_loop_spec hd rest fuel w.heap hd cur cn.next [] cn
        (by simp only [List.length_cons] at hf; omega) rfl hcn hch2 (by simpa using hnd)
    have hnd2 : (hd :: cur1 :: D).Nodup := by
      rw [hlist]
      have : (hd :: (rest.reverse ++ [cur])).Nodup := by
        simp only [List.nodup_cons, List.nodup_append, List.mem_append, List.mem_cons,
          List.mem_reverse, List.nodup_reverse, List.disjoint_left, not_or,
          List.mem_singleton, List.not_mem_nil, or_false] at hnd ⊢
        obtain ⟨⟨h1, h2⟩, ⟨h3, h4⟩⟩ := hnd
        refine ⟨⟨h2, h1⟩, h4, by simp, ?_⟩
        intro x hx e
        exact h3 (e ▸ hx)
      exact this
    simp only [List.nodup_cons, List.mem_cons, not_or] at hnd2
    obtain ⟨⟨hhdc1, hhdD⟩, hc1D, _⟩ := hnd2
    have hseg2 : lseg (h1.set cur1 (some { c1 with next := some prev1 })) (some cur1)
        (cur1 :: D) (some hd) :=
      ⟨rfl, _, Heap.set_same _ _ _, lseg_set h1 cur1 _ D hc1D _ _ hseg⟩
    have hhd2 : (h1.set cur1 (some { c1 with next := some prev1 })) hd = some pn := by
      rw [Heap.set_other _ _ _ _ hhdc1, hhd]; exact hpn
    have hfinal : chain (((h1.set cur1 (some { c1 with next := some prev1 })).set hd
        (some { pn with next := none }))) (some cur1) ((hd :: cur :: rest).reverse) := by
      have e : (hd :: cur :: rest).reverse = (cur1 :: D) ++ [hd] := by
        rw [hlist]; simp
      rw [e]
      refine (lseg_append _ _ _ _ _).2 ⟨some hd, ?_, ?_⟩
      · apply lseg_set _ _ _ _ _ _ _ hseg2
        simp only [List.mem_cons, not_or]
        exact ⟨hhdc1, hhdD⟩
      · exact ⟨rfl, _, Heap.set_same _ _ _, rfl⟩
    have hhead : some cur1 = q.tail := by
      rw [htl, ← List.head?_reverse]
      have e : (hd :: cur :: rest).reverse = (cur1 :: D) ++ [hd] := by
        rw [hlist]; simp
      rw [e]; rfl
    refine ⟨⟨(h1.set cur1 (some { c1 with next := some prev1 })).set hd
        (some { pn with next := none }), some ⟨some cur1, q.head, q.size⟩⟩,
      q, ⟨some cur1, q.head, q.size⟩, ?_, hq, rfl,
      ⟨_, rfl, hfinal, ?_, ?_⟩, hhead, rfl, rfl, ?_, ?_⟩
    · simp only [q_reverse, hq, hh, hs1, hpn, Option.bind_eq_bind, Option.some_bind, if_false]
      rw [hpnn]
      simp only [Option.some_bind, hcn, hrun, hc1, hhd2]
    · simpa using hsz
    · simp [hh]
    · exact sameVals_trans _ _ _ hsv (sameVals_trans _ _ _
        (sameVals_set_next h1 cur1 c1 _ hc1) (sameVals_set_next _ hd pn _ hhd2))
    · intro hle; simp at hle

/-! ## `strcmp` is a total preorder -/

theorem strcmp_swap (x : List Nat) : ∀ (y : List Nat), strcmp y x = - strcmp x y := by
  induction x with
  | nil =>
    intro y
    cases y with
    | nil => simp [strcmp]
    | cons b bs => simp [strcmp]
  | cons a as ih =>
    intro y
    cases y with
    | nil => simp [strcmp]
    | cons b bs =>
      simp only [strcmp]
      by_cases hab : a = b
      · subst hab
        by_cases h0 : a = 0
        · simp [h0]
        · simp [h0, ih bs]
      · have hba : b ≠ a := fun e => hab e.symm
        simp [hab, hba]

theorem strcmp_trans (x : List Nat) :
    ∀ (y z : List Nat), strcmp x y ≤ 0 → strcmp y z ≤ 0 → strcmp x z ≤ 0 := by
  induction x with
  | nil =>
    intro y z _ _
    cases z with
    | nil => simp [strcmp]
    | cons c cs => simp [strcmp]
  | cons a as ih =>
    intro y z hxy hyz
    cases y with
    | nil =>
      cases z with
      | nil => simpa [strcmp] using hxy
      | cons c cs =>
        simp only [strcmp] at hxy hyz ⊢
        split_ifs <;> omega
    | cons b bs =>
      cases z with
      | nil =>
        simp only [strcmp] at hxy hyz ⊢
        split_ifs at hxy <;> omega
      | cons c cs =>
        simp only [strcmp] at hxy hyz ⊢
        by_cases hab : a = b
        · subst hab
          by_cases hac : a = c
          · subst hac
            by_cases h0 : a = 0
            · simp [h0]
            · simp only [ne_eq, not_true_eq_false, if_false, h0] at hxy hyz ⊢
              exact ih bs cs hxy hyz
          · simp only [ne_eq, hac, not_false_eq_true, if_true] at hyz ⊢
            exact hyz
        · simp only [ne_eq, hab, not_false_eq_true, if_true] at hxy
          by_cases hbc : b = c
          · subst hbc
            simp only [ne_eq, hab, not_false_eq_true, if_true]
            exact hxy
          · simp only [ne_eq, hbc, not_false_eq_true, if_true] at hyz
            split_ifs <;> omega

theorem strcmp_cstr_left (x : List Nat) : ∀ (y : List Nat), strcmp (cstr x) y = strcmp x y := by
  induction x with
  | nil => intro y; rfl
  | cons a as ih =>
    intro y
    by_cases h0 : a = 0
    · subst h0
      cases y with
      | nil => simp [cstr, strcmp]
      | cons b bs =>
        by_cases hb : b = 0
        · simp [cstr, strcmp, hb]
        · have : ¬ 0 = b := fun e => hb e.symm
          simp [cstr, strcmp, this]
    · have hc : cstr (a :: as) = a :: cstr as := by simp [cstr, h0]
      rw [hc]
      cases y with
      | nil => simp [strcmp]
      | cons b bs => simp only [strcmp, ih bs]

theorem strcmp_cstr (x y : List Nat) : strcmp (cstr x) (cstr y) = strcmp x y := by
  rw [strcmp_cstr_left, strcmp_swap, strcmp_cstr_left, ← strcmp_swap]

theorem le_val_total (val : Ptr → List Nat) (a b : Ptr)
    (h : ¬ strcmp (val a) (val b) < 0) : le_val val b a := by
  unfold le_val
  rw [strcmp_swap]
  omega

theorem le_val_trans (val : Ptr → List Nat) (a b c : Ptr)
    (h1 : le_val val a b) (h2 : le_val val b c) : le_val val a c :=
  strcmp_trans _ _ _ h1 h2

/-! ## The pure merge sort -/

theorem mergeL_nil_left (val : Ptr → List Nat) (r : List Ptr) : mergeL val [] r = r := by
  rw [mergeL]

theorem mergeL_nil_right (val : Ptr → List Nat) (l : List Ptr) : mergeL val l [] = l := by
  cases l with
  | nil => rw [mergeL]
  | cons a l => rw [mergeL]

theorem mergeL_cons_cons (val : Ptr → List Nat) (a b : Ptr) (l r : List Ptr) :
    mergeL val (a :: l) (b :: r) =
      if strcmp (val a) (val b) < 0 then a :: mergeL val l (b :: r)
      else b :: mergeL val (a :: l) r := by
  rw [mergeL]

theorem mergeL_perm (val : Ptr → List Nat) (l : List Ptr) :
    ∀ (r : List Ptr), (mergeL val l r).Perm (l ++ r) := by
  induction l with
  | nil => intro r; rw [mergeL_nil_left]; exact List.Perm.refl _
  | cons a l ihl =>
    intro r
    induction r with
    | nil => rw [mergeL_nil_right]; simp
    | cons b r ihr =>
      rw [mergeL_cons_cons]
      split_ifs
      · exact List.Perm.cons a (ihl (b :: r))
      · refine (List.Perm.cons b ihr).trans ?_
        exact List.perm_middle.symm

theorem mergeL_sorted (val : Ptr → List Nat) (l : List Ptr) :
    ∀ (r : List Ptr), l.Pairwise (le_val val) → r.Pairwise (le_val val) →
      (mergeL val l r).Pairwise (le_val val) := by
  induction l with
  | nil => intro r _ hr; rw [mergeL_nil_left]; exact hr
  | cons a l ihl =>
    intro r
    induction r with
    | nil => intro hl _; rw [mergeL_nil_right]; exact hl
    | cons b r ihr =>
      intro hl hr
      rw [mergeL_cons_cons]
      have hl' := List.pairwise_cons.1 hl
      have hr' := List.pairwise_cons.1 hr
      split_ifs with hlt
      · refine List.pairwise_cons.2 ⟨?_, ihl (b :: r) hl'.2 hr⟩
        intro x hx
        have hx' := (mergeL_perm val l (b :: r)).subset hx
        have hab : le_val val a b := by unfold le_val; omega
        rcases List.mem_append.1 hx' with hxl | hxr
        · exact hl'.1 x hxl
        · rcases List.mem_cons.1 hxr with rfl | hxr'
          · exact hab
          · exact le_val_trans val _ _ _ hab (hr'.1 x hxr')
      · refine List.pairwise_cons.2 ⟨?_, ihr hl hr'.2⟩
        intro x hx
        have hx' := (mergeL_perm val (a :: l) r).subset hx
        have hba : le_val val b a := le_val_total val a b hlt
        rcases List.mem_append.1 hx' with hxl | hxr
        · rcases List.mem_cons.1 hxl with rfl | hxl'
          · exact hba
          · exact le_val_trans val _ _ _ hba (hl'.1 x hxl')
        · exact hr'.1 x hxr

theorem sortL_perm (val : Ptr → List Nat) (fuel : Nat) :
    ∀ (l : List Ptr), (sortL val fuel l).Perm l := by
  induction fuel with
  | zero => intro l; exact List.Perm.refl _
  | succ k ih =>
    intro l
    simp only [sortL]
    split_ifs
    · exact List.Perm.refl _
    · refine (mergeL_perm val _ _).trans ?_
      refine ((ih _).append (ih _)).trans ?_
      rw [List.take_append_drop]

theorem sortL_sorted (val : Ptr → List Nat) (fuel : Nat) :
    ∀ (l : List Ptr), l.length ≤ fuel → (sortL val fuel l).Pairwise (le_val val) := by
  induction fuel with
  | zero =>
    intro l hl
    have : l = [] := List.length_eq_zero.1 (by omega)
    subst this
    exact List.Pairwise.nil
  | succ k ih =>
    intro l hl
    simp only [sortL]
    split_ifs with h1
    · match l, h1 with
      | [], _ => exact List.Pairwise.nil
      | [a], _ => exact List.pairwise_singleton _ _
      | _ :: _ :: _, h1 => simp at h1
    · apply mergeL_sorted
      · apply ih
        rw [List.length_take]; omega
      · apply ih
        rw [List.length_drop]; omega

/-! ## The slow/fast walk -/

theorem chain_get (h : Heap) (l : List Ptr) :
    ∀ (p : Option Ptr) (j : Nat) (a : Ptr), chain h p l → l[j]? = some a →
      ∃ n, h a = some n ∧ n.next = l[j + 1]? := by
  induction l with
  | nil => intro p j a _ hj; simp at hj
  | cons b t ih =>
    intro p j a hp hj
    obtain ⟨_, n, hn, ht⟩ := hp
    cases j with
    | zero =>
      simp only [List.getElem?_cons_zero, Option.some.injEq] at hj
      subst hj
      refine ⟨n, hn, ?_⟩
      have := chain_head h _ _ ht
      rw [this]
      cases t <;> simp
    | succ j =>
      simp only [List.getElem?_cons_succ] at hj ⊢
      exact ih _ j a ht hj

theorem chain_drop (h : Heap) (l : List Ptr) (p : Option Ptr) (k : Nat) (hp : chain h p l) :
    chain h l[k]? (l.drop k) := by
  have hp' : chain h p (l.take k ++ l.drop k) := by rw [List.take_append_drop]; exact hp
  have := chain_suffix h _ _ _ hp'
  simpa using this

theorem lseg_relink (h : Heap) (l1 : List Ptr) (a : Ptr) (n : list_ele_t) (p e e' : Option Ptr)
    (hp : lseg h p (l1 ++ [a]) e) (hnd : a ∉ l1) :
    lseg (h.set a (some { n with next := e' })) p (l1 ++ [a]) e' := by
  obtain ⟨m, h1, h2⟩ := (lseg_append h l1 [a] p e).1 hp
  refine (lseg_append _ l1 [a] p e').2 ⟨m, lseg_set h a _ l1 hnd _ _ h1, ?_⟩
  exact ⟨h2.1, _, Heap.set_same _ _ _, rfl⟩

theorem split_loop_spec (h : Heap) (l : List Ptr) (p : Option Ptr) (hp : chain h p l) :
    ∀ (fuel i : Nat), i < l.length → i ≤ (l.length - 1) / 2 → (l.length - 1) / 2 - i < fuel →
      split_loop fuel h l[i]? l[2 * i + 1]? = some l[(l.length - 1) / 2]? := by
  intro fuel
  induction fuel with
  | zero => intro i _ _ hf; omega
  | succ k ih =>
    intro i hi him hf
    rcases hr : l[2 * i + 1]? with _ | r
    · have hlen := List.getElem?_eq_none_iff.1 hr
      have : (l.length - 1) / 2 = i := by omega
      rw [this]; rfl
    · obtain ⟨rn, hrn, hrnn⟩ := chain_get h l p _ r hp hr
      rcases hr1 : l[2 * i + 1 + 1]? with _ | r1
      · have hlen := List.getElem?_eq_none_iff.1 hr1
        have hlen2 := (List.getElem?_eq_some.1 hr).1
        have : (l.length - 1) / 2 = i := by omega
        rw [this]
        simp only [split_loop, hrn, Option.bind_eq_bind, Option.some_bind, hrnn, hr1]
      · obtain ⟨r1n, hr1n, hr1nn⟩ := chain_get h l p _ r1 hp hr1
        have hlen2 := (List.getElem?_eq_some.1 hr1).1
        have hli : l[i]? = some l[i] := List.getElem?_eq_getElem hi
        obtain ⟨ln, hln, hlnn⟩ := chain_get h l p _ _ hp hli
        have hrec := ih (i + 1) (by omega) (by omega) (by omega)
        have e : 2 * (i + 1) + 1 = 2 * i + 1 + 1 + 1 := by ring
        rw [e] at hrec
        simp only [split_loop, hrn, Option.bind_eq_bind, Option.some_bind, hrnn, hr1, hr1n,
          hli, hln, hlnn, hr1nn]
        exact hrec

/-! ## The merge -/

theorem emit_step (app : Loc) (h : Heap) (head : Option Ptr) (out : List Ptr) (x : Ptr)
    (xn : list_ele_t) (hok : appOK app h head out) (hx : h x = some xn) (hxo : x ∉ out) :
    ∃ h1 head1, app.store h head (some x) = some (h1, head1) ∧ h1 x = some xn ∧
      app.load h1 head1 = some (some x) ∧
      appOK (.next x) (h1.set x (some { xn with next := none })) head1 (out ++ [x]) ∧
      sameVals h h1 ∧ (∀ y, y ∉ out → h1 y = h y) := by
  cases app with
  | var =>
    have hout : out = [] := hok
    subst hout
    refine ⟨h, some x, rfl, hx, rfl, ⟨⟨[], rfl⟩, ?_⟩, sameVals_refl h, fun _ _ => rfl⟩
    exact ⟨rfl, _, Heap.set_same _ _ _, rfl⟩
  | next p =>
    obtain ⟨⟨o1, ho1⟩, hch⟩ := hok
    subst ho1
    have hnd := chain_nodup _ _ _ hch
    have hpo1 : p ∉ o1 := by
      intro hm
      have := List.nodup_append.1 hnd
      exact this.2.2 hm (List.mem_singleton_self p)
    obtain ⟨pn, hpn⟩ := chain_live _ _ _ hch p (by simp)
    have hxp : x ≠ p := by
      rintro rfl
      exact hxo (by simp)
    have h1x : (h.set p (some { pn with next := some x })) x = some xn := by
      rw [Heap.set_other _ _ _ _ hxp]; exact hx
    refine ⟨h.set p (some { pn with next := some x }), head, ?_, h1x, ?_, ⟨⟨o1 ++ [p], rfl⟩, ?_⟩,
      sameVals_set_next h p pn _ hpn, ?_⟩
    · simp [Loc.store, hpn]
    · simp [Loc.load]
    · refine (lseg_append _ _ _ _ _).2 ⟨some x, ?_, ⟨rfl, _, Heap.set_same _ _ _, rfl⟩⟩
      exact lseg_set _ x _ _ hxo _ _ (lseg_relink h o1 p pn head none (some x) hch hpo1)
    · intro y hy
      apply Heap.set_other
      rintro rfl
      exact hy (by simp)

theorem final_store (app : Loc) (h : Heap) (head : Option Ptr) (out : List Ptr)
    (r : Option Ptr) (rest : List Ptr) (hok : appOK app h head out) (hr : chain h r rest)
    (hdisj : ∀ y ∈ rest, y ∉ out) :
    ∃ h' head', app.store h head r = some (h', head') ∧ chain h' head' (out ++ rest) ∧
      sameVals h h' ∧ (∀ y, y ∉ out → h' y = h y) := by
  cases app with
  | var =>
    have hout : out = [] := hok
    subst hout
    exact ⟨h, r, rfl, hr, sameVals_refl h, fun _ _ => rfl⟩
  | next p =>
    obtain ⟨⟨o1, ho1⟩, hch⟩ := hok
    subst ho1
    have hnd := chain_nodup _ _ _ hch
    have hpo1 : p ∉ o1 := by
      intro hm
      have := List.nodup_append.1 hnd
      exact this.2.2 hm (List.mem_singleton_self p)
    obtain ⟨pn, hpn⟩ := chain_live _ _ _ hch p (by simp)
    have hprest : p ∉ rest := fun hm => hdisj p hm (by simp)
    refine ⟨h.set p (some { pn with next := r }), head, ?_, ?_, sameVals_set_next h p pn _ hpn, ?_⟩
    · simp [Loc.store, hpn]
    · refine (lseg_append _ _ _ _ _).2 ⟨r, ?_, lseg_set _ p _ _ hprest _ _ hr⟩
      exact lseg_relink h o1 p pn head none r hch hpo1
    · intro y hy
      apply Heap.set_other
      rintro rfl
      exact hy (by simp)

theorem valOf_eq_of_sameVals (h h' : Heap) (hs : sameVals h h') : valOf h' = valOf h :=
  funext (valOf_sameVals h h' hs)

theorem merge_loop_spec :
    ∀ (fuel : Nat) (L R : List Ptr) (h : Heap) (head : Option Ptr) (app : Loc)
      (lhead rhead : Option Ptr) (out : List Ptr),
      0 < fuel → L.length + R.length ≤ fuel →
      appOK app h head out → chain h lhead L → chain h rhead R →
      (out ++ (L ++ R)).Nodup →
      ∃ h' head', merge_loop fuel h head app lhead rhead = some (h', head') ∧
        chain h' head' (out ++ mergeL (valOf h) L R) ∧ sameVals h h' ∧
        (∀ y, y ∉ out ++ (L ++ R) → h' y = h y) := by
  intro fuel
  induction fuel with
  | zero => intro L R h head app lhead rhead out h0; omega
  | succ k ih =>
    intro L R h head app lhead rhead out _ hf hok hL hR hnd
    match L, R, hL, hR, hf, hnd with
    | [], R, hL, hR, _, hnd =>
      have hl : lhead = none := hL
      subst hl
      obtain ⟨h', head', hst, hch, hsv, hfr⟩ := final_store app h head out rhead R hok hR
        (fun y hy hyo => (List.nodup_append.1 hnd).2.2 hyo (by simpa using hy))
      refine ⟨h', head', ?_, ?_, hsv, fun y hy => hfr y (fun hyo => hy (by simp [hyo]))⟩
      · simp only [merge_loop]
        simpa using hst
      · rw [mergeL_nil_left]; exact hch
    | a :: L', [], hL, hR, _, hnd =>
      have hr : rhead = none := hR
      subst hr
      have hla : lhead = some a := hL.1
      subst hla
      obtain ⟨h', head', hst, hch, hsv, hfr⟩ := final_store app h head out (some a) (a :: L') hok
        hL (fun y hy hyo => (List.nodup_append.1 hnd).2.2 hyo (by simpa using hy))
      refine ⟨h', head', ?_, ?_, hsv, fun y hy => hfr y (fun hyo => hy (by simp [hyo]))⟩
      · simp only [merge_loop]
        simpa using hst
      · rw [mergeL_nil_right]; exact hch
    | a :: L', b :: R', hL, hR, hf, hnd =>
      have hL0 := hL
      have hR0 := hR
      obtain ⟨hla, an, han, hL'⟩ := hL
      obtain ⟨hrb, bn, hbn, hR'⟩ := hR
      subst hla
      subst hrb
      have hnd' := hnd
      simp only [List.nodup_cons, List.nodup_append, List.mem_append, List.mem_cons,
        List.disjoint_left, not_or, List.cons_append] at hnd'
      obtain ⟨hout, ⟨⟨haL', hab, haR'⟩, hL'nd, ⟨hbR', hR'nd⟩, hLR⟩, hdisj⟩ := hnd'
      have hva : valOf h a = an.value := by simp [valOf, han]
      have hvb : valOf h b = bn.value := by simp [valOf, hbn]
      by_cases hlt : strcmp an.value bn.value < 0
      · have hao : a ∉ out := fun hm => (hdisj hm).1 rfl
        obtain ⟨h1, head1, hst, h1a, hld, hok1, hsv1, hfr1⟩ :=
          emit_step app h head out a an hok han hao
        have hsv2 : sameVals h (h1.set a (some { an with next := none })) :=
          sameVals_trans _ _ _ hsv1 (sameVals_set_next h1 a an _ h1a)
        have hfr2 : ∀ y, y ∉ out → y ≠ a →
            (h1.set a (some { an with next := none })) y = h y := by
          intro y hy hya
          rw [Heap.set_other _ _ _ _ hya, hfr1 y hy]
        have hL2 : chain (h1.set a (some { an with next := none })) an.next L' := by
          apply lseg_congr h _ L' _ _ _ hL'
          intro y hy
          exact hfr2 y (fun hm => (hdisj hm).2.1 hy) (fun e => haL' (e ▸ hy))
        have hR2 : chain (h1.set a (some { an with next := none })) (some b) (b :: R') := by
          apply lseg_congr h _ (b :: R') _ _ _ hR0
          intro y hy
          rcases List.mem_cons.1 hy with rfl | hy'
          · exact hfr2 y (fun hm => (hdisj hm).2.2.1 rfl) (fun e => hab e.symm)
          · exact hfr2 y (fun hm => (hdisj hm).2.2.2 hy') (fun e => haR' (e ▸ hy'))
        have hnd2 : ((out ++ [a]) ++ (L' ++ b :: R')).Nodup := by
          have : (out ++ [a]) ++ (L' ++ b :: R') = out ++ (a :: L' ++ b :: R') := by simp
          rw [this]; exact hnd
        obtain ⟨h', head', hrun, hch, hsv, hfr⟩ :=
          ih L' (b :: R') _ head1 (.next a) an.next (some b) (out ++ [a]) (by
            simp only [List.length_cons] at hf ⊢; omega) (by
            simp only [List.length_cons] at hf ⊢; omega) hok1 hL2 hR2 hnd2
        refine ⟨h', head', ?_, ?_, sameVals_trans _ _ _ hsv2 hsv, ?_⟩
        · simp only [merge_loop, han, hbn, Option.bind_eq_bind, Option.some_bind, hlt, if_true,
            hst, h1a, hld]
          exact hrun
        · rw [mergeL_cons_cons, hva, hvb, if_pos hlt]
          rw [valOf_eq_of_sameVals _ _ hsv2] at hch
          simpa using hch
        · intro y hy
          have hy' : y ∉ (out ++ [a]) ++ (L' ++ b :: R') := by
            intro hm; apply hy; simpa using hm
          rw [hfr y hy']
          apply hfr2 y
          · intro hm; apply hy; simp [hm]
          · rintro rfl; apply hy; simp
      · have hbo : b ∉ out := fun hm => (hdisj hm).2.2.1 rfl
        obtain ⟨h1, head1, hst, h1b, hld, hok1, hsv1, hfr1⟩ :=
          emit_step app h head out b bn hok hbn hbo
        have hsv2 : sameVals h (h1.set b (some { bn with next := none })) :=
          sameVals_trans _ _ _ hsv1 (sameVals_set_next h1 b bn _ h1b)
        have hfr2 : ∀ y, y ∉ out → y ≠ b →
            (h1.set b (some { bn with next := none })) y = h y := by
          intro y hy hyb
          rw [Heap.set_other _ _ _ _ hyb, hfr1 y hy]
        have hR2 : chain (h1.set b (some { bn with next := none })) bn.next R' := by
          apply lseg_congr h _ R' _ _ _ hR'
          intro y hy
          exact hfr2 y (fun hm => (hdisj hm).2.2.2 hy) (fun e => hbR' (e ▸ hy))
        have hL2 : chain (h1.set b (some { bn with next := none })) (some a) (a :: L') := by
          apply lseg_congr h _ (a :: L') _ _ _ hL0
          intro y hy
          rcases List.mem_cons.1 hy with rfl | hy'
          · exact hfr2 y (fun hm => (hdisj hm).1 rfl) hab
          · exact hfr2 y (fun hm => (hdisj hm).2.1 hy') (fun e => (hLR hy').1 e)
        have hnd2 : ((out ++ [b]) ++ (a :: L' ++ R')).Nodup := by
          have hp : ((out ++ [b]) ++ (a :: L' ++ R')).Perm (out ++ (a :: L' ++ b :: R')) := by
            rw [List.append_assoc]
            apply List.Perm.append_left
            simp only [List.singleton_append]
            exact List.perm_middle.symm
          exact hp.nodup_iff.2 hnd
        obtain ⟨h', head', hrun, hch, hsv, hfr⟩ :=
          ih (a :: L') R' _ head1 (.next b) (some a) bn.next (out ++ [b]) (by
            simp only [List.length_cons] at hf ⊢; omega) (by
            simp only [List.length_cons] at hf ⊢; omega) hok1 hL2 hR2 hnd2
        refine ⟨h', head', ?_, ?_, sameVals_trans _ _ _ hsv2 hsv, ?_⟩
        · simp only [merge_loop, han, hbn, Option.bind_eq_bind, Option.some_bind, hlt, if_false,
            hst, h1b, hld]
          exact hrun
        · rw [mergeL_cons_cons, hva, hvb, if_neg hlt]
          rw [valOf_eq_of_sameVals _ _ hsv2] at hch
          simpa using hch
        · intro y hy
          have hy' : y ∉ (out ++ [b]) ++ (a :: L' ++ R') := by
            intro hm; apply hy
            simp only [List.mem_append, List.mem_cons, List.mem_singleton] at hm ⊢
            tauto
          rw [hfr y hy']
          apply hfr2 y
          · intro hm; apply hy; simp [hm]
          · rintro rfl; apply hy; simp

/-! ## `split_and_merge` and `q_sort` -/

theorem sortL_short (val : Ptr → List Nat) (fuel : Nat) (l : List Ptr) (hl : l.length ≤ 1) :
    sortL val fuel l = l := by
  cases fuel with
  | zero => rfl
  | succ k => simp [sortL, hl]

theorem split_and_merge_spec :
    ∀ (fuel : Nat) (h : Heap) (p : Option Ptr) (l : List Ptr),
      l ≠ [] → l.length ≤ fuel → chain h p l →
      ∃ h' p', split_and_merge fuel h p = some (h', p') ∧
        chain h' p' (sortL (valOf h) fuel l) ∧ sameVals h h' ∧ (∀ y, y ∉ l → h' y = h y) := by
  intro fuel
  induction fuel with
  | zero =>
    intro h p l hne hlen _
    exact absurd (List.length_eq_zero.1 (by omega)) hne
  | succ k ih =>
    intro h p l hne hlen hch
    have hpos : 0 < l.length := List.length_pos.2 hne
    have ha : l[0]? = some l[0] := List.getElem?_eq_getElem hpos
    generalize l[0] = a at ha
    have hp : p = some a := by
      rw [chain_head h p l hch, List.head?_eq_getElem?, ha]
    subst hp
    obtain ⟨an, han, hann⟩ := chain_get h l _ 0 a hch ha
    rcases hb : l[0 + 1]? with _ | b
    · have hl1 : l.length ≤ 1 := List.getElem?_eq_none_iff.1 hb
      rw [hb] at hann
      refine ⟨h, some a, ?_, ?_, sameVals_refl h, fun _ _ => rfl⟩
      · simp [split_and_merge, han, hann]
      · rw [sortL_short _ _ _ hl1]; exact hch
    · have hl2 : 2 ≤ l.length := by
        have := (List.getElem?_eq_some.1 hb).1
        omega
      rw [hb] at hann
      have hnd := chain_nodup h l _ hch
      have hsplit := split_loop_spec h l _ hch (k + 1) 0 hpos (Nat.zero_le _) (by omega)
      rw [ha] at hsplit
      simp only [Nat.mul_zero] at hsplit
      rw [hb] at hsplit
      have hm : (l.length - 1) / 2 < l.length := by omega
      have hmid : l[(l.length - 1) / 2]? = some l[(l.length - 1) / 2] :=
        List.getElem?_eq_getElem hm
      generalize l[(l.length - 1) / 2] = mid at hmid
      rw [hmid] at hsplit
      obtain ⟨mn, hmn, hmnn⟩ := chain_get h l _ _ mid hch hmid
      have hk : (l.length - 1) / 2 + 1 = (l.length + 1) / 2 := by omega
      rw [hk] at hmnn
      have hA : l.take ((l.length + 1) / 2) = l.take ((l.length - 1) / 2) ++ [mid] := by
        rw [← hk, List.take_succ, hmid]; rfl
      have hsplitl : l = l.take ((l.length + 1) / 2) ++ l.drop ((l.length + 1) / 2) :=
        (List.take_append_drop _ _).symm
      have hnd2 : (l.take ((l.length + 1) / 2) ++ l.drop ((l.length + 1) / 2)).Nodup := by
        rw [← hsplitl]; exact hnd
      have hdisj := (List.nodup_append.1 hnd2).2.2
      have hAnd := (List.nodup_append.1 hnd2).1
      have hmidA : mid ∈ l.take ((l.length + 1) / 2) := by rw [hA]; simp
      have hmidB : mid ∉ l.drop ((l.length + 1) / 2) := fun hm => hdisj hmidA hm
      have hmidA' : mid ∉ l.take ((l.length - 1) / 2) := by
        rw [hA] at hAnd
        intro hm
        exact (List.nodup_append.1 hAnd).2.2 hm (List.mem_singleton_self _)
      have hch' : chain h (some a) (l.take ((l.length + 1) / 2) ++ l.drop ((l.length + 1) / 2)) := by
        rw [← hsplitl]; exact hch
      obtain ⟨mm, hsegA, _⟩ := (lseg_append h _ _ _ _).1 hch'
      have hchA : chain (h.set mid (some { mn with next := none })) (some a)
          (l.take ((l.length + 1) / 2)) := by
        rw [hA] at hsegA ⊢
        exact lseg_relink h _ mid mn _ _ none hsegA hmidA'
      have hchB : chain (h.set mid (some { mn with next := none })) mn.next
          (l.drop ((l.length + 1) / 2)) := by
        rw [hmnn]
        exact lseg_set h mid _ _ hmidB _ _ (chain_drop h l _ _ hch)
      have hlenA : (l.take ((l.length + 1) / 2)).length = (l.length + 1) / 2 := by
        rw [List.length_take]; omega
      have hlenB : (l.drop ((l.length + 1) / 2)).length = l.length - (l.length + 1) / 2 := by
        rw [List.length_drop]
      have hAne : l.take ((l.length + 1) / 2) ≠ [] := by
        intro e; rw [e] at hlenA; simp at hlenA; omega
      have hBne : l.drop ((l.length + 1) / 2) ≠ [] := by
        intro e; rw [e] at hlenB; simp at hlenB; omega
      have hsv1 : sameVals h (h.set mid (some { mn with next := none })) :=
        sameVals_set_next h mid mn _ hmn
      obtain ⟨h2, lhead2, hrun1, hch1, hsv12, hfr1⟩ :=
        ih _ _ _ hAne (by rw [hlenA]; omega) hchA
      have hchB2 : chain h2 mn.next (l.drop ((l.length + 1) / 2)) := by
        apply lseg_congr _ _ _ _ _ _ hchB
        intro y hy
        exact hfr1 y (fun hyA => hdisj hyA hy)
      obtain ⟨h3, rhead2, hrun2, hch2, hsv23, hfr2⟩ :=
        ih _ _ _ hBne (by rw [hlenB]; omega) hchB2
      have hv1 := valOf_eq_of_sameVals _ _ hsv1
      have hv2 := valOf_eq_of_sameVals _ _ (sameVals_trans _ _ _ hsv1 hsv12)
      have hv3 := valOf_eq_of_sameVals _ _
        (sameVals_trans _ _ _ (sameVals_trans _ _ _ hsv1 hsv12) hsv23)
      rw [hv1] at hch1
      rw [hv2] at hch2
      have hpA := sortL_perm (valOf h) k (l.take ((l.length + 1) / 2))
      have hpB := sortL_perm (valOf h) k (l.drop ((l.length + 1) / 2))
      have hch1' : chain h3 lhead2 (sortL (valOf h) k (l.take ((l.length + 1) / 2))) := by
        apply lseg_congr _ _ _ _ _ _ hch1
        intro y hy
        exact hfr2 y (fun hyB => hdisj (hpA.subset hy) hyB)
      have hndm : ([] ++ (sortL (valOf h) k (l.take ((l.length + 1) / 2)) ++
          sortL (valOf h) k (l.drop ((l.length + 1) / 2)))).Nodup := by
        rw [List.nil_append]
        exact ((hpA.append hpB).nodup_iff).2 hnd2
      obtain ⟨h', head', hrun3, hch3, hsv3, hfr3⟩ :=
        merge_loop_spec (k + 1) _ _ h3 none .var lhead2 rhead2 [] (Nat.succ_pos _) (by
          rw [hpA.length_eq, hpB.length_eq, hlenA, hlenB]; omega) rfl hch1' hch2 hndm
      refine ⟨h', head', ?_, ?_, sameVals_trans _ _ _
          (sameVals_trans _ _ _ (sameVals_trans _ _ _ hsv1 hsv12) hsv23) hsv3, ?_⟩
      · simp only [split_and_merge, han, hann, Option.bind_eq_bind, Option.some_bind, hsplit,
          hmn, hrun1, hrun2]
        exact hrun3
      · rw [hv3, List.nil_append] at hch3
        have hnot : ¬ l.length ≤ 1 := by omega
        simp only [sortL, hnot, if_false]
        exact hch3
      · intro y hy
        have hyA : y ∉ l.take ((l.length + 1) / 2) := fun hm => hy (List.mem_of_mem_take hm)
        have hyB : y ∉ l.drop ((l.length + 1) / 2) := fun hm => hy (List.mem_of_mem_drop hm)
        have hymid : y ≠ mid := fun e => hyA (e ▸ hmidA)
        rw [hfr3 y, hfr2 y hyB, hfr1 y hyA, Heap.set_other _ _ _ _ hymid]
        rw [List.nil_append]
        intro hm
        rcases List.mem_append.1 hm with hm | hm
        · exact hyA (hpA.subset hm)
        · exact hyB (hpB.subset hm)

theorem tail_loop_spec (h : Heap) (l2 : List Ptr) :
    ∀ (fuel : Nat) (t : Ptr), l2.length < fuel → chain h (some t) (t :: l2) →
      tail_loop fuel h (some t) = some (t :: l2).getLast? := by
  induction l2 with
  | nil =>
    intro fuel t hf hch
    obtain ⟨_, n, hn, hnn⟩ := hch
    have hnn' : n.next = none := hnn
    cases fuel with
    | zero => simp at hf
    | succ k => simp [tail_loop, hn, hnn']
  | cons b l2 ih =>
    intro fuel t hf hch
    obtain ⟨_, n, hn, hnn⟩ := hch
    have hnb : n.next = some b := hnn.1
    cases fuel with
    | zero => simp at hf
    | succ k =>
      have := ih k b (by simpa using hf) (hnb ▸ hnn)
      simp only [tail_loop, hn, hnb, Option.bind_eq_bind, Option.some_bind, this,
        List.getLast?_cons_cons]

theorem tail_loop_mem (h : Heap) (l : List Ptr) (p : Option Ptr) (t : Ptr) (fuel : Nat)
    (hch : chain h p l) (ht : t ∈ l) (hf : l.length ≤ fuel) :
    tail_loop fuel h (some t) = some l.getLast? := by
  obtain ⟨l1, l2, rfl⟩ := List.append_of_mem ht
  have hs := chain_suffix h l1 (t :: l2) p hch
  have := tail_loop_spec h l2 fuel t (by simp at hf; omega) (by simpa using hs)
  rw [this, List.getLast?_append, List.getLast?_eq_getLast (t :: l2) (List.cons_ne_nil _ _)]
  rfl

theorem q_sort_spec (fuel : Nat) (w : World) (l : List Ptr) (hwf : wf w l)
    (hf : l.length ≤ fuel) :
    ∃ w' q q', q_sort fuel w = some w' ∧ w.q = some q ∧ w'.q = some q' ∧
      wf w' (sortL (valOf w.heap) fuel l) ∧ q'.size = q.size ∧
      sameVals w.heap w'.heap ∧ (l.length ≤ 1 → w' = w) ∧
      (∀ y, y ∉ l → w'.heap y = w.heap y) := by
  obtain ⟨q, hq, hch, hsz, htl⟩ := hwf
  by_cases hl : l.length ≤ 1
  · have hs1 : q.size ≤ 1 := by rw [hsz]; exact_mod_cast hl
    refine ⟨w, q, q, ?_, hq, hq, ⟨q, hq, ?_, ?_, ?_⟩, rfl, sameVals_refl _, fun _ => rfl,
      fun _ _ => rfl⟩
    · simp [q_sort, hq, hs1]
    · rw [sortL_short _ _ _ hl]; exact hch
    · rw [sortL_short _ _ _ hl]; exact hsz
    · rw [sortL_short _ _ _ hl]; exact htl
  · have hs1 : ¬ q.size ≤ 1 := by rw [hsz]; intro hle; exact hl (by exact_mod_cast hle)
    have hne : l ≠ [] := by rintro rfl; simp at hl
    obtain ⟨h1, head1, hrun, hch1, hsv, hfr⟩ := split_and_merge_spec fuel w.heap q.head l hne hf hch
    have hperm := sortL_perm (valOf w.heap) fuel l
    obtain ⟨t, ht⟩ : ∃ t, l.getLast? = some t := by
      cases hlast : l.getLast? with
      | none => exact absurd (List.getLast?_eq_none_iff.1 hlast) hne
      | some t => exact ⟨t, rfl⟩
    have htmem : t ∈ sortL (valOf w.heap) fuel l :=
      hperm.symm.subset (List.mem_of_getLast?_eq_some ht)
    have htail := tail_loop_mem h1 _ head1 t fuel hch1 htmem (by rw [hperm.length_eq]; exact hf)
    refine ⟨⟨h1, some ⟨head1, (sortL (valOf w.heap) fuel l).getLast?, q.size⟩⟩, q,
      ⟨head1, (sortL (valOf w.heap) fuel l).getLast?, q.size⟩, ?_, hq, rfl,
      ⟨_, rfl, hch1, ?_, rfl⟩, rfl, hsv, fun h => absurd h hl, hfr⟩
    · simp only [q_sort, hq, hs1, if_false, hrun, htl, ht, htail, Option.bind_eq_bind,
        Option.some_bind]
    · rw [hperm.length_eq]; exact hsz

/-! ## Equal values after the sort -/

theorem filter_eq_nil_of_lt (val : Ptr → List Nat) (v : List Nat) (a b : Ptr) (R : List Ptr)
    (hlt : strcmp (val a) (val b) < 0) (hav : strcmp (val a) v = 0)
    (hR : (b :: R).Pairwise (le_val val)) :
    (b :: R).filter (fun c => decide (strcmp (val c) v = 0)) = [] := by
  apply List.filter_eq_nil_iff.2
  intro r hr hrv
  have hrv' : strcmp (val r) v = 0 := by simpa using hrv
  have hbr : strcmp (val b) (val r) ≤ 0 := by
    rcases List.mem_cons.1 hr with rfl | hr'
    · have := strcmp_swap (val r) (val r); omega
    · exact (List.pairwise_cons.1 hR).1 r hr'
  have hva : strcmp v (val a) ≤ 0 := by
    have := strcmp_swap (val a) v; omega
  have hra : strcmp (val r) (val a) ≤ 0 := strcmp_trans _ _ _ (by omega) hva
  have hba : strcmp (val b) (val a) ≤ 0 := strcmp_trans _ _ _ hbr hra
  have := strcmp_swap (val a) (val b)
  omega

theorem filter_eqv_pos (val : Ptr → List Nat) (v : List Nat) (a : Ptr) (X : List Ptr)
    (h : strcmp (val a) v = 0) :
    (a :: X).filter (fun c => decide (strcmp (val c) v = 0)) =
      a :: X.filter (fun c => decide (strcmp (val c) v = 0)) :=
  List.filter_cons_of_pos (by simpa using h)

theorem filter_eqv_neg (val : Ptr → List Nat) (v : List Nat) (a : Ptr) (X : List Ptr)
    (h : ¬ strcmp (val a) v = 0) :
    (a :: X).filter (fun c => decide (strcmp (val c) v = 0)) =
      X.filter (fun c => decide (strcmp (val c) v = 0)) :=
  List.filter_cons_of_neg (by simpa using h)

theorem mergeL_filter (val : Ptr → List Nat) (v : List Nat) (l : List Ptr) :
    ∀ (r : List Ptr), r.Pairwise (le_val val) →
      (mergeL val l r).filter (fun c => decide (strcmp (val c) v = 0)) =
        r.filter (fun c => decide (strcmp (val c) v = 0)) ++
          l.filter (fun c => decide (strcmp (val c) v = 0)) := by
  induction l with
  | nil => intro r _; rw [mergeL_nil_left]; simp
  | cons a l ihl =>
    intro r
    induction r with
    | nil => intro _; rw [mergeL_nil_right]; simp
    | cons b r ihr =>
      intro hr
      rw [mergeL_cons_cons]
      split_ifs with hlt
      · have hrec := ihl (b :: r) hr
        by_cases hav : strcmp (val a) v = 0
        · have hnil := filter_eq_nil_of_lt val v a b r hlt hav hr
          rw [filter_eqv_pos val v a _ hav, filter_eqv_pos val v a _ hav, hrec, hnil]
          rfl
        · rw [filter_eqv_neg val v a _ hav, filter_eqv_neg val v a _ hav, hrec]
      · have hrec := ihr (List.pairwise_cons.1 hr).2
        by_cases hbv : strcmp (val b) v = 0
        · rw [filter_eqv_pos val v b _ hbv, filter_eqv_pos val v b _ hbv, hrec]
          rfl
        · rw [filter_eqv_neg val v b _ hbv, filter_eqv_neg val v b _ hbv, hrec]

theorem sortL_filter (val : Ptr → List Nat) (v : List Nat) (fuel : Nat) :
    ∀ (l : List Ptr), l.length ≤ fuel →
      (sortL val fuel l).filter (fun c => decide (strcmp (val c) v = 0)) =
        (l.filter (fun c => decide (strcmp (val c) v = 0))).reverse := by
  induction fuel with
  | zero =>
    intro l hl
    have : l = [] := List.length_eq_zero.1 (by omega)
    subst this
    rfl
  | succ k ih =>
    intro l hl
    simp only [sortL]
    split_ifs with h1
    · match l, h1 with
      | [], _ => rfl
      | [a], _ =>
        by_cases hav : strcmp (val a) v = 0
        · rw [filter_eqv_pos val v a _ hav]; rfl
        · rw [filter_eqv_neg val v a _ hav]; rfl
      | _ :: _ :: _, h1 => simp at h1
    · have hA : (l.take ((l.length + 1) / 2)).length ≤ k := by
        rw [List.length_take]; omega
      have hB : (l.drop ((l.length + 1) / 2)).length ≤ k := by
        rw [List.length_drop]; omega
      rw [mergeL_filter val v _ _ (sortL_sorted val k _ hB), ih _ hA, ih _ hB,
        ← List.reverse_append, ← List.filter_append, List.take_append_drop]

theorem sortL_reverses_equal (val : Ptr → List Nat) (fuel : Nat) (l : List Ptr) (x y : Ptr)
    (hl : l.length ≤ fuel) (hxy : strcmp (val x) (val y) = 0) (hsub : List.Sublist [x, y] l) :
    List.Sublist [y, x] (sortL val fuel l) := by
  have hyy : strcmp (val y) (val y) = 0 := by
    have := strcmp_swap (val y) (val y); omega
  have h1 := hsub.filter (fun c => decide (strcmp (val c) (val y) = 0))
  rw [filter_eqv_pos val (val y) x _ hxy, filter_eqv_pos val (val y) y _ hyy,
    List.filter_nil] at h1
  have h2 := List.reverse_sublist.2 h1
  rw [← sortL_filter val (val y) fuel l hl] at h2
  exact h2.trans (List.filter_sublist _)

/-! ## The claims on `q_sort` -/

theorem wf_world_bac : wf world_bac [0, 1, 2] :=
  ⟨_, rfl, ⟨rfl, _, rfl, ⟨rfl, _, rfl, ⟨rfl, _, rfl, rfl⟩⟩⟩, rfl, rfl⟩

theorem wf_world_aa : wf world_aa [0, 1] :=
  ⟨_, rfl, ⟨rfl, _, rfl, ⟨rfl, _, rfl, rfl⟩⟩, rfl, rfl⟩

theorem wf_unique (w : World) (l1 l2 : List Ptr) (h1 : wf w l1) (h2 : wf w l2) : l1 = l2 := by
  obtain ⟨q1, hq1, hc1, _, _⟩ := h1
  obtain ⟨q2, hq2, hc2, _, _⟩ := h2
  rw [hq1] at hq2
  have : q1 = q2 := by simpa using hq2
  subst this
  exact chain_unique _ _ _ _ hc1 hc2

theorem q_size_eq (w : World) (q : queue_t) (hq : w.q = some q) : q_size w = q.size := by
  simp [q_size, hq]

/-- C1: for every well-formed queue, `q_sort` (with fuel at least the length
of the chain) returns, and in the state it returns the strings read from
`head` are a permutation of the strings before the call, as many as before,
and in non-decreasing order under `strcmp`; the size is unchanged.  The
scenario banana, apple, cherry ends with apple, banana, cherry and size 3. -/
theorem q_sort_sorted_permutation (fuel : Nat) (w : World) (l : List Ptr) (hwf : wf w l)
    (hf : l.length ≤ fuel) :
    (∃ w' l', q_sort fuel w = some w' ∧ wf w' l' ∧
      (values w'.heap l').Perm (values w.heap l) ∧
      (values w'.heap l').length = (values w.heap l).length ∧
      q_size w' = q_size w ∧
      (values w'.heap l').Pairwise (fun x y => strcmp x y ≤ 0)) ∧
    (scenario_sort.bind fun w1 => (q_values 3 w1).map fun v => (v, q_size w1)) =
      some ([bytes "apple", bytes "banana", bytes "cherry"], 3) := by
  refine ⟨?_, by decide⟩
  obtain ⟨w', q, q', hrun, hq, hq', hwf', hsz, hsv, _, _⟩ := q_sort_spec fuel w l hwf hf
  have hperm := sortL_perm (valOf w.heap) fuel l
  have hvals : values w'.heap (sortL (valOf w.heap) fuel l) =
      values w.heap (sortL (valOf w.heap) fuel l) := values_sameVals _ _ hsv _
  refine ⟨w', _, hrun, hwf', ?_, ?_, ?_, ?_⟩
  · rw [hvals]; exact hperm.map _
  · rw [hvals]; exact (hperm.map _).length_eq
  · rw [q_size_eq w q hq, q_size_eq w' q' hq', hsz]
  · rw [hvals]
    unfold values
    rw [List.pairwise_map]
    refine (sortL_sorted (valOf w.heap) fuel l hf).imp ?_
    intro a b hab
    rw [strcmp_cstr]
    exact hab

/-- Witness for C1: the queue banana, apple, cherry. -/
theorem q_sort_sorted_permutation_witness :
    wf world_bac [0, 1, 2] ∧
    ∃ w' l', q_sort 3 world_bac = some w' ∧ wf w' l' ∧
      (values w'.heap l').Perm (values world_bac.heap [0, 1, 2]) ∧
      (values w'.heap l').length = (values world_bac.heap [0, 1, 2]).length ∧
      q_size w' = q_size world_bac ∧
      (values w'.heap l').Pairwise (fun x y => strcmp x y ≤ 0) :=
  ⟨wf_world_bac, (q_sort_sorted_permutation 3 world_bac [0, 1, 2] wf_world_bac (by decide)).1⟩

/-- C2 as stated fails: in the queue of two elements that both hold "a", the
element at address 0 precedes the element at address 1 before `q_sort`; the
values compare equal; `q_sort` returns the chain 1, 0, in which 0 does not
precede 1. -/
theorem q_sort_not_stable :
    wf world_aa [0, 1] ∧ strcmp (valOf world_aa.heap 0) (valOf world_aa.heap 1) = 0 ∧
    List.Sublist [0, 1] [0, 1] ∧
    ((q_sort 2 world_aa).bind fun w1 => w1.q.bind fun q => walk 2 w1.heap q.head) =
      some [1, 0] ∧
    (∃ w', q_sort 2 world_aa = some w' ∧ wf w' [1, 0]) ∧
    ¬ List.Sublist [0, 1] [1, 0] := by
  refine ⟨wf_world_aa, by decide, List.Sublist.refl _, by decide, ?_, by decide⟩
  obtain ⟨w2, _, _, hrun2, _, _, hwf2, _⟩ := q_sort_spec 2 world_aa [0, 1] wf_world_aa (by decide)
  have hs : sortL (valOf world_aa.heap) 2 [0, 1] = [1, 0] := by
    simp [sortL, mergeL_cons_cons, mergeL_nil_left, mergeL_nil_right, valOf, world_aa, heap_aa,
      strcmp, bytes]
  rw [hs] at hwf2
  exact ⟨w2, hrun2, hwf2⟩

/-- C2, amended: for every well-formed queue and every two elements `x`, `y`
whose values compare equal under `strcmp`, if `x` precedes `y` in the chain
before `q_sort` then `y` precedes `x` in the chain after it (the merge takes
the left element only when it is strictly smaller, so a tie goes to the right
sublist). -/
theorem q_sort_reverses_equal (fuel : Nat) (w : World) (l : List Ptr) (x y : Ptr)
    (hwf : wf w l) (hf : l.length ≤ fuel)
    (hxy : strcmp (valOf w.heap x) (valOf w.heap y) = 0) (hsub : List.Sublist [x, y] l) :
    ∃ w' l', q_sort fuel w = some w' ∧ wf w' l' ∧ List.Sublist [y, x] l' := by
  obtain ⟨w', _, _, hrun, _, _, hwf', _⟩ := q_sort_spec fuel w l hwf hf
  exact ⟨w', _, hrun, hwf', sortL_reverses_equal _ fuel l x y hf hxy hsub⟩

/-- Witness for the amended C2: the queue of two elements that both hold "a". -/
theorem q_sort_reverses_equal_witness :
    wf world_aa [0, 1] ∧ strcmp (valOf world_aa.heap 0) (valOf world_aa.heap 1) = 0 ∧
    List.Sublist [0, 1] [0, 1] ∧
    ∃ w' l', q_sort 2 world_aa = some w' ∧ wf w' l' ∧ List.Sublist [1, 0] l' :=
  ⟨wf_world_aa, by decide, List.Sublist.refl _,
    q_sort_reverses_equal 2 world_aa [0, 1] 0 1 wf_world_aa (by decide) (by decide)
      (List.Sublist.refl _)⟩

/-! ## The claims on the state after a removal -/

/-- C3: after `q_new`, `q_insert_tail "a"` and `q_remove_head` the queue has
`size == 0` and `head == NULL` but `tail` still holds the address of the
element that was freed. -/
theorem remove_last_keeps_tail :
    (run (q_new true) [.insert_tail (bytes "a") (some 0) true, .remove_head none 0]).map
        (fun r => (r.1.q, r.1.heap 0, r.2)) =
      some (some ⟨none, some 0, 0⟩, none, 1, 1) := by
  decide

/-- C4: after `insert_tail a; remove_head; insert_head b` the queue has one
element, the chain from `head` is the new element alone, and `tail` is the
address of the freed element, not the last element of the chain; the
`insert_tail c` that follows writes through this `tail`. -/
theorem tail_dangles_after_reinsert :
    (run (q_new true) [.insert_tail (bytes "a") (some 0) true, .remove_head none 0,
        .insert_head (bytes "b") (some 1) true]).map
        (fun r => (r.1.q, (r.1.q.bind fun q => walk 2 r.1.heap q.head), r.1.heap 0)) =
      some (some ⟨some 1, some 0, 1⟩, some [1], none) ∧
    (run (q_new true) [.insert_tail (bytes "a") (some 0) true, .remove_head none 0,
        .insert_head (bytes "b") (some 1) true,
        .insert_tail (bytes "c") (some 2) true]).isNone = true := by
  decide

/-! ## `q_remove_head` -/

theorem SIZE_MOD_eq : SIZE_MOD = 18446744073709551616 := by
  norm_num [SIZE_MOD]

theorem cstr_nonzero (s : List Nat) : ∀ b ∈ cstr s, b ≠ 0 := by
  intro b hb
  have := List.mem_takeWhile_imp hb
  simpa using this

theorem cstr_cons_ne (a : Nat) (s : List Nat) (ha : a ≠ 0) : cstr (a :: s) = a :: cstr s := by
  simp [cstr, ha]

theorem cstr_append_zero (s t : List Nat) (hs : ∀ b ∈ s, b ≠ 0) : cstr (s ++ 0 :: t) = s := by
  induction s with
  | nil => simp [cstr]
  | cons a s ih =>
    have ha : a ≠ 0 := hs a (List.mem_cons_self _ _)
    rw [List.cons_append, cstr_cons_ne _ _ ha, ih (fun b hb => hs b (List.mem_cons_of_mem _ hb))]

theorem cstr_of_nonzero (s : List Nat) (hs : ∀ b ∈ s, b ≠ 0) : cstr s = s := by
  induction s with
  | nil => rfl
  | cons a s ih =>
    have ha : a ≠ 0 := hs a (List.mem_cons_self _ _)
    rw [cstr_cons_ne _ _ ha, ih (fun b hb => hs b (List.mem_cons_of_mem _ hb))]

theorem remove_maxsize_eq (v : List Nat) (bufsize : Nat) (h1 : 1 ≤ bufsize)
    (h2 : bufsize < SIZE_MOD) (h4 : strlen v < SIZE_MOD) :
    remove_maxsize v bufsize = min (strlen v) (bufsize - 1) := by
  unfold remove_maxsize
  rw [SIZE_MOD_eq] at *
  have e1 : (bufsize + 18446744073709551616 - 1) % 18446744073709551616 = bufsize - 1 := by
    omega
  have e2 : strlen v % 18446744073709551616 = strlen v := by omega
  rw [e1, e2]
  split_ifs <;> omega

theorem remove_copy_spec (v buf : List Nat) (bufsize : Nat) (h1 : 1 ≤ bufsize)
    (h2 : bufsize < SIZE_MOD) (h3 : bufsize ≤ buf.length) (h4 : strlen v < SIZE_MOD) :
    remove_copy v (some buf) bufsize =
      some (some ((cstr v).take (min (strlen v) (bufsize - 1)) ++ 0 ::
        buf.drop (min (strlen v) (bufsize - 1) + 1))) := by
  have hm := remove_maxsize_eq v bufsize h1 h2 h4
  generalize hmdef : min (strlen v) (bufsize - 1) = m at hm
  have hmle : m ≤ strlen v := by omega
  have hmb : m + 1 ≤ bufsize := by omega
  have e3 : (m + 1) % SIZE_MOD = m + 1 := by
    rw [SIZE_MOD_eq] at *; omega
  have hlen : m ≤ (List.replicate (m + 1) 0 ++ List.drop (m + 1) buf).length := by
    simp only [List.length_append, List.length_replicate]; omega
  have hdrop : List.drop m (List.replicate (m + 1) 0 ++ List.drop (m + 1) buf) =
      0 :: List.drop (m + 1) buf := by
    rw [List.drop_append_of_le_length (by simp)]
    simp [List.drop_replicate]
  have hrep : m - (cstr v).length = 0 := by
    unfold strlen at hmle; omega
  simp only [remove_copy, hm, e3, memset, strncpy, Option.bind_eq_bind]
  rw [if_pos (by omega)]
  simp only [Option.some_bind]
  rw [if_pos hlen, hdrop, hrep]
  simp

theorem valOf_set_other (h : Heap) (p a : Ptr) (c : Option list_ele_t) (hne : a ≠ p) :
    valOf (h.set p c) a = valOf h a := by
  unfold valOf
  rw [Heap.set_other _ _ _ _ hne]

theorem values_set_other (h : Heap) (p : Ptr) (c : Option list_ele_t) (l : List Ptr)
    (hp : p ∉ l) : values (h.set p c) l = values h l := by
  unfold values
  apply List.map_congr_left
  intro a ha
  rw [valOf_set_other]
  rintro rfl
  exact hp ha

/-- C5: on a non-empty well-formed queue whose first element holds `v`, with a
buffer of at least `bufsize >= 1` bytes, `q_remove_head` returns true, the
buffer starts with the first `min (strlen v) (bufsize - 1)` characters of `v`
followed by a zero byte (so the string in it is that prefix), the chain from
`head` is the rest of the old chain with the same strings, and `size` has
decreased by 1; with a null buffer the state changes in the same way and
nothing is copied.  "hello" with capacity 3 gives "he". -/
theorem q_remove_head_copies (w : World) (a : Ptr) (rest : List Ptr) (buf : List Nat)
    (bufsize : Nat) (hwf : wf w (a :: rest)) (h1 : 1 ≤ bufsize) (h2 : bufsize < SIZE_MOD)
    (h3 : bufsize ≤ buf.length) (h4 : strlen (valOf w.heap a) < SIZE_MOD) :
    (∃ w' buf', q_remove_head w (some buf) bufsize = some (true, w', some buf') ∧
      buf' = (cstr (valOf w.heap a)).take (min (strlen (valOf w.heap a)) (bufsize - 1)) ++
        0 :: buf.drop (min (strlen (valOf w.heap a)) (bufsize - 1) + 1) ∧
      cstr buf' = (cstr (valOf w.heap a)).take (min (strlen (valOf w.heap a)) (bufsize - 1)) ∧
      q_remove_head w none bufsize = some (true, w', none) ∧
      (∃ q', w'.q = some q' ∧ chain w'.heap q'.head rest ∧ q'.size = (rest.length : Int)) ∧
      values w'.heap rest = (values w.heap (a :: rest)).tail ∧
      q_size w' = q_size w - 1) ∧
    (q_remove_head world_hello (some [9, 9, 9]) 3).map (fun r => (r.1, r.2.2)) =
      some (true, some (bytes "he" ++ [0])) := by
  refine ⟨?_, by decide⟩
  obtain ⟨q, hq, hch, hsz, _⟩ := hwf
  have hnd := chain_nodup _ _ _ hch
  obtain ⟨hh, n, hn, hrest⟩ := hch
  have harest : a ∉ rest := (List.nodup_cons.1 hnd).1
  have hv : valOf w.heap a = n.value := by simp [valOf, hn]
  rw [hv] at h4 ⊢
  have hcopy := remove_copy_spec n.value buf bufsize h1 h2 h3 h4
  refine ⟨⟨w.heap.set a none, some ⟨n.next, q.tail, q.size - 1⟩⟩, _, ?_, rfl, ?_, ?_,
    ⟨_, rfl, lseg_set _ _ _ _ harest _ _ hrest, ?_⟩, ?_, ?_⟩
  · simp only [q_remove_head, hq, hh, hn, hcopy, Option.bind_eq_bind, Option.some_bind]
  · apply cstr_append_zero
    intro b hb
    exact cstr_nonzero _ b (List.mem_of_mem_take hb)
  · simp only [q_remove_head, hq, hh, hn, remove_copy, Option.bind_eq_bind, Option.some_bind]
  · simp only [List.length_cons] at hsz
    simp only [hsz]; push_cast; ring
  · rw [values_set_other _ _ _ _ harest]; rfl
  · simp [q_size, hq]

/-- Witness for C5: the queue that holds "hello" and a buffer of three bytes. -/
theorem q_remove_head_copies_witness :
    wf world_hello [0] ∧
    ∃ w' buf', q_remove_head world_hello (some [9, 9, 9]) 3 = some (true, w', some buf') ∧
      buf' = (cstr (valOf world_hello.heap 0)).take
          (min (strlen (valOf world_hello.heap 0)) (3 - 1)) ++
        0 :: [9, 9, 9].drop (min (strlen (valOf world_hello.heap 0)) (3 - 1) + 1) ∧
      cstr buf' = (cstr (valOf world_hello.heap 0)).take
        (min (strlen (valOf world_hello.heap 0)) (3 - 1)) ∧
      q_remove_head world_hello none 3 = some (true, w', none) ∧
      (∃ q', w'.q = some q' ∧ chain w'.heap q'.head [] ∧ q'.size = (([] : List Ptr).length : Int)) ∧
      values w'.heap [] = (values world_hello.heap [0]).tail ∧
      q_size w' = q_size world_hello - 1 :=
  ⟨⟨_, rfl, ⟨rfl, _, rfl, rfl⟩, rfl, rfl⟩,
    (q_remove_head_copies world_hello 0 [] [9, 9, 9] 3 ⟨_, rfl, ⟨rfl, _, rfl, rfl⟩, rfl, rfl⟩
      (by decide) (by decide) (by decide) (by decide)).1⟩

/-- C6: with `bufsize == 0` the length `bufsize - 1` wraps around to the
largest `size_t`, the copy length is the whole `strlen` of the value, and
`q_remove_head` writes `strlen + 1` bytes: for "hello" six bytes of an
eight-byte block are overwritten although the capacity given is 0. -/
theorem q_remove_head_zero_capacity :
    remove_maxsize (bytes "hello" ++ [0]) 0 + 1 = 6 ∧
    (q_remove_head world_hello (some [9, 9, 9, 9, 9, 9, 9, 9]) 0).map (fun r => (r.1, r.2.2)) =
      some (true, some (bytes "hello" ++ [0, 9, 9])) ∧
    (q_remove_head world_hello none 0).map (fun r => (r.1, r.2.2)) = some (true, none) := by
  decide

/-! ## The claims on `q_reverse` and the insertions -/

theorem eq_nil_or_snoc (l : List Ptr) : l = [] ∨ ∃ l1 t, l = l1 ++ [t] := by
  rcases List.eq_nil_or_concat l with h | ⟨L, b, h⟩
  · exact Or.inl h
  · exact Or.inr ⟨L, b, by rw [h, List.concat_eq_append]⟩

/-- C7: on a well-formed queue with chain `l`, `q_reverse` (with fuel at least
the length) returns a well-formed queue whose chain is `l` reversed, with the
reversed sequence of strings; `head` is the old `tail`, `tail` is the old
`head` and its `next` is `NULL`; `size` is unchanged; a queue of at most one
element is returned as it is, and so are a `NULL` queue and an empty queue.
Inserting a, b, c at the head and reversing gives a, b, c. -/
theorem q_reverse_reverses (fuel : Nat) (w : World) (l : List Ptr) (hwf : wf w l)
    (hf : l.length ≤ fuel) :
    (∃ w' q q', q_reverse fuel w = some w' ∧ w.q = some q ∧ w'.q = some q' ∧
      wf w' l.reverse ∧ values w'.heap l.reverse = (values w.heap l).reverse ∧
      q'.head = q.tail ∧ q'.tail = q.head ∧
      (∀ t, q'.tail = some t → ∃ tn, w'.heap t = some tn ∧ tn.next = none) ∧
      q'.size = q.size ∧ (l.length ≤ 1 → w' = w)) ∧
    (∀ (h : Heap), q_reverse fuel ⟨h, none⟩ = some ⟨h, none⟩) ∧
    (∀ (h : Heap) (t : Option Ptr) (n : Int),
      q_reverse fuel ⟨h, some ⟨none, t, n⟩⟩ = some ⟨h, some ⟨none, t, n⟩⟩) ∧
    (scenario_reverse.bind fun w1 => q_values 3 w1) =
      some [bytes "a", bytes "b", bytes "c"] := by
  refine ⟨?_, fun _ => rfl, fun _ _ _ => rfl, by decide⟩
  obtain ⟨w', q, q', hrun, hq, hq', hwf', hhead, htail, hsz, hsv, hsame⟩ :=
    q_reverse_spec fuel w l hwf hf
  refine ⟨w', q, q', hrun, hq, hq', hwf', ?_, hhead, htail, ?_, hsz, hsame⟩
  · rw [values_sameVals _ _ hsv]
    unfold values
    rw [List.map_reverse]
  · intro t ht
    obtain ⟨q2, hq2, hch2, _, htl2⟩ := hwf'
    rw [hq'] at hq2
    have e : q' = q2 := by simpa using hq2
    subst e
    rw [ht] at htl2
    obtain ⟨l1, hl1⟩ : ∃ l1, l.reverse = l1 ++ [t] := by
      rcases eq_nil_or_snoc l.reverse with hnil | ⟨l1, b, hb⟩
      · rw [hnil] at htl2; simp at htl2
      · rw [hb] at htl2
        have e : t = b := by simpa using htl2
        exact ⟨l1, by rw [hb, e]⟩
    rw [hl1] at hch2
    obtain ⟨m, _, hlast⟩ := (lseg_append _ _ _ _ _).1 hch2
    obtain ⟨_, tn, htn, hnone⟩ := hlast
    exact ⟨tn, htn, hnone⟩

/-- Witness for C7: the queue banana, apple, cherry. -/
theorem q_reverse_reverses_witness :
    wf world_bac [0, 1, 2] ∧
    ∃ w' q q', q_reverse 3 world_bac = some w' ∧ world_bac.q = some q ∧ w'.q = some q' ∧
      wf w' [0, 1, 2].reverse ∧
      values w'.heap [0, 1, 2].reverse = (values world_bac.heap [0, 1, 2]).reverse ∧
      q'.head = q.tail ∧ q'.tail = q.head ∧
      (∀ t, q'.tail = some t → ∃ tn, w'.heap t = some tn ∧ tn.next = none) ∧
      q'.size = q.size ∧ ([0, 1, 2].length ≤ 1 → w' = world_bac) :=
  ⟨wf_world_bac, (q_reverse_reverses 3 world_bac [0, 1, 2] wf_world_bac (by decide)).1⟩

theorem new_value_eq (s : List Nat) : new_value s = some (cstr s ++ [0]) := by
  have h1 : memset (List.replicate (strlen s + 1) 0) 0 (strlen s + 1) =
      some (List.replicate (strlen s + 1) 0) := by
    simp [memset]
  have h2 : strncpy (List.replicate (strlen s + 1) 0) s (strlen s) = some (cstr s ++ [0]) := by
    unfold strncpy
    rw [if_pos (by simp)]
    simp [strlen, List.drop_replicate]
  simp only [new_value, h1, Option.bind_eq_bind, Option.some_bind, h2]

theorem cstr_new_value (s : List Nat) : cstr (cstr s ++ [0]) = cstr s :=
  cstr_append_zero (cstr s) [] (cstr_nonzero s)

theorem not_mem_of_free (h : Heap) (p : Option Ptr) (l : List Ptr) (a : Ptr)
    (hch : chain h p l) (ha : h a = none) : a ∉ l := by
  intro hm
  obtain ⟨n, hn⟩ := chain_live h l p hch a hm
  rw [ha] at hn
  exact absurd hn (by simp)

theorem q_insert_tail_spec (w : World) (l : List Ptr) (s : List Nat) (p : Ptr)
    (hwf : wf w l) (hp : w.heap p = none) :
    ∃ w' q q', q_insert_tail w s (some p) true = some (true, w') ∧ w.q = some q ∧
      w'.q = some q' ∧ wf w' (l ++ [p]) ∧
      w'.heap p = some ⟨cstr s ++ [0], none⟩ ∧
      values w'.heap (l ++ [p]) = values w.heap l ++ [cstr s] ∧
      q'.size = q.size + 1 ∧ q'.tail = some p ∧
      (∀ t, q.tail = some t → ∃ tn, w'.heap t = some tn ∧ tn.next = some p) ∧
      (l = [] → q'.head = some p) ∧ (l ≠ [] → q'.head = q.head) := by
  obtain ⟨q, hq, hch, hsz, htl⟩ := hwf
  have hpl : p ∉ l := not_mem_of_free _ _ _ _ hch hp
  rcases eq_nil_or_snoc l with hnil | ⟨l1, t, hl⟩
  · subst hnil
    have hh : q.head = none := hch
    refine ⟨⟨w.heap.set p (some ⟨cstr s ++ [0], none⟩), some ⟨some p, some p, q.size + 1⟩⟩, q, _,
      ?_, hq, rfl, ⟨_, rfl, ⟨rfl, _, Heap.set_same _ _ _, rfl⟩, ?_, rfl⟩, Heap.set_same _ _ _,
      ?_, rfl, rfl, ?_, fun _ => rfl, fun h => absurd rfl h⟩
    · simp only [q_insert_tail, hq, hp, new_value_eq, hh, if_true, Option.bind_eq_bind,
        Option.some_bind]
    · simp [hsz]
    · simp [values, valOf, cstr_new_value]
    · intro t ht
      rw [htl] at ht
      simp at ht
  · subst hl
    have hne : q.head ≠ none := by
      intro e
      have := chain_head _ _ _ hch
      rw [e] at this
      cases l1 <;> simp at this
    obtain ⟨hd, hhd⟩ := Option.ne_none_iff_exists'.1 hne
    have ht : q.tail = some t := by rw [htl]; simp
    have htp : t ≠ p := by
      rintro rfl
      exact hpl (by simp)
    obtain ⟨tn, htn⟩ := chain_live _ _ _ hch t (by simp)
    have hnd := chain_nodup _ _ _ hch
    have htl1 : t ∉ l1 := fun hm =>
      (List.nodup_append.1 hnd).2.2 hm (List.mem_singleton_self _)
    have h1t : (w.heap.set p (some ⟨cstr s ++ [0], none⟩)) t = some tn := by
      rw [Heap.set_other _ _ _ _ htp]; exact htn
    have hch1 : chain (w.heap.set p (some ⟨cstr s ++ [0], none⟩)) q.head (l1 ++ [t]) :=
      lseg_set _ _ _ _ hpl _ _ hch
    have hch2 := lseg_relink _ l1 t tn q.head none (some p) hch1 htl1
    have hpt : p ≠ t := fun e => htp e.symm
    have h2p : ((w.heap.set p (some ⟨cstr s ++ [0], none⟩)).set t
        (some { tn with next := some p })) p = some ⟨cstr s ++ [0], none⟩ := by
      rw [Heap.set_other _ _ _ _ hpt, Heap.set_same]
    refine ⟨⟨(w.heap.set p (some ⟨cstr s ++ [0], none⟩)).set t (some { tn with next := some p }),
      some ⟨q.head, some p, q.size + 1⟩⟩, q, _, ?_, hq, rfl,
      ⟨_, rfl, ?_, ?_, ?_⟩, h2p, ?_, rfl, rfl, ?_, ?_, fun _ => rfl⟩
    · simp only [q_insert_tail, hq, hp, new_value_eq, hhd, ht, h1t, if_true, Option.bind_eq_bind,
        Option.some_bind, Heap.set_same]
    · exact (lseg_append _ _ _ _ _).2 ⟨some p, hch2, ⟨rfl, _, h2p, rfl⟩⟩
    · simp only [hsz, List.length_append, List.length_singleton]; push_cast; ring
    · simp
    · unfold values
      rw [List.map_append, List.map_singleton]
      congr 1
      · apply List.map_congr_left
        intro a ha
        have hap : a ≠ p := fun e => hpl (e ▸ ha)
        congr 1
        by_cases hat : a = t
        · subst hat
          simp [valOf, htn]
        · simp [valOf, Heap.set_other _ _ _ _ hat, Heap.set_other _ _ _ _ hap]
      · simp [valOf, h2p, cstr_new_value]
    · intro t' ht'
      rw [ht] at ht'
      have e : t = t' := by simpa using ht'
      subst e
      exact ⟨_, Heap.set_same _ _ _, rfl⟩
    · intro hl; simp at hl

/-- C8: on a well-formed queue with chain `l`, `q_insert_tail` with both
allocations succeeding (the node at the free address `p`) returns true and a
well-formed queue with chain `l ++ [p]`: the strings are the old ones followed
by the string of `s`, the new node holds the characters of `s` and the
terminator and its `next` is `NULL`, the previous `tail` points to it, `tail`
is the new node, it is also `head` when the queue was empty, and `size` has
grown by 1.  (`s` is the block the argument points to; its string is `cstr s`,
which is `s` itself when `s` has no zero byte.) -/
theorem q_insert_tail_appends (w : World) (l : List Ptr) (s : List Nat) (p : Ptr)
    (hwf : wf w l) (hp : w.heap p = none) :
    ∃ w' q q', q_insert_tail w s (some p) true = some (true, w') ∧ w.q = some q ∧
      w'.q = some q' ∧ wf w' (l ++ [p]) ∧
      w'.heap p = some ⟨cstr s ++ [0], none⟩ ∧
      values w'.heap (l ++ [p]) = values w.heap l ++ [cstr s] ∧
      ((∀ b ∈ s, b ≠ 0) → cstr s = s) ∧
      q'.size = q.size + 1 ∧ q'.tail = some p ∧
      (∀ t, q.tail = some t → ∃ tn, w'.heap t = some tn ∧ tn.next = some p) ∧
      (l = [] → q'.head = some p) ∧ (l ≠ [] → q'.head = q.head) := by
  obtain ⟨w', q, q', h1, h2, h3, h4, h5, h6, h7, h8, h9, h10, h11⟩ :=
    q_insert_tail_spec w l s p hwf hp
  exact ⟨w', q, q', h1, h2, h3, h4, h5, h6, cstr_of_nonzero s, h7, h8, h9, h10, h11⟩

/-- Witness for C8: appending "date" at address 3 to the queue banana, apple,
cherry. -/
theorem q_insert_tail_appends_witness :
    wf world_bac [0, 1, 2] ∧ world_bac.heap 3 = none ∧
    ∃ w' q q', q_insert_tail world_bac (bytes "date") (some 3) true = some (true, w') ∧
      world_bac.q = some q ∧ w'.q = some q' ∧ wf w' ([0, 1, 2] ++ [3]) ∧
      w'.heap 3 = some ⟨cstr (bytes "date") ++ [0], none⟩ ∧
      values w'.heap ([0, 1, 2] ++ [3]) = values world_bac.heap [0, 1, 2] ++ [cstr (bytes "date")] ∧
      ((∀ b ∈ bytes "date", b ≠ 0) → cstr (bytes "date") = bytes "date") ∧
      q'.size = q.size + 1 ∧ q'.tail = some 3 ∧
      (∀ t, q.tail = some t → ∃ tn, w'.heap t = some tn ∧ tn.next = some 3) ∧
      (([0, 1, 2] : List Ptr) = [] → q'.head = some 3) ∧
      (([0, 1, 2] : List Ptr) ≠ [] → q'.head = q.head) :=
  ⟨wf_world_bac, rfl, q_insert_tail_appends world_bac [0, 1, 2] (bytes "date") 3 wf_world_bac rfl⟩

/-- C9: after `q_new`, `q_insert_head "a"` and `q_remove_head` the queue is
empty (`size == 0`, `head == NULL`) but `tail` is not `NULL`; the
`q_insert_head "b"` that follows returns true and makes the new node (address
1) the head, with `size == 1`, but leaves `tail` at the freed address 0. -/
theorem q_insert_head_after_emptying :
    ((run (q_new true) [.insert_head (bytes "a") (some 0) true, .remove_head none 0]).bind
        fun r => (q_insert_head r.1 (bytes "b") (some 1) true).map
          fun x => (r.1.q, x.1, x.2.q, x.2.heap 0)) =
      some (some ⟨none, some 0, 0⟩, true, some ⟨some 1, some 0, 1⟩, none) := by
  decide

/-! ## The size of the queue -/

theorem q_insert_head_size (w : World) (s : List Nat) (newh : Option Ptr) (ok r : Bool)
    (w' : World) (h : q_insert_head w s newh ok = some (r, w')) :
    q_size w' = q_size w + (if r then 1 else 0) := by
  unfold q_insert_head at h
  cases hq : w.q with
  | none =>
    simp only [hq, Option.some.injEq, Prod.mk.injEq] at h
    obtain ⟨rfl, rfl⟩ := h
    simp
  | some q =>
    cases newh with
    | none =>
      simp only [hq, Option.some.injEq, Prod.mk.injEq] at h
      obtain ⟨rfl, rfl⟩ := h
      simp
    | some p =>
      cases hp : w.heap p with
      | some _ => simp [hq, hp] at h
      | none =>
        cases ok with
        | false =>
          simp only [hq, hp, Bool.false_eq_true, if_false, Option.some.injEq,
            Prod.mk.injEq] at h
          obtain ⟨rfl, rfl⟩ := h
          simp [q_size, hq]
        | true =>
          simp only [hq, hp, if_true, new_value_eq, Option.bind_eq_bind, Option.some_bind,
            Option.some.injEq, Prod.mk.injEq] at h
          obtain ⟨rfl, rfl⟩ := h
          cases q.tail <;> simp [q_size, hq]

theorem q_insert_tail_size (w : World) (s : List Nat) (newh : Option Ptr) (ok r : Bool)
    (w' : World) (h : q_insert_tail w s newh ok = some (r, w')) :
    q_size w' = q_size w + (if r then 1 else 0) := by
  unfold q_insert_tail at h
  cases hq : w.q with
  | none =>
    simp only [hq, Option.some.injEq, Prod.mk.injEq] at h
    obtain ⟨rfl, rfl⟩ := h
    simp
  | some q =>
    cases newh with
    | none =>
      simp only [hq, Option.some.injEq, Prod.mk.injEq] at h
      obtain ⟨rfl, rfl⟩ := h
      simp
    | some p =>
      cases hp : w.heap p with
      | some _ => simp [hq, hp] at h
      | none =>
        cases ok with
        | false =>
          simp only [hq, hp, Bool.false_eq_true, if_false, Option.some.injEq,
            Prod.mk.injEq] at h
          obtain ⟨rfl, rfl⟩ := h
          simp [q_size, hq]
        | true =>
          simp only [hq, hp, if_true, new_value_eq, Option.bind_eq_bind, Option.some_bind] at h
          cases hh : q.head with
          | none =>
            simp only [hh, Option.some.injEq, Prod.mk.injEq] at h
            obtain ⟨rfl, rfl⟩ := h
            simp [q_size, hq]
          | some hd =>
            simp only [hh, Option.bind_eq_some] at h
            obtain ⟨t, _, tn, _, tn2, _, h⟩ := h
            simp only [Option.some.injEq, Prod.mk.injEq] at h
            obtain ⟨rfl, rfl⟩ := h
            simp [q_size, hq]

theorem q_remove_head_size (w : World) (sp : Option (List Nat)) (bufsize : Nat) (r : Bool)
    (w' : World) (sp' : Option (List Nat)) (h : q_remove_head w sp bufsize = some (r, w', sp')) :
    q_size w' = q_size w - (if r then 1 else 0) := by
  unfold q_remove_head at h
  cases hq : w.q with
  | none =>
    simp only [hq, Option.some.injEq, Prod.mk.injEq] at h
    obtain ⟨rfl, rfl, _⟩ := h
    simp
  | some q =>
    cases hh : q.head with
    | none =>
      simp only [hq, hh, Option.some.injEq, Prod.mk.injEq] at h
      obtain ⟨rfl, rfl, _⟩ := h
      simp
    | some index =>
      simp only [hq, hh, Option.bind_eq_bind, Option.bind_eq_some] at h
      obtain ⟨node, _, sp1, _, h⟩ := h
      simp only [Option.some.injEq, Prod.mk.injEq] at h
      obtain ⟨rfl, rfl, _⟩ := h
      simp [q_size, hq]

theorem q_reverse_size (fuel : Nat) (w w' : World) (h : q_reverse fuel w = some w') :
    q_size w' = q_size w := by
  unfold q_reverse at h
  cases hq : w.q with
  | none =>
    simp only [hq, Option.some.injEq] at h
    subst h; rfl
  | some q =>
    cases hh : q.head with
    | none =>
      simp only [hq, hh, Option.some.injEq] at h
      subst h; rfl
    | some hd =>
      by_cases hs : q.size = 1
      · simp only [hq, hh, hs, if_true, Option.some.injEq] at h
        subst h; rfl
      · simp only [hq, hh, hs, if_false, Option.bind_eq_bind, Option.bind_eq_some] at h
        obtain ⟨pn, _, cur, _, cn, _, x, _, c1, _, hn, _, h⟩ := h
        simp only [Option.some.injEq] at h
        subst h
        simp [q_size, hq]

theorem q_sort_size (fuel : Nat) (w w' : World) (h : q_sort fuel w = some w') :
    q_size w' = q_size w := by
  unfold q_sort at h
  cases hq : w.q with
  | none =>
    simp only [hq, Option.some.injEq] at h
    subst h; rfl
  | some q =>
    by_cases hs : q.size ≤ 1
    · simp only [hq, hs, if_true, Option.some.injEq] at h
      subst h; rfl
    · simp only [hq, hs, if_false, Option.bind_eq_bind, Option.bind_eq_some] at h
      obtain ⟨x, _, t, _, h⟩ := h
      simp only [Option.some.injEq] at h
      subst h
      simp [q_size, hq]

theorem run_size (calls : List Call) :
    ∀ (w w' : World) (i d : Nat), run w calls = some (w', i, d) →
      q_size w' = q_size w + (i : Int) - (d : Int) := by
  induction calls with
  | nil =>
    intro w w' i d h
    simp only [run, Option.some.injEq, Prod.mk.injEq] at h
    obtain ⟨rfl, rfl, rfl⟩ := h
    simp
  | cons c cs ih =>
    intro w w' i d h
    cases c with
    | insert_head s newh ok =>
      simp only [run, Option.bind_eq_bind, Option.bind_eq_some] at h
      obtain ⟨⟨r, w1⟩, h1, ⟨w2, i2, d2⟩, h2, h⟩ := h
      simp only [Option.some.injEq, Prod.mk.injEq] at h
      obtain ⟨rfl, rfl, rfl⟩ := h
      rw [ih _ _ _ _ h2, q_insert_head_size _ _ _ _ _ _ h1]
      cases r <;> simp
      ring
    | insert_tail s newh ok =>
      simp only [run, Option.bind_eq_bind, Option.bind_eq_some] at h
      obtain ⟨⟨r, w1⟩, h1, ⟨w2, i2, d2⟩, h2, h⟩ := h
      simp only [Option.some.injEq, Prod.mk.injEq] at h
      obtain ⟨rfl, rfl, rfl⟩ := h
      rw [ih _ _ _ _ h2, q_insert_tail_size _ _ _ _ _ _ h1]
      cases r <;> simp
      ring
    | remove_head sp bufsize =>
      simp only [run, Option.bind_eq_bind, Option.bind_eq_some] at h
      obtain ⟨⟨r, w1, sp1⟩, h1, ⟨w2, i2, d2⟩, h2, h⟩ := h
      simp only [Option.some.injEq, Prod.mk.injEq] at h
      obtain ⟨rfl, rfl, rfl⟩ := h
      rw [ih _ _ _ _ h2, q_remove_head_size _ _ _ _ _ _ h1]
      cases r <;> simp
      ring
    | reverse fuel =>
      simp only [run, Option.bind_eq_bind, Option.bind_eq_some] at h
      obtain ⟨w1, h1, h2⟩ := h
      rw [ih _ _ _ _ h2, q_reverse_size _ _ _ h1]
    | sort fuel =>
      simp only [run, Option.bind_eq_bind, Option.bind_eq_some] at h
      obtain ⟨w1, h1, h2⟩ := h
      rw [ih _ _ _ _ h2, q_sort_size _ _ _ h1]

/-! ## The size of the queue over a flat memory -/

theorem remove_copy_returns (v : List Nat) (sp : Option (List Nat)) (bufsize : Nat)
    (hok : (BasicCall.remove_head sp bufsize).buffer_ok) :
    ∃ sp1, remove_copy v sp bufsize = some sp1 := by
  cases sp with
  | none => exact ⟨none, rfl⟩
  | some buf =>
    obtain ⟨h1, h2, h3⟩ := hok
    have hm : remove_maxsize v bufsize + 1 ≤ bufsize := by
      unfold remove_maxsize
      rw [SIZE_MOD_eq] at *
      have e1 : (bufsize + 18446744073709551616 - 1) % 18446744073709551616 = bufsize - 1 := by
        omega
      rw [e1]
      split_ifs <;> omega
    have e3 : (remove_maxsize v bufsize + 1) % SIZE_MOD = remove_maxsize v bufsize + 1 := by
      rw [SIZE_MOD_eq] at *; omega
    have hmem : ∃ b1, memset buf 0 ((remove_maxsize v bufsize + 1) % SIZE_MOD) = some b1 ∧
        remove_maxsize v bufsize ≤ b1.length := by
      refine ⟨List.replicate (remove_maxsize v bufsize + 1) 0 ++
        buf.drop (remove_maxsize v bufsize + 1), ?_, ?_⟩
      · rw [e3]; unfold memset; rw [if_pos (by omega)]
      · simp only [List.length_append, List.length_replicate]; omega
    obtain ⟨b1, hb1, hl1⟩ := hmem
    have hcp : ∃ b2, strncpy b1 v (remove_maxsize v bufsize) = some b2 := by
      unfold strncpy; rw [if_pos hl1]; exact ⟨_, rfl⟩
    obtain ⟨b2, hb2⟩ := hcp
    exact ⟨some b2, by
      simp only [remove_copy, hb1, hb2, Option.bind_eq_bind, Option.some_bind]⟩

theorem tail_set_of_none (f : FlatWorld) (hq : f.q = none) : tail_set f := by
  intro q hq'
  rw [hq] at hq'
  exact absurd hq' (by simp)

theorem tail_set_of_tail (f : FlatWorld) (q : queue_t) (t : Ptr) (hq : f.q = some q)
    (ht : q.tail = some t) : tail_set f := by
  intro q' hq' hnone
  rw [hq] at hq'
  have e : q = q' := by simpa using hq'
  subst e
  rw [ht] at hnone
  exact absurd hnone (by simp)

theorem q_insert_head_flat_step (f : FlatWorld) (s : List Nat) (newh : Option Ptr) (ok : Bool)
    (hinv : tail_set f) :
    ∃ r f', q_insert_head_flat f s newh ok = some (r, f') ∧ tail_set f' ∧
      q_size_flat f' = q_size_flat f + (if r then 1 else 0) := by
  cases hq : f.q with
  | none => exact ⟨false, f, by simp [q_insert_head_flat, hq], hinv, by simp⟩
  | some q =>
    cases newh with
    | none => exact ⟨false, f, by simp [q_insert_head_flat, hq], hinv, by simp⟩
    | some p =>
      cases ok with
      | false =>
        refine ⟨false, { f with mem := f.mem.set p { (f.mem p) with value := [] } },
          by simp [q_insert_head_flat, hq], ?_, by simp [q_size_flat]⟩
        intro q' hq'
        exact hinv q' hq'
      | true =>
        cases ht : q.tail with
        | none =>
          refine ⟨true, ⟨f.mem.set p ⟨cstr s ++ [0], q.head⟩, some ⟨some p, some p, q.size + 1⟩⟩,
            by simp [q_insert_head_flat, hq, new_value_eq, ht],
            tail_set_of_tail _ _ p rfl rfl, by simp [q_size_flat, hq]⟩
        | some t =>
          refine ⟨true, ⟨f.mem.set p ⟨cstr s ++ [0], q.head⟩, some ⟨some p, some t, q.size + 1⟩⟩,
            by simp [q_insert_head_flat, hq, new_value_eq, ht],
            tail_set_of_tail _ _ t rfl rfl, by simp [q_size_flat, hq]⟩

theorem q_insert_tail_flat_step (f : FlatWorld) (s : List Nat) (newh : Option Ptr) (ok : Bool)
    (hinv : tail_set f) :
    ∃ r f', q_insert_tail_flat f s newh ok = some (r, f') ∧ tail_set f' ∧
      q_size_flat f' = q_size_flat f + (if r then 1 else 0) := by
  cases hq : f.q with
  | none => exact ⟨false, f, by simp [q_insert_tail_flat, hq], hinv, by simp⟩
  | some q =>
    cases newh with
    | none => exact ⟨false, f, by simp [q_insert_tail_flat, hq], hinv, by simp⟩
    | some p =>
      cases ok with
      | false =>
        refine ⟨false, { f with mem := f.mem.set p { (f.mem p) with value := [] } },
          by simp [q_insert_tail_flat, hq], ?_, by simp [q_size_flat]⟩
        intro q' hq'
        exact hinv q' hq'
      | true =>
        cases hh : q.head with
        | none =>
          refine ⟨true, ⟨f.mem.set p ⟨cstr s ++ [0], none⟩, some ⟨some p, some p, q.size + 1⟩⟩,
            by simp [q_insert_tail_flat, hq, new_value_eq, hh],
            tail_set_of_tail _ _ p rfl rfl, by simp [q_size_flat, hq]⟩
        | some hd =>
          cases ht : q.tail with
          | none =>
            have := hinv q hq ht
            rw [hh] at this
            exact absurd this (by simp)
          | some t =>
            refine ⟨true, ⟨(f.mem.set p ⟨cstr s ++ [0], none⟩).set t
                { (f.mem.set p ⟨cstr s ++ [0], none⟩ t) with next := some p },
                some ⟨some hd, some p, q.size + 1⟩⟩,
              by simp [q_insert_tail_flat, hq, new_value_eq, hh, ht, Mem.set],
              tail_set_of_tail _ _ p rfl rfl, by simp [q_size_flat, hq]⟩

theorem q_remove_head_flat_step (f : FlatWorld) (sp : Option (List Nat)) (bufsize : Nat)
    (hinv : tail_set f) (hok : (BasicCall.remove_head sp bufsize).buffer_ok) :
    ∃ r f' sp', q_remove_head_flat f sp bufsize = some (r, f', sp') ∧ tail_set f' ∧
      q_size_flat f' = q_size_flat f - (if r then 1 else 0) := by
  cases hq : f.q with
  | none => exact ⟨false, f, sp, by simp [q_remove_head_flat, hq], hinv, by simp⟩
  | some q =>
    cases hh : q.head with
    | none => exact ⟨false, f, sp, by simp [q_remove_head_flat, hq, hh], hinv, by simp⟩
    | some index =>
      obtain ⟨sp1, hsp1⟩ := remove_copy_returns (f.mem index).value sp bufsize hok
      cases ht : q.tail with
      | none =>
        have := hinv q hq ht
        rw [hh] at this
        exact absurd this (by simp)
      | some t =>
        refine ⟨true, ⟨f.mem, some ⟨(f.mem index).next, some t, q.size - 1⟩⟩, sp1,
          by simp [q_remove_head_flat, hq, hh, hsp1, ht],
          tail_set_of_tail _ _ t rfl rfl, by simp [q_size_flat, hq]⟩

theorem run_flat_counts (calls : List BasicCall) :
    ∀ (f : FlatWorld), tail_set f → (∀ c ∈ calls, c.buffer_ok) →
      ∃ f' i d, run_flat f calls = some (f', i, d) ∧
        q_size_flat f' = q_size_flat f + (i : Int) - (d : Int) ∧ i + d ≤ calls.length := by
  induction calls with
  | nil =>
    intro f _ _
    exact ⟨f, 0, 0, rfl, by simp, by simp⟩
  | cons c cs ih =>
    intro f hinv hok
    have hok1 := hok c (List.mem_cons_self _ _)
    have hok2 : ∀ c' ∈ cs, c'.buffer_ok := fun c' hc => hok c' (List.mem_cons_of_mem _ hc)
    cases c with
    | insert_head s newh ok =>
      obtain ⟨r, f1, h1, hinv1, hs1⟩ := q_insert_head_flat_step f s newh ok hinv
      obtain ⟨f2, i, d, h2, hs2, hle⟩ := ih f1 hinv1 hok2
      refine ⟨f2, i + (if r then 1 else 0), d, ?_, ?_, ?_⟩
      · simp only [run_flat, h1, h2, Option.bind_eq_bind, Option.some_bind]
      · rw [hs2, hs1]; cases r <;> simp
        ring
      · simp only [List.length_cons]; cases r <;> simp <;> omega
    | insert_tail s newh ok =>
      obtain ⟨r, f1, h1, hinv1, hs1⟩ := q_insert_tail_flat_step f s newh ok hinv
      obtain ⟨f2, i, d, h2, hs2, hle⟩ := ih f1 hinv1 hok2
      refine ⟨f2, i + (if r then 1 else 0), d, ?_, ?_, ?_⟩
      · simp only [run_flat, h1, h2, Option.bind_eq_bind, Option.some_bind]
      · rw [hs2, hs1]; cases r <;> simp
        ring
      · simp only [List.length_cons]; cases r <;> simp <;> omega
    | remove_head sp bufsize =>
      obtain ⟨r, f1, sp1, h1, hinv1, hs1⟩ := q_remove_head_flat_step f sp bufsize hinv hok1
      obtain ⟨f2, i, d, h2, hs2, hle⟩ := ih f1 hinv1 hok2
      refine ⟨f2, i, d + (if r then 1 else 0), ?_, ?_, ?_⟩
      · simp only [run_flat, h1, h2, Option.bind_eq_bind, Option.some_bind]
      · rw [hs2, hs1]; cases r <;> simp
        ring
      · simp only [List.length_cons]; cases r <;> simp <;> omega

/-! ## The flat memory agrees with the heap wherever the heap has a result -/

theorem sim_set (h : Heap) (m : Mem) (p : Ptr) (c : list_ele_t)
    (hm : ∀ a n, h a = some n → m a = n) :
    ∀ a n, (h.set p (some c)) a = some n → (m.set p c) a = n := by
  intro a n ha
  by_cases hap : a = p
  · subst hap
    simp only [Heap.set_same, Option.some.injEq] at ha
    simp [Mem.set, ha]
  · rw [Heap.set_other _ _ _ _ hap] at ha
    simp only [Mem.set, hap, if_false]
    exact hm a n ha

theorem sim_free (h : Heap) (m m' : Mem) (p : Ptr) (hm : ∀ a n, h a = some n → m a = n)
    (hm' : ∀ a, a ≠ p → m' a = m a) :
    ∀ a n, (h.set p none) a = some n → m' a = n := by
  intro a n ha
  by_cases hap : a = p
  · subst hap
    simp at ha
  · rw [Heap.set_other _ _ _ _ hap] at ha
    rw [hm' a hap]
    exact hm a n ha

theorem sim_insert_head (w w' : World) (f : FlatWorld) (s : List Nat) (newh : Option Ptr)
    (ok r : Bool) (hs : sim w f) (h : q_insert_head w s newh ok = some (r, w')) :
    ∃ f', q_insert_head_flat f s newh ok = some (r, f') ∧ sim w' f' := by
  obtain ⟨hq, hm⟩ := hs
  unfold q_insert_head at h
  cases hwq : w.q with
  | none =>
    simp only [hwq, Option.some.injEq, Prod.mk.injEq] at h
    obtain ⟨rfl, rfl⟩ := h
    rw [hwq] at hq
    exact ⟨f, by simp [q_insert_head_flat, hq], hq.trans hwq.symm, hm⟩
  | some q =>
    rw [hwq] at hq
    cases newh with
    | none =>
      simp only [hwq, Option.some.injEq, Prod.mk.injEq] at h
      obtain ⟨rfl, rfl⟩ := h
      exact ⟨f, by simp [q_insert_head_flat, hq], hq.trans hwq.symm, hm⟩
    | some p =>
      cases hp : w.heap p with
      | some _ => simp [hwq, hp] at h
      | none =>
        cases ok with
        | false =>
          simp only [hwq, hp, Bool.false_eq_true, if_false, Option.some.injEq,
            Prod.mk.injEq] at h
          obtain ⟨rfl, rfl⟩ := h
          refine ⟨{ f with mem := f.mem.set p { (f.mem p) with value := [] } },
            by simp [q_insert_head_flat, hq], hq, ?_⟩
          intro a n ha
          by_cases hap : a = p
          · subst hap
            simp at ha
          · simp only [Heap.set_other _ _ _ _ hap] at ha
            simp only [Mem.set, hap, if_false]
            exact hm a n ha
        | true =>
          simp only [hwq, hp, if_true, new_value_eq, Option.bind_eq_bind, Option.some_bind,
            Option.some.injEq, Prod.mk.injEq] at h
          obtain ⟨rfl, rfl⟩ := h
          refine ⟨⟨f.mem.set p ⟨cstr s ++ [0], q.head⟩, _⟩,
            by simp only [q_insert_head_flat, hq, if_true, new_value_eq, Option.bind_eq_bind,
              Option.some_bind], rfl, ?_⟩
          exact sim_set _ _ _ _ hm

theorem sim_insert_tail (w w' : World) (f : FlatWorld) (s : List Nat) (newh : Option Ptr)
    (ok r : Bool) (hs : sim w f) (h : q_insert_tail w s newh ok = some (r, w')) :
    ∃ f', q_insert_tail_flat f s newh ok = some (r, f') ∧ sim w' f' := by
  obtain ⟨hq, hm⟩ := hs
  unfold q_insert_tail at h
  cases hwq : w.q with
  | none =>
    simp only [hwq, Option.some.injEq, Prod.mk.injEq] at h
    obtain ⟨rfl, rfl⟩ := h
    rw [hwq] at hq
    exact ⟨f, by simp [q_insert_tail_flat, hq], hq.trans hwq.symm, hm⟩
  | some q =>
    rw [hwq] at hq
    cases newh with
    | none =>
      simp only [hwq, Option.some.injEq, Prod.mk.injEq] at h
      obtain ⟨rfl, rfl⟩ := h
      exact ⟨f, by simp [q_insert_tail_flat, hq], hq.trans hwq.symm, hm⟩
    | some p =>
      cases hp : w.heap p with
      | some _ => simp [hwq, hp] at h
      | none =>
        cases ok with
        | false =>
          simp only [hwq, hp, Bool.false_eq_true, if_false, Option.some.injEq,
            Prod.mk.injEq] at h
          obtain ⟨rfl, rfl⟩ := h
          refine ⟨{ f with mem := f.mem.set p { (f.mem p) with value := [] } },
            by simp [q_insert_tail_flat, hq], hq, ?_⟩
          intro a n ha
          by_cases hap : a = p
          · subst hap
            simp at ha
          · simp only [Heap.set_other _ _ _ _ hap] at ha
            simp only [Mem.set, hap, if_false]
            exact hm a n ha
        | true =>
          simp only [hwq, hp, if_true, new_value_eq, Option.bind_eq_bind, Option.some_bind] at h
          have hm1 := sim_set w.heap f.mem p ⟨cstr s ++ [0], none⟩ hm
          cases hh : q.head with
          | none =>
            simp only [hh, Option.some.injEq, Prod.mk.injEq] at h
            obtain ⟨rfl, rfl⟩ := h
            exact ⟨⟨f.mem.set p ⟨cstr s ++ [0], none⟩, _⟩,
              by simp only [q_insert_tail_flat, hq, if_true, new_value_eq, Option.bind_eq_bind,
                Option.some_bind, hh], rfl, hm1⟩
          | some hd =>
            simp only [hh, Option.bind_eq_some] at h
            obtain ⟨t, ht, tn, htn, tn2, htn2, h⟩ := h
            simp only [Option.some.injEq, Prod.mk.injEq] at h
            obtain ⟨rfl, rfl⟩ := h
            have e1 : (f.mem.set p ⟨cstr s ++ [0], none⟩) t = tn := hm1 t tn htn
            simp only [Heap.set_same, Option.some.injEq] at htn2
            subst htn2
            refine ⟨⟨(f.mem.set p ⟨cstr s ++ [0], none⟩).set t { tn with next := some p }, _⟩,
              ?_, rfl, sim_set _ _ _ _ hm1⟩
            simp only [q_insert_tail_flat, hq, if_true, new_value_eq, Option.bind_eq_bind,
              Option.some_bind, hh, ht, e1]
            simp [Mem.set]

theorem sim_remove_head (w w' : World) (f : FlatWorld) (sp sp' : Option (List Nat))
    (bufsize : Nat) (r : Bool) (hs : sim w f)
    (h : q_remove_head w sp bufsize = some (r, w', sp')) :
    ∃ f', q_remove_head_flat f sp bufsize = some (r, f', sp') ∧ sim w' f' := by
  obtain ⟨hq, hm⟩ := hs
  unfold q_remove_head at h
  cases hwq : w.q with
  | none =>
    simp only [hwq, Option.some.injEq, Prod.mk.injEq] at h
    obtain ⟨rfl, rfl, rfl⟩ := h
    rw [hwq] at hq
    exact ⟨f, by simp [q_remove_head_flat, hq], hq.trans hwq.symm, hm⟩
  | some q =>
    rw [hwq] at hq
    cases hh : q.head with
    | none =>
      simp only [hwq, hh, Option.some.injEq, Prod.mk.injEq] at h
      obtain ⟨rfl, rfl, rfl⟩ := h
      exact ⟨f, by simp [q_remove_head_flat, hq, hh], hq.trans hwq.symm, hm⟩
    | some index =>
      simp only [hwq, hh, Option.bind_eq_bind, Option.bind_eq_some] at h
      obtain ⟨node, hnode, sp1, hsp1, h⟩ := h
      simp only [Option.some.injEq, Prod.mk.injEq] at h
      obtain ⟨rfl, rfl, rfl⟩ := h
      have e : f.mem index = node := hm index node hnode
      refine ⟨⟨f.mem, _⟩, ?_, rfl, sim_free _ _ _ _ hm (fun _ _ => rfl)⟩
      simp only [q_remove_head_flat, hq, hh, e, hsp1, Option.bind_eq_bind, Option.some_bind]

theorem run_sim (calls : List BasicCall) :
    ∀ (w w' : World) (f : FlatWorld) (i d : Nat), sim w f →
      run w (calls.map BasicCall.toCall) = some (w', i, d) →
      ∃ f', run_flat f calls = some (f', i, d) ∧ sim w' f' := by
  induction calls with
  | nil =>
    intro w w' f i d hs h
    simp only [List.map_nil, run, Option.some.injEq, Prod.mk.injEq] at h
    obtain ⟨rfl, rfl, rfl⟩ := h
    exact ⟨f, rfl, hs⟩
  | cons c cs ih =>
    intro w w' f i d hs h
    cases c with
    | insert_head s newh ok =>
      simp only [List.map_cons, BasicCall.toCall, run, Option.bind_eq_bind,
        Option.bind_eq_some] at h
      obtain ⟨⟨r, w1⟩, h1, ⟨w2, i2, d2⟩, h2, h⟩ := h
      simp only [Option.some.injEq, Prod.mk.injEq] at h
      obtain ⟨rfl, rfl, rfl⟩ := h
      obtain ⟨f1, hf1, hs1⟩ := sim_insert_head w w1 f s newh ok r hs h1
      obtain ⟨f2, hf2, hs2⟩ := ih w1 w2 f1 i2 d2 hs1 h2
      exact ⟨f2, by simp only [run_flat, hf1, hf2, Option.bind_eq_bind, Option.some_bind], hs2⟩
    | insert_tail s newh ok =>
      simp only [List.map_cons, BasicCall.toCall, run, Option.bind_eq_bind,
        Option.bind_eq_some] at h
      obtain ⟨⟨r, w1⟩, h1, ⟨w2, i2, d2⟩, h2, h⟩ := h
      simp only [Option.some.injEq, Prod.mk.injEq] at h
      obtain ⟨rfl, rfl, rfl⟩ := h
      obtain ⟨f1, hf1, hs1⟩ := sim_insert_tail w w1 f s newh ok r hs h1
      obtain ⟨f2, hf2, hs2⟩ := ih w1 w2 f1 i2 d2 hs1 h2
      exact ⟨f2, by simp only [run_flat, hf1, hf2, Option.bind_eq_bind, Option.some_bind], hs2⟩
    | remove_head sp bufsize =>
      simp only [List.map_cons, BasicCall.toCall, run, Option.bind_eq_bind,
        Option.bind_eq_some] at h
      obtain ⟨⟨r, w1, sp1⟩, h1, ⟨w2, i2, d2⟩, h2, h⟩ := h
      simp only [Option.some.injEq, Prod.mk.injEq] at h
      obtain ⟨rfl, rfl, rfl⟩ := h
      obtain ⟨f1, hf1, hs1⟩ := sim_remove_head w w1 f sp sp1 bufsize r hs h1
      obtain ⟨f2, hf2, hs2⟩ := ih w1 w2 f1 i2 d2 hs1 h2
      exact ⟨f2, by simp only [run_flat, hf1, hf2, Option.bind_eq_bind, Option.some_bind], hs2⟩

theorem sim_new (ok : Bool) (m : Mem) : sim (q_new ok) (q_new_flat ok m) := by
  cases ok
  · exact ⟨rfl, fun a n h => by simp [q_new, Heap.empty] at h⟩
  · exact ⟨rfl, fun a n h => by simp [q_new, Heap.empty] at h⟩

theorem tail_set_new (ok : Bool) (m : Mem) : tail_set (q_new_flat ok m) := by
  cases ok
  · exact tail_set_of_none _ rfl
  · intro q hq _
    have e : q = ⟨none, none, 0⟩ := by simpa [q_new_flat] using hq.symm
    rw [e]

/-- C10: for every finite sequence of `q_insert_head`, `q_insert_tail` and
`q_remove_head` calls on a fresh queue from `q_new` (fewer than `2 ^ 31` calls,
so that the `int` counter cannot overflow; every buffer as large as its
`bufsize >= 1`), run on the flat memory, the run returns and `q_size` is the
number of insertions that returned true minus the number of removals that
returned true, within the range of `int`, also after every initial part of
the sequence; a run on the heap that has a result has the same counts and the
same `q_size`; every run on the heap (also with `q_reverse` and `q_sort`
calls) that has a result ends with `q_size` equal to that difference;
`q_reverse` and `q_sort` leave `q_size` unchanged; `q_size` of a `NULL` queue
is 0. -/
theorem q_size_counts (ok : Bool) (m : Mem) (calls : List BasicCall)
    (hbuf : ∀ c ∈ calls, c.buffer_ok) (hlen : calls.length < 2 ^ 31) :
    (∃ f i d, run_flat (q_new_flat ok m) calls = some (f, i, d) ∧
      q_size_flat f = (i : Int) - (d : Int) ∧
      -(2 ^ 31 : Int) < q_size_flat f ∧ q_size_flat f < 2 ^ 31 ∧
      (∀ w' i' d', run (q_new ok) (calls.map BasicCall.toCall) = some (w', i', d') →
        i' = i ∧ d' = d ∧ q_size w' = q_size_flat f)) ∧
    (∀ k, ∃ f i d, run_flat (q_new_flat ok m) (calls.take k) = some (f, i, d) ∧
      q_size_flat f = (i : Int) - (d : Int) ∧
      -(2 ^ 31 : Int) < q_size_flat f ∧ q_size_flat f < 2 ^ 31) ∧
    (∀ (cs : List Call) (w' : World) (i d : Nat), run (q_new ok) cs = some (w', i, d) →
      q_size w' = (i : Int) - (d : Int)) ∧
    (∀ fuel w1 w2, q_reverse fuel w1 = some w2 → q_size w2 = q_size w1) ∧
    (∀ fuel w1 w2, q_sort fuel w1 = some w2 → q_size w2 = q_size w1) ∧
    (∀ hp : Heap, q_size ⟨hp, none⟩ = 0) ∧ (∀ m1 : Mem, q_size_flat ⟨m1, none⟩ = 0) := by
  have h0 : q_size_flat (q_new_flat ok m) = 0 := by cases ok <;> rfl
  have h0' : q_size (q_new ok) = 0 := by cases ok <;> rfl
  have hstrict : ∀ (cs : List Call) (w' : World) (i d : Nat),
      run (q_new ok) cs = some (w', i, d) → q_size w' = (i : Int) - (d : Int) := by
    intro cs w' i d h
    rw [run_size cs _ _ _ _ h, h0']
    ring
  refine ⟨?_, ?_, hstrict, q_reverse_size, q_sort_size, fun _ => rfl, fun _ => rfl⟩
  · obtain ⟨f, i, d, hrun, hsz, hle⟩ := run_flat_counts calls _ (tail_set_new ok m) hbuf
    rw [h0] at hsz
    refine ⟨f, i, d, hrun, by rw [hsz]; ring, by rw [hsz]; omega, by rw [hsz]; omega, ?_⟩
    intro w' i' d' h
    obtain ⟨f', hrun', _⟩ := run_sim calls _ w' _ i' d' (sim_new ok m) h
    rw [hrun] at hrun'
    simp only [Option.some.injEq, Prod.mk.injEq] at hrun'
    obtain ⟨_, rfl, rfl⟩ := hrun'
    refine ⟨rfl, rfl, ?_⟩
    rw [hstrict _ w' i d h, hsz]
    ring
  · intro k
    obtain ⟨f, i, d, hrun, hsz, hle⟩ := run_flat_counts (calls.take k) _ (tail_set_new ok m)
      (fun c hc => hbuf c (List.mem_of_mem_take hc))
    rw [h0] at hsz
    have hk : (calls.take k).length ≤ calls.length := by
      rw [List.length_take]; omega
    exact ⟨f, i, d, hrun, by rw [hsz]; ring, by rw [hsz]; omega, by rw [hsz]; omega⟩

theorem calls_stale_buffers : ∀ c ∈ calls_stale, c.buffer_ok := by
  intro c hc
  simp only [calls_stale, List.mem_cons, List.mem_singleton, List.not_mem_nil, or_false] at hc
  rcases hc with rfl | rfl | rfl | rfl <;> exact trivial

/-- Witness for C10: the sequence `insert_tail a; remove_head; insert_head b;
insert_tail c`, whose last call stores through the stale `tail`, ends with
size 2 after three successful insertions and one successful removal; and a run
on the heap with two successful insertions, a failed one and one successful
removal. -/
theorem q_size_counts_witness :
    (∀ c ∈ calls_stale, c.buffer_ok) ∧ calls_stale.length < 2 ^ 31 ∧
    (run_flat (q_new_flat true mem_zero) calls_stale).map (fun r => (q_size_flat r.1, r.2)) =
      some (2, 3, 1) ∧
    (∃ f i d, run_flat (q_new_flat true mem_zero) calls_stale = some (f, i, d) ∧
      q_size_flat f = (i : Int) - (d : Int) ∧
      -(2 ^ 31 : Int) < q_size_flat f ∧ q_size_flat f < 2 ^ 31 ∧
      (∀ w' i' d', run (q_new true) (calls_stale.map BasicCall.toCall) = some (w', i', d') →
        i' = i ∧ d' = d ∧ q_size w' = q_size_flat f)) ∧
    ∃ w' i d, run (q_new true) calls_example = some (w', i, d) ∧ i = 2 ∧ d = 1 ∧
      q_size w' = (i : Int) - (d : Int) := by
  have hs : (run (q_new true) calls_example).isSome = true := by decide
  have hc : (run (q_new true) calls_example).map (fun r => r.2) = some (2, 1) := by decide
  obtain ⟨⟨w', i, d⟩, h⟩ := Option.isSome_iff_exists.1 hs
  rw [h] at hc
  simp only [Option.map_some', Option.some.injEq, Prod.mk.injEq] at hc
  have hthm := q_size_counts true mem_zero calls_stale calls_stale_buffers (by decide)
  exact ⟨calls_stale_buffers, by decide, by decide, hthm.1,
    w', i, d, h, hc.1, hc.2, hthm.2.2.1 calls_example w' i d h⟩

/-! ## Insertion at the head and removal, in general form -/

theorem heap_set_free (h : Heap) (p : Ptr) (c : Option list_ele_t) (hp : h p = none) :
    (h.set p c).set p none = h := by
  funext x
  by_cases hx : x = p
  · subst hx; simp [hp]
  · rw [Heap.set_other _ _ _ _ hx, Heap.set_other _ _ _ _ hx]

theorem q_insert_head_spec (w : World) (l : List Ptr) (s : List Nat) (p : Ptr)
    (hwf : wf w l) (hp : w.heap p = none) :
    ∃ w' q q', q_insert_head w s (some p) true = some (true, w') ∧ w.q = some q ∧
      w'.q = some q' ∧ wf w' (p :: l) ∧
      w'.heap = w.heap.set p (some ⟨cstr s ++ [0], q.head⟩) ∧
      values w'.heap (p :: l) = cstr s :: values w.heap l ∧
      q'.size = q.size + 1 ∧ q'.head = some p ∧
      (l = [] → q'.tail = some p) ∧ (l ≠ [] → q'.tail = q.tail) := by
  obtain ⟨q, hq, hch, hsz, htl⟩ := hwf
  have hpl : p ∉ l := not_mem_of_free _ _ _ _ hch hp
  have hch1 : chain (w.heap.set p (some ⟨cstr s ++ [0], q.head⟩)) (some p) (p :: l) :=
    ⟨rfl, _, Heap.set_same _ _ _, lseg_set _ _ _ _ hpl _ _ hch⟩
  have hvals : values (w.heap.set p (some ⟨cstr s ++ [0], q.head⟩)) (p :: l) =
      cstr s :: values w.heap l := by
    have h1 := values_set_other w.heap p (some ⟨cstr s ++ [0], q.head⟩) l hpl
    unfold values at h1 ⊢
    rw [List.map_cons, h1]
    simp [valOf, cstr_new_value]
  cases l with
  | nil =>
    have ht : q.tail = none := htl
    refine ⟨⟨w.heap.set p (some ⟨cstr s ++ [0], q.head⟩), some ⟨some p, some p, q.size + 1⟩⟩, q, _,
      ?_, hq, rfl, ⟨_, rfl, hch1, ?_, rfl⟩, rfl, hvals, rfl, rfl, fun _ => rfl,
      fun h => absurd rfl h⟩
    · simp only [q_insert_head, hq, hp, new_value_eq, ht, if_true, Option.bind_eq_bind,
        Option.some_bind, Option.isNone_none]
    · simp [hsz]
  | cons a t =>
    obtain ⟨tl, htl'⟩ : ∃ tl, q.tail = some tl := by
      rw [htl]
      exact ⟨_, List.getLast?_eq_getLast (a :: t) (List.cons_ne_nil _ _)⟩
    refine ⟨⟨w.heap.set p (some ⟨cstr s ++ [0], q.head⟩), some ⟨some p, q.tail, q.size + 1⟩⟩, q, _,
      ?_, hq, rfl, ⟨_, rfl, hch1, ?_, ?_⟩, rfl, hvals, rfl, rfl, fun h => by simp at h,
      fun _ => rfl⟩
    · simp only [q_insert_head, hq, hp, new_value_eq, htl', if_true, Option.bind_eq_bind,
        Option.some_bind, Option.isNone_some, Bool.false_eq_true, if_false]
    · simp only [hsz, List.length_cons]; push_cast; ring
    · rw [htl, List.getLast?_cons_cons]

theorem q_remove_head_spec (w : World) (a : Ptr) (rest : List Ptr) (buf : List Nat)
    (bufsize : Nat) (hwf : wf w (a :: rest)) (h1 : 1 ≤ bufsize) (h2 : bufsize < SIZE_MOD)
    (h3 : bufsize ≤ buf.length) (h4 : strlen (valOf w.heap a) < SIZE_MOD) :
    ∃ q n, w.q = some q ∧ w.heap a = some n ∧ q.head = some a ∧ chain w.heap n.next rest ∧
      q_remove_head w (some buf) bufsize =
        some (true, ⟨w.heap.set a none, some ⟨n.next, q.tail, q.size - 1⟩⟩,
          some ((cstr n.value).take (min (strlen n.value) (bufsize - 1)) ++
            0 :: buf.drop (min (strlen n.value) (bufsize - 1) + 1))) ∧
      q_remove_head w none bufsize =
        some (true, ⟨w.heap.set a none, some ⟨n.next, q.tail, q.size - 1⟩⟩, none) := by
  obtain ⟨q, hq, hch, _, _⟩ := hwf
  obtain ⟨hh, n, hn, hrest⟩ := hch
  have hv : valOf w.heap a = n.value := by simp [valOf, hn]
  rw [hv] at h4
  have hcopy := remove_copy_spec n.value buf bufsize h1 h2 h3 h4
  refine ⟨q, n, hq, hn, hh, hrest, ?_, ?_⟩
  · simp only [q_remove_head, hq, hh, hn, hcopy, Option.bind_eq_bind, Option.some_bind]
  · simp only [q_remove_head, hq, hh, hn, remove_copy, Option.bind_eq_bind, Option.some_bind]

theorem cstr_take_zero (s buf : List Nat) (m : Nat) :
    cstr ((cstr s).take m ++ 0 :: buf) = (cstr s).take m := by
  apply cstr_append_zero
  intro b hb
  exact cstr_nonzero _ b (List.mem_of_mem_take hb)

theorem round_trip_buffer (s buf : List Nat) (bufsize : Nat) :
    (strlen s + 1 ≤ bufsize →
      cstr ((cstr s).take (min (strlen s) (bufsize - 1)) ++
        0 :: buf.drop (min (strlen s) (bufsize - 1) + 1)) = cstr s) ∧
    (bufsize < strlen s + 1 →
      cstr ((cstr s).take (min (strlen s) (bufsize - 1)) ++
        0 :: buf.drop (min (strlen s) (bufsize - 1) + 1)) = (cstr s).take (bufsize - 1)) := by
  constructor
  · intro hle
    rw [cstr_take_zero]
    have : min (strlen s) (bufsize - 1) = (cstr s).length := by unfold strlen at hle ⊢; omega
    rw [this, List.take_length]
  · intro hlt
    rw [cstr_take_zero]
    have : min (strlen s) (bufsize - 1) = bufsize - 1 := by omega
    rw [this]

theorem strlen_new_value (s : List Nat) : strlen (cstr s ++ [0]) = strlen s := by
  unfold strlen
  rw [cstr_new_value]

/-- C11: on a well-formed queue, `q_insert_head` of `s` (allocations
succeeding, node at the free address `p`) followed by `q_remove_head` with a
buffer of `bufsize >= 1` bytes returns true twice; the string left in the
buffer is the string of `s` when `bufsize >= strlen s + 1` and its first
`bufsize - 1` characters otherwise, followed by the terminator; the heap, the
`head`, the chain, the strings and the size of the queue are what they were
before the insertion.  The same holds for `q_insert_tail` followed by
`q_remove_head` on an empty queue. -/
theorem insert_remove_round_trip (w : World) (l : List Ptr) (s : List Nat) (p : Ptr)
    (buf : List Nat) (bufsize : Nat) (hwf : wf w l) (hp : w.heap p = none)
    (h1 : 1 ≤ bufsize) (h2 : bufsize < SIZE_MOD) (h3 : bufsize ≤ buf.length)
    (h4 : strlen s < SIZE_MOD) :
    (∃ w1 w2 buf' q q2, q_insert_head w s (some p) true = some (true, w1) ∧
      q_remove_head w1 (some buf) bufsize = some (true, w2, some buf') ∧
      buf' = (cstr s).take (min (strlen s) (bufsize - 1)) ++
        0 :: buf.drop (min (strlen s) (bufsize - 1) + 1) ∧
      (strlen s + 1 ≤ bufsize → cstr buf' = cstr s) ∧
      (bufsize < strlen s + 1 → cstr buf' = (cstr s).take (bufsize - 1)) ∧
      w2.heap = w.heap ∧ w.q = some q ∧ w2.q = some q2 ∧ q2.head = q.head ∧
      q2.size = q.size ∧ chain w2.heap q2.head l ∧ values w2.heap l = values w.heap l) ∧
    (l = [] → ∃ w1 w2 buf' q q2, q_insert_tail w s (some p) true = some (true, w1) ∧
      q_remove_head w1 (some buf) bufsize = some (true, w2, some buf') ∧
      buf' = (cstr s).take (min (strlen s) (bufsize - 1)) ++
        0 :: buf.drop (min (strlen s) (bufsize - 1) + 1) ∧
      (strlen s + 1 ≤ bufsize → cstr buf' = cstr s) ∧
      (bufsize < strlen s + 1 → cstr buf' = (cstr s).take (bufsize - 1)) ∧
      w2.heap = w.heap ∧ w.q = some q ∧ w2.q = some q2 ∧ q2.head = q.head ∧
      q2.size = q.size ∧ chain w2.heap q2.head l ∧ values w2.heap l = values w.heap l) := by
  have hwf0 := hwf
  obtain ⟨q0, hq0, hch0, hsz0, htl0⟩ := hwf0
  constructor
  · obtain ⟨w1, q, q1, hins, hq, hq1, hwf1, hheap1, _, hsz1, _, _, _⟩ :=
      q_insert_head_spec w l s p hwf hp
    have hp1 : w1.heap p = some ⟨cstr s ++ [0], q.head⟩ := by rw [hheap1]; simp
    have hv1 : valOf w1.heap p = cstr s ++ [0] := by simp [valOf, hp1]
    obtain ⟨q1', n, hq1', hn, _, _, hrem, _⟩ := q_remove_head_spec w1 p l buf bufsize hwf1 h1 h2 h3
      (by rw [hv1, strlen_new_value]; exact h4)
    rw [hp1] at hn
    have hn' : n = ⟨cstr s ++ [0], q.head⟩ := by simpa using hn.symm
    subst hn'
    rw [hq1] at hq1'
    have hqq : q1 = q1' := by simpa using hq1'
    subst hqq
    simp only [cstr_new_value, strlen_new_value] at hrem
    have hheap2 : w1.heap.set p none = w.heap := by
      rw [hheap1]; exact heap_set_free _ _ _ hp
    rw [hq] at hq0
    have hqq0 : q = q0 := by simpa using hq0
    subst hqq0
    refine ⟨w1, _, _, q, _, hins, hrem, rfl, (round_trip_buffer s buf bufsize).1,
      (round_trip_buffer s buf bufsize).2, hheap2, hq, rfl, rfl, ?_, ?_, ?_⟩
    · show q1.size - 1 = q.size
      rw [hsz1]; ring
    · show chain (w1.heap.set p none) q.head l
      rw [hheap2]; exact hch0
    · show values (w1.heap.set p none) l = values w.heap l
      rw [hheap2]
  · intro hl
    subst hl
    have hh : q0.head = none := hch0
    have hins : q_insert_tail w s (some p) true = some (true,
        ⟨w.heap.set p (some ⟨cstr s ++ [0], none⟩), some ⟨some p, some p, q0.size + 1⟩⟩) := by
      simp only [q_insert_tail, hq0, hp, new_value_eq, hh, if_true, Option.bind_eq_bind,
        Option.some_bind]
    have hwf1 : wf ⟨w.heap.set p (some ⟨cstr s ++ [0], none⟩),
        some ⟨some p, some p, q0.size + 1⟩⟩ [p] :=
      ⟨_, rfl, ⟨rfl, _, Heap.set_same _ _ _, rfl⟩, by simp [hsz0], rfl⟩
    have hv1 : valOf (w.heap.set p (some ⟨cstr s ++ [0], none⟩)) p = cstr s ++ [0] := by
      simp [valOf]
    obtain ⟨q1', n, hq1', hn, _, _, hrem, _⟩ := q_remove_head_spec _ p [] buf bufsize hwf1 h1 h2 h3
      (by rw [hv1, strlen_new_value]; exact h4)
    simp only [Heap.set_same, Option.some.injEq] at hn
    subst hn
    have hqq : q1' = ⟨some p, some p, q0.size + 1⟩ := by simpa using hq1'.symm
    subst hqq
    simp only [cstr_new_value, strlen_new_value] at hrem
    have hheap2 : (w.heap.set p (some ⟨cstr s ++ [0], none⟩)).set p none = w.heap :=
      heap_set_free _ _ _ hp
    refine ⟨_, _, _, q0, _, hins, hrem, rfl, (round_trip_buffer s buf bufsize).1,
      (round_trip_buffer s buf bufsize).2, hheap2, hq0, rfl, hh.symm, ?_, ?_, ?_⟩
    · show q0.size + 1 - 1 = q0.size
      ring
    · exact rfl
    · rfl

/-- Witness for C11: "date" inserted at the head of the queue banana, apple,
cherry and removed into a buffer of three bytes. -/
theorem insert_remove_round_trip_witness :
    wf world_bac [0, 1, 2] ∧ world_bac.heap 3 = none ∧ 1 ≤ 3 ∧ 3 < SIZE_MOD ∧
    3 ≤ [9, 9, 9].length ∧ strlen (bytes "date") < SIZE_MOD ∧
    ∃ w1 w2 buf' q q2, q_insert_head world_bac (bytes "date") (some 3) true = some (true, w1) ∧
      q_remove_head w1 (some [9, 9, 9]) 3 = some (true, w2, some buf') ∧
      buf' = (cstr (bytes "date")).take (min (strlen (bytes "date")) (3 - 1)) ++
        0 :: [9, 9, 9].drop (min (strlen (bytes "date")) (3 - 1) + 1) ∧
      (strlen (bytes "date") + 1 ≤ 3 → cstr buf' = cstr (bytes "date")) ∧
      (3 < strlen (bytes "date") + 1 → cstr buf' = (cstr (bytes "date")).take (3 - 1)) ∧
      w2.heap = world_bac.heap ∧ world_bac.q = some q ∧ w2.q = some q2 ∧ q2.head = q.head ∧
      q2.size = q.size ∧ chain w2.heap q2.head [0, 1, 2] ∧
      values w2.heap [0, 1, 2] = values world_bac.heap [0, 1, 2] :=
  ⟨wf_world_bac, rfl, by decide, by decide, by decide, by decide,
    (insert_remove_round_trip world_bac [0, 1, 2] (bytes "date") 3 [9, 9, 9] 3 wf_world_bac rfl
      (by decide) (by decide) (by decide) (by decide)).1⟩

/-! ## Reversing twice, sorting twice -/

/-- C12: on a well-formed queue with chain `l`, `q_reverse` applied twice
(with fuel at least the length) returns a well-formed queue with the same
chain `l`, the same queue record (`head`, `tail`, `size`) and the same values
in every element. -/
theorem q_reverse_twice (fuel : Nat) (w : World) (l : List Ptr) (hwf : wf w l)
    (hf : l.length ≤ fuel) :
    ∃ w1 w2, q_reverse fuel w = some w1 ∧ q_reverse fuel w1 = some w2 ∧ wf w2 l ∧
      w2.q = w.q ∧ sameVals w.heap w2.heap ∧ values w2.heap l = values w.heap l := by
  obtain ⟨w1, q, q1, hrun1, hq, hq1, hwf1, hh1, ht1, hs1, hsv1, _⟩ := q_reverse_spec fuel w l hwf hf
  obtain ⟨w2, q1', q2, hrun2, hq1', hq2, hwf2, hh2, ht2, hs2, hsv2, _⟩ :=
    q_reverse_spec fuel w1 l.reverse hwf1 (by simpa using hf)
  rw [hq1] at hq1'
  have e : q1 = q1' := by simpa using hq1'
  subst e
  rw [List.reverse_reverse] at hwf2
  have hsv := sameVals_trans _ _ _ hsv1 hsv2
  refine ⟨w1, w2, hrun1, hrun2, hwf2, ?_, hsv, values_sameVals _ _ hsv l⟩
  rw [hq2, hq]
  congr 1
  cases q2 with
  | mk a b c =>
    cases q with
    | mk a0 b0 c0 =>
      simp only at hh2 ht2 hs2 hh1 ht1 hs1
      simp only [queue_t.mk.injEq]
      exact ⟨hh2.trans ht1, ht2.trans hh1, hs2.trans hs1⟩

/-- Witness for C12: the queue banana, apple, cherry. -/
theorem q_reverse_twice_witness :
    wf world_bac [0, 1, 2] ∧
    ∃ w1 w2, q_reverse 3 world_bac = some w1 ∧ q_reverse 3 w1 = some w2 ∧ wf w2 [0, 1, 2] ∧
      w2.q = world_bac.q ∧ sameVals world_bac.heap w2.heap ∧
      values w2.heap [0, 1, 2] = values world_bac.heap [0, 1, 2] :=
  ⟨wf_world_bac, q_reverse_twice 3 world_bac [0, 1, 2] wf_world_bac (by decide)⟩

theorem strcmp_eq_zero (x : List Nat) :
    ∀ (y : List Nat), (∀ b ∈ x, b ≠ 0) → (∀ b ∈ y, b ≠ 0) → strcmp x y = 0 → x = y := by
  induction x with
  | nil =>
    intro y _ hy h
    cases y with
    | nil => rfl
    | cons b bs =>
      have hb := hy b (List.mem_cons_self _ _)
      simp only [strcmp] at h
      omega
  | cons a as ih =>
    intro y hx hy h
    have ha := hx a (List.mem_cons_self _ _)
    cases y with
    | nil =>
      simp only [strcmp] at h
      omega
    | cons b bs =>
      simp only [strcmp] at h
      by_cases hab : a = b
      · subst hab
        simp only [ne_eq, not_true_eq_false, if_false, ha] at h
        rw [ih bs (fun c hc => hx c (List.mem_cons_of_mem _ hc))
          (fun c hc => hy c (List.mem_cons_of_mem _ hc)) h]
      · simp only [ne_eq, hab, not_false_eq_true, if_true] at h
        omega

theorem str_le_antisymm (x y : List Nat) (h1 : str_le x y) (h2 : str_le y x) : x = y := by
  apply h1.2
  have := strcmp_swap x y
  have a := h1.1
  have b := h2.1
  omega

theorem values_sorted (val : Ptr → List Nat) (l : List Ptr) (hs : l.Pairwise (le_val val)) :
    (l.map (fun a => cstr (val a))).Pairwise str_le := by
  rw [List.pairwise_map]
  refine hs.imp ?_
  intro a b hab
  have h1 : strcmp (cstr (val a)) (cstr (val b)) ≤ 0 := by rw [strcmp_cstr]; exact hab
  exact ⟨h1, strcmp_eq_zero _ _ (cstr_nonzero _) (cstr_nonzero _)⟩

theorem sorted_values_unique (val : Ptr → List Nat) (l1 l2 : List Ptr) (hp : l1.Perm l2)
    (h1 : l1.Pairwise (le_val val)) (h2 : l2.Pairwise (le_val val)) :
    l1.map (fun a => cstr (val a)) = l2.map (fun a => cstr (val a)) := by
  haveI : IsAntisymm (List Nat) str_le := ⟨str_le_antisymm⟩
  exact List.eq_of_perm_of_sorted (hp.map _) (values_sorted val l1 h1) (values_sorted val l2 h2)

/-- C13: on a well-formed queue, `q_sort` applied twice (with fuel at least
the length) returns, and the sequence of strings read from `head` after the
second call is the sequence after the first call. -/
theorem q_sort_idempotent (fuel : Nat) (w : World) (l : List Ptr) (hwf : wf w l)
    (hf : l.length ≤ fuel) :
    ∃ w1 w2 l1 l2, q_sort fuel w = some w1 ∧ q_sort fuel w1 = some w2 ∧ wf w1 l1 ∧ wf w2 l2 ∧
      values w2.heap l2 = values w1.heap l1 ∧ q_size w2 = q_size w1 := by
  obtain ⟨w1, q, q1, hrun1, hq, hq1, hwf1, hs1, hsv1, _, _⟩ := q_sort_spec fuel w l hwf hf
  have hlen1 : (sortL (valOf w.heap) fuel l).length ≤ fuel := by
    rw [(sortL_perm _ _ _).length_eq]; exact hf
  obtain ⟨w2, q1', q2, hrun2, hq1', hq2, hwf2, hs2, hsv2, _, _⟩ :=
    q_sort_spec fuel w1 _ hwf1 hlen1
  refine ⟨w1, w2, _, _, hrun1, hrun2, hwf1, hwf2, ?_, ?_⟩
  · rw [values_sameVals _ _ hsv2]
    exact sorted_values_unique (valOf w1.heap) _ _ (sortL_perm _ _ _)
      (sortL_sorted _ _ _ hlen1)
      (by rw [valOf_eq_of_sameVals _ _ hsv1]; exact sortL_sorted _ _ _ hf)
  · rw [q_size_eq _ _ hq2, q_size_eq _ _ hq1', hs2]

/-- Witness for C13: the queue banana, apple, cherry. -/
theorem q_sort_idempotent_witness :
    wf world_bac [0, 1, 2] ∧
    ∃ w1 w2 l1 l2, q_sort 3 world_bac = some w1 ∧ q_sort 3 w1 = some w2 ∧ wf w1 l1 ∧
      wf w2 l2 ∧ values w2.heap l2 = values w1.heap l1 ∧ q_size w2 = q_size w1 :=
  ⟨wf_world_bac, q_sort_idempotent 3 world_bac [0, 1, 2] wf_world_bac (by decide)⟩

/-! ## Failure of the removal and of the insertions -/

/-- C14: `q_remove_head` on a `NULL` queue and on a queue whose `head` is
`NULL` returns false and leaves the state and the buffer as they were; on a
queue whose `head` is not `NULL` it never returns false, and it returns true
when the head element is live and no buffer is given.  On an empty queue the
size stays 0. -/
theorem q_remove_head_false_iff (h : Heap) (sp : Option (List Nat)) (bufsize : Nat) :
    q_remove_head ⟨h, none⟩ sp bufsize = some (false, ⟨h, none⟩, sp) ∧
    (∀ (t : Option Ptr) (n : Int),
      q_remove_head ⟨h, some ⟨none, t, n⟩⟩ sp bufsize =
        some (false, ⟨h, some ⟨none, t, n⟩⟩, sp)) ∧
    (∀ (hd : Ptr) (t : Option Ptr) (n : Int),
      (q_remove_head ⟨h, some ⟨some hd, t, n⟩⟩ sp bufsize).map (fun r => r.1) ≠ some false) ∧
    (∀ (hd : Ptr) (node : list_ele_t) (t : Option Ptr) (n : Int),
      (q_remove_head ⟨h.set hd (some node), some ⟨some hd, t, n⟩⟩ none bufsize).map
        (fun r => r.1) = some true) ∧
    (q_remove_head (q_new true) sp bufsize).map (fun r => (r.1, q_size r.2.1)) =
      some (false, 0) := by
  refine ⟨rfl, fun _ _ => rfl, ?_, ?_, rfl⟩
  swap
  · intro hd node t n
    simp [q_remove_head, remove_copy]
  intro hd t n
  simp only [q_remove_head, Option.bind_eq_bind]
  cases h hd with
  | none => simp
  | some node =>
    simp only [Option.some_bind]
    cases remove_copy node.value sp bufsize with
    | none => simp
    | some sp1 => simp

theorem world_free_eq (w : World) (p : Ptr) (c : Option list_ele_t) (hp : w.heap p = none) :
    ({ w with heap := (w.heap.set p c).set p none } : World) = w := by
  cases w with
  | mk h q =>
    simp only at hp
    simp only [World.mk.injEq, and_true]
    exact heap_set_free h p c hp

theorem q_insert_head_result (w : World) (s : List Nat) (newh : Option Ptr) (ok r : Bool)
    (w' : World) (h : q_insert_head w s newh ok = some (r, w')) :
    (r = false ↔ (w.q = none ∨ newh = none ∨ ok = false)) ∧ (r = false → w' = w) := by
  unfold q_insert_head at h
  cases hq : w.q with
  | none =>
    simp only [hq, Option.some.injEq, Prod.mk.injEq] at h
    obtain ⟨rfl, rfl⟩ := h
    simp
  | some q =>
    cases newh with
    | none =>
      simp only [hq, Option.some.injEq, Prod.mk.injEq] at h
      obtain ⟨rfl, rfl⟩ := h
      simp
    | some p =>
      cases hp : w.heap p with
      | some _ => simp [hq, hp] at h
      | none =>
        cases ok with
        | false =>
          simp only [hq, hp, Bool.false_eq_true, if_false, Option.some.injEq,
            Prod.mk.injEq] at h
          obtain ⟨rfl, rfl⟩ := h
          refine ⟨by simp, fun _ => ?_⟩
          have e := world_free_eq w p (some ⟨[], none⟩) hp
          rw [hq] at e
          exact e
        | true =>
          simp only [hq, hp, if_true, new_value_eq, Option.bind_eq_bind, Option.some_bind,
            Option.some.injEq, Prod.mk.injEq] at h
          obtain ⟨rfl, rfl⟩ := h
          simp

theorem q_insert_tail_result (w : World) (s : List Nat) (newh : Option Ptr) (ok r : Bool)
    (w' : World) (h : q_insert_tail w s newh ok = some (r, w')) :
    (r = false ↔ (w.q = none ∨ newh = none ∨ ok = false)) ∧ (r = false → w' = w) := by
  unfold q_insert_tail at h
  cases hq : w.q with
  | none =>
    simp only [hq, Option.some.injEq, Prod.mk.injEq] at h
    obtain ⟨rfl, rfl⟩ := h
    simp
  | some q =>
    cases newh with
    | none =>
      simp only [hq, Option.some.injEq, Prod.mk.injEq] at h
      obtain ⟨rfl, rfl⟩ := h
      simp
    | some p =>
      cases hp : w.heap p with
      | some _ => simp [hq, hp] at h
      | none =>
        cases ok with
        | false =>
          simp only [hq, hp, Bool.false_eq_true, if_false, Option.some.injEq,
            Prod.mk.injEq] at h
          obtain ⟨rfl, rfl⟩ := h
          refine ⟨by simp, fun _ => ?_⟩
          have e := world_free_eq w p (some ⟨[], none⟩) hp
          rw [hq] at e
          exact e
        | true =>
          simp only [hq, hp, if_true, new_value_eq, Option.bind_eq_bind, Option.some_bind] at h
          cases hh : q.head with
          | none =>
            simp only [hh, Option.some.injEq, Prod.mk.injEq] at h
            obtain ⟨rfl, rfl⟩ := h
            simp
          | some hd =>
            simp only [hh, Option.bind_eq_some] at h
            obtain ⟨t, _, tn, _, tn2, _, h⟩ := h
            simp only [Option.some.injEq, Prod.mk.injEq] at h
            obtain ⟨rfl, rfl⟩ := h
            simp

theorem q_insert_head_returns (w : World) (l : List Ptr) (s : List Nat) (newh : Option Ptr)
    (ok : Bool) (hwf : wf w l) (hfree : ∀ p, newh = some p → w.heap p = none) :
    ∃ r w', q_insert_head w s newh ok = some (r, w') := by
  obtain ⟨q, hq, _⟩ := hwf
  cases newh with
  | none => exact ⟨false, w, by simp [q_insert_head, hq]⟩
  | some p =>
    have hp := hfree p rfl
    cases ok with
    | false =>
      cases h : q_insert_head w s (some p) false with
      | none => simp [q_insert_head, hq, hp] at h
      | some x => exact ⟨x.1, x.2, rfl⟩
    | true =>
      cases h : q_insert_head w s (some p) true with
      | none => simp [q_insert_head, hq, hp, new_value_eq] at h
      | some x => exact ⟨x.1, x.2, rfl⟩

theorem q_insert_tail_returns (w : World) (l : List Ptr) (s : List Nat) (newh : Option Ptr)
    (ok : Bool) (hwf : wf w l) (hfree : ∀ p, newh = some p → w.heap p = none) :
    ∃ r w', q_insert_tail w s newh ok = some (r, w') := by
  have hwf0 := hwf
  obtain ⟨q, hq, _⟩ := hwf0
  cases newh with
  | none => exact ⟨false, w, by simp [q_insert_tail, hq]⟩
  | some p =>
    have hp := hfree p rfl
    cases ok with
    | false =>
      cases h : q_insert_tail w s (some p) false with
      | none => simp [q_insert_tail, hq, hp] at h
      | some x => exact ⟨x.1, x.2, rfl⟩
    | true =>
      obtain ⟨w', _, _, hrun, _⟩ := q_insert_tail_spec w l s p hwf hp
      exact ⟨true, w', hrun⟩

/-- C15: the outcomes of `malloc` are inputs (`newh` for the node, `ok` for
the string).  On a well-formed queue `q_insert_head` and `q_insert_tail`
return; in every state, whenever they return, the result is false exactly
when `q` is `NULL`, the node allocation failed or the value allocation failed,
and a call that returns false returns the state it was given. -/
theorem insert_fails_cleanly (w : World) (l : List Ptr) (s : List Nat) (newh : Option Ptr)
    (ok : Bool) (hwf : wf w l) (hfree : ∀ p, newh = some p → w.heap p = none) :
    (∃ r1 w1 r2 w2, q_insert_head w s newh ok = some (r1, w1) ∧
      q_insert_tail w s newh ok = some (r2, w2) ∧
      (r1 = false ↔ (newh = none ∨ ok = false)) ∧ (r2 = false ↔ (newh = none ∨ ok = false)) ∧
      (r1 = false → w1 = w) ∧ (r2 = false → w2 = w)) ∧
    (∀ (h : Heap), q_insert_head ⟨h, none⟩ s newh ok = some (false, ⟨h, none⟩) ∧
      q_insert_tail ⟨h, none⟩ s newh ok = some (false, ⟨h, none⟩)) ∧
    (∀ (w0 w' : World) (r : Bool), q_insert_head w0 s newh ok = some (r, w') →
      (r = false ↔ (w0.q = none ∨ newh = none ∨ ok = false)) ∧ (r = false → w' = w0)) ∧
    (∀ (w0 w' : World) (r : Bool), q_insert_tail w0 s newh ok = some (r, w') →
      (r = false ↔ (w0.q = none ∨ newh = none ∨ ok = false)) ∧ (r = false → w' = w0)) := by
  refine ⟨?_, fun _ => ⟨rfl, rfl⟩, fun w0 w' r h => q_insert_head_result w0 s newh ok r w' h,
    fun w0 w' r h => q_insert_tail_result w0 s newh ok r w' h⟩
  obtain ⟨r1, w1, h1⟩ := q_insert_head_returns w l s newh ok hwf hfree
  obtain ⟨r2, w2, h2⟩ := q_insert_tail_returns w l s newh ok hwf hfree
  have e1 := q_insert_head_result w s newh ok r1 w1 h1
  have e2 := q_insert_tail_result w s newh ok r2 w2 h2
  obtain ⟨q, hq, _⟩ := hwf
  refine ⟨r1, w1, r2, w2, h1, h2, ?_, ?_, e1.2, e2.2⟩
  · rw [e1.1]; simp [hq]
  · rw [e2.1]; simp [hq]

/-- Witness for C15: a failing value allocation on the queue banana, apple,
cherry. -/
theorem insert_fails_cleanly_witness :
    wf world_bac [0, 1, 2] ∧ (∀ p, some 3 = some p → world_bac.heap p = none) ∧
    ∃ r1 w1 r2 w2, q_insert_head world_bac (bytes "date") (some 3) false = some (r1, w1) ∧
      q_insert_tail world_bac (bytes "date") (some 3) false = some (r2, w2) ∧
      (r1 = false ↔ ((some 3 : Option Ptr) = none ∨ false = false)) ∧
      (r2 = false ↔ ((some 3 : Option Ptr) = none ∨ false = false)) ∧
      (r1 = false → w1 = world_bac) ∧ (r2 = false → w2 = world_bac) :=
  ⟨wf_world_bac, fun p hp => by
      have e : (3 : Ptr) = p := by simpa using hp
      subst e
      rfl,
    (insert_fails_cleanly world_bac [0, 1, 2] (bytes "date") (some 3) false wf_world_bac
      (fun p hp => by
        have e : (3 : Ptr) = p := by simpa using hp
        subst e
        rfl)).1⟩

/-! ## The state after `q_sort` -/

theorem chain_last_next (h : Heap) (p : Option Ptr) (l : List Ptr) (t : Ptr)
    (hch : chain h p l) (ht : l.getLast? = some t) : ∃ tn, h t = some tn ∧ tn.next = none := by
  rcases eq_nil_or_snoc l with hnil | ⟨l1, b, hb⟩
  · rw [hnil] at ht; simp at ht
  · rw [hb] at ht hch
    have e : b = t := by simpa using ht
    subst e
    obtain ⟨m, _, hlast⟩ := (lseg_append _ _ _ _ _).1 hch
    obtain ⟨_, tn, htn, hnone⟩ := hlast
    exact ⟨tn, htn, hnone⟩

theorem q_sort_small (fuel : Nat) (h : Heap) (q : queue_t) (hs : q.size ≤ 1) :
    q_sort fuel ⟨h, some q⟩ = some ⟨h, some q⟩ := by
  simp [q_sort, hs]

/-- C16: on a well-formed queue with at least two elements `q_sort` (with fuel
at least the length) returns; `head` is the first element of the sorted chain,
`tail` is its last element, reached from `head` in `size - 1` links, with
`next` equal to `NULL`; `size` is unchanged.  A `NULL` queue and a queue with
`size <= 1` are returned as they are. -/
theorem q_sort_head_tail (fuel : Nat) (w : World) (l : List Ptr) (hwf : wf w l)
    (h2 : 2 ≤ l.length) (hf : l.length ≤ fuel) :
    (∃ w' q q' l', q_sort fuel w = some w' ∧ w.q = some q ∧ w'.q = some q' ∧
      chain w'.heap q'.head l' ∧ l'.Perm l ∧ l'.Pairwise (le_val (valOf w'.heap)) ∧
      q'.head = l'.head? ∧ q'.tail = l'.getLast? ∧ q'.tail = l'[l'.length - 1]? ∧
      (∃ t tn, q'.tail = some t ∧ w'.heap t = some tn ∧ tn.next = none) ∧
      q'.size = (l'.length : Int) ∧ q'.size = q.size) ∧
    (∀ (h : Heap), q_sort fuel ⟨h, none⟩ = some ⟨h, none⟩) ∧
    (∀ (h : Heap) (q0 : queue_t), q0.size ≤ 1 → q_sort fuel ⟨h, some q0⟩ = some ⟨h, some q0⟩) := by
  refine ⟨?_, fun _ => rfl, fun h q0 hs => q_sort_small fuel h q0 hs⟩
  obtain ⟨w', q, q', hrun, hq, hq', hwf', hsz, hsv, _, _⟩ := q_sort_spec fuel w l hwf hf
  have hperm := sortL_perm (valOf w.heap) fuel l
  obtain ⟨q2, hq2, hch2, hsz2, htl2⟩ := hwf'
  rw [hq'] at hq2
  have e : q' = q2 := by simpa using hq2
  subst e
  have hne : sortL (valOf w.heap) fuel l ≠ [] := by
    intro hnil
    have := hperm.length_eq
    rw [hnil] at this
    simp at this
    omega
  obtain ⟨t, ht⟩ : ∃ t, (sortL (valOf w.heap) fuel l).getLast? = some t :=
    ⟨_, List.getLast?_eq_getLast _ hne⟩
  obtain ⟨tn, htn, htnn⟩ := chain_last_next _ _ _ t hch2 ht
  refine ⟨w', q, q', _, hrun, hq, hq', hch2, hperm, ?_, chain_head _ _ _ hch2, htl2, ?_,
    ⟨t, tn, by rw [htl2, ht], htn, htnn⟩, hsz2, hsz⟩
  · rw [valOf_eq_of_sameVals _ _ hsv]
    exact sortL_sorted _ _ _ hf
  · rw [htl2, List.getLast?_eq_getElem?]

/-- Witness for C16: the queue banana, apple, cherry. -/
theorem q_sort_head_tail_witness :
    wf world_bac [0, 1, 2] ∧
    ∃ w' q q' l', q_sort 3 world_bac = some w' ∧ world_bac.q = some q ∧ w'.q = some q' ∧
      chain w'.heap q'.head l' ∧ l'.Perm [0, 1, 2] ∧ l'.Pairwise (le_val (valOf w'.heap)) ∧
      q'.head = l'.head? ∧ q'.tail = l'.getLast? ∧ q'.tail = l'[l'.length - 1]? ∧
      (∃ t tn, q'.tail = some t ∧ w'.heap t = some tn ∧ tn.next = none) ∧
      q'.size = (l'.length : Int) ∧ q'.size = q.size :=
  ⟨wf_world_bac, (q_sort_head_tail 3 world_bac [0, 1, 2] wf_world_bac (by decide) (by decide)).1⟩

/-- C17: on a well-formed queue with chain `l`, `q_sort` (with fuel at least
the length) returns a well-formed queue whose chain is a permutation of `l`
without repetition; every address holds a live element after the call exactly
when it did before, with the same value; the elements outside the chain are
untouched; the size is unchanged. -/
theorem q_sort_in_place (fuel : Nat) (w : World) (l : List Ptr) (hwf : wf w l)
    (hf : l.length ≤ fuel) :
    ∃ w' l', q_sort fuel w = some w' ∧ wf w' l' ∧ l'.Perm l ∧ l'.Nodup ∧
      sameVals w.heap w'.heap ∧ (∀ a, valOf w'.heap a = valOf w.heap a) ∧
      (∀ y, y ∉ l → w'.heap y = w.heap y) ∧ q_size w' = q_size w := by
  obtain ⟨w', q, q', hrun, hq, hq', hwf', hsz, hsv, _, hfr⟩ := q_sort_spec fuel w l hwf hf
  have hperm := sortL_perm (valOf w.heap) fuel l
  obtain ⟨_, _, hch, _, _⟩ := hwf
  refine ⟨w', _, hrun, hwf', hperm, hperm.nodup_iff.2 (chain_nodup _ _ _ hch), hsv,
    valOf_sameVals _ _ hsv, hfr, ?_⟩
  rw [q_size_eq _ _ hq, q_size_eq _ _ hq', hsz]

/-- Witness for C17: the queue banana, apple, cherry. -/
theorem q_sort_in_place_witness :
    wf world_bac [0, 1, 2] ∧
    ∃ w' l', q_sort 3 world_bac = some w' ∧ wf w' l' ∧ l'.Perm [0, 1, 2] ∧ l'.Nodup ∧
      sameVals world_bac.heap w'.heap ∧ (∀ a, valOf w'.heap a = valOf world_bac.heap a) ∧
      (∀ y, y ∉ [0, 1, 2] → w'.heap y = world_bac.heap y) ∧ q_size w' = q_size world_bac :=
  ⟨wf_world_bac, q_sort_in_place 3 world_bac [0, 1, 2] wf_world_bac (by decide)⟩

/-- C19: on a well-formed queue with chain `l`, for every string `v` the
elements whose value compares equal to `v` appear after `q_sort` in the
reverse of their order in `l`, and after a second `q_sort` in their order in
`l` again. -/
theorem q_sort_equal_values_reversed (fuel : Nat) (w : World) (l : List Ptr) (v : List Nat)
    (hwf : wf w l) (hf : l.length ≤ fuel) :
    ∃ w1 w2 l1 l2, q_sort fuel w = some w1 ∧ wf w1 l1 ∧ q_sort fuel w1 = some w2 ∧ wf w2 l2 ∧
      l1.filter (fun a => decide (strcmp (valOf w.heap a) v = 0)) =
        (l.filter (fun a => decide (strcmp (valOf w.heap a) v = 0))).reverse ∧
      l2.filter (fun a => decide (strcmp (valOf w.heap a) v = 0)) =
        l.filter (fun a => decide (strcmp (valOf w.heap a) v = 0)) := by
  obtain ⟨w1, _, _, hrun1, _, _, hwf1, _, hsv1, _, _⟩ := q_sort_spec fuel w l hwf hf
  have hlen1 : (sortL (valOf w.heap) fuel l).length ≤ fuel := by
    rw [(sortL_perm _ _ _).length_eq]; exact hf
  obtain ⟨w2, _, _, hrun2, _, _, hwf2, _⟩ := q_sort_spec fuel w1 _ hwf1 hlen1
  rw [valOf_eq_of_sameVals _ _ hsv1] at hwf2
  refine ⟨w1, w2, _, _, hrun1, hwf1, hrun2, hwf2, sortL_filter _ v fuel l hf, ?_⟩
  rw [sortL_filter _ v fuel _ hlen1, sortL_filter _ v fuel l hf, List.reverse_reverse]

/-- Witness for C19: the queue of two elements that both hold "a". -/
theorem q_sort_equal_values_reversed_witness :
    wf world_aa [0, 1] ∧
    ∃ w1 w2 l1 l2, q_sort 2 world_aa = some w1 ∧ wf w1 l1 ∧ q_sort 2 w1 = some w2 ∧ wf w2 l2 ∧
      l1.filter (fun a => decide (strcmp (valOf world_aa.heap a) (bytes "a") = 0)) =
        ([0, 1].filter (fun a => decide (strcmp (valOf world_aa.heap a) (bytes "a") = 0))).reverse ∧
      l2.filter (fun a => decide (strcmp (valOf world_aa.heap a) (bytes "a") = 0)) =
        [0, 1].filter (fun a => decide (strcmp (valOf world_aa.heap a) (bytes "a") = 0)) :=
  ⟨wf_world_aa, q_sort_equal_values_reversed 2 world_aa [0, 1] (bytes "a") wf_world_aa (by decide)⟩

/-! ## The split -/

theorem split_cut (fuel : Nat) (h : Heap) (p : Option Ptr) (l : List Ptr)
    (hch : chain h p l) (h2 : 2 ≤ l.length) (hf : l.length ≤ fuel) :
    ∃ hd hn mid mn r, p = some hd ∧ h hd = some hn ∧
      split_loop fuel h p hn.next = some (some mid) ∧
      l[(l.length - 1) / 2]? = some mid ∧ h mid = some mn ∧ mn.next = some r ∧
      chain (h.set mid (some { mn with next := none })) p (l.take ((l.length + 1) / 2)) ∧
      chain (h.set mid (some { mn with next := none })) mn.next
        (l.drop ((l.length + 1) / 2)) := by
  have hpos : 0 < l.length := by omega
  have ha : l[0]? = some l[0] := List.getElem?_eq_getElem hpos
  generalize l[0] = a at ha
  have hp : p = some a := by
    rw [chain_head h p l hch, List.head?_eq_getElem?, ha]
  subst hp
  obtain ⟨an, han, hann⟩ := chain_get h l _ 0 a hch ha
  have hnd := chain_nodup h l _ hch
  have hsplit := split_loop_spec h l _ hch fuel 0 hpos (Nat.zero_le _) (by omega)
  rw [ha] at hsplit
  simp only [Nat.mul_zero] at hsplit
  rw [← hann] at hsplit
  have hm : (l.length - 1) / 2 < l.length := by omega
  have hmid : l[(l.length - 1) / 2]? = some l[(l.length - 1) / 2] :=
    List.getElem?_eq_getElem hm
  generalize l[(l.length - 1) / 2] = mid at hmid
  rw [hmid] at hsplit
  obtain ⟨mn, hmn, hmnn⟩ := chain_get h l _ _ mid hch hmid
  have hk : (l.length - 1) / 2 + 1 = (l.length + 1) / 2 := by omega
  rw [hk] at hmnn
  have hklt : (l.length + 1) / 2 < l.length := by omega
  have hr : l[(l.length + 1) / 2]? = some l[(l.length + 1) / 2] :=
    List.getElem?_eq_getElem hklt
  have hA : l.take ((l.length + 1) / 2) = l.take ((l.length - 1) / 2) ++ [mid] := by
    rw [← hk, List.take_succ, hmid]; rfl
  have hsplitl : l = l.take ((l.length + 1) / 2) ++ l.drop ((l.length + 1) / 2) :=
    (List.take_append_drop _ _).symm
  have hnd2 : (l.take ((l.length + 1) / 2) ++ l.drop ((l.length + 1) / 2)).Nodup := by
    rw [← hsplitl]; exact hnd
  have hdisj := (List.nodup_append.1 hnd2).2.2
  have hAnd := (List.nodup_append.1 hnd2).1
  have hmidA : mid ∈ l.take ((l.length + 1) / 2) := by rw [hA]; simp
  have hmidB : mid ∉ l.drop ((l.length + 1) / 2) := fun hm => hdisj hmidA hm
  have hmidA' : mid ∉ l.take ((l.length - 1) / 2) := by
    rw [hA] at hAnd
    intro hm
    exact (List.nodup_append.1 hAnd).2.2 hm (List.mem_singleton_self _)
  have hch' : chain h (some a) (l.take ((l.length + 1) / 2) ++ l.drop ((l.length + 1) / 2)) := by
    rw [← hsplitl]; exact hch
  obtain ⟨mm, hsegA, _⟩ := (lseg_append h _ _ _ _).1 hch'
  have hchA : chain (h.set mid (some { mn with next := none })) (some a)
      (l.take ((l.length + 1) / 2)) := by
    rw [hA] at hsegA ⊢
    exact lseg_relink h _ mid mn _ _ none hsegA hmidA'
  have hchB : chain (h.set mid (some { mn with next := none })) mn.next
      (l.drop ((l.length + 1) / 2)) := by
    rw [hmnn]
    exact lseg_set h mid _ _ hmidB _ _ (chain_drop h l _ _ hch)
  exact ⟨a, an, mid, mn, _, rfl, han, hsplit, hmid, hmn, hmnn.trans hr, hchA, hchB⟩

/-- C18: for a chain of `n >= 2` elements the slow/fast walk of
`split_and_merge` stops at the element of index `(n - 1) / 2`; cutting the
chain after it leaves a left chain of `(n + 1) / 2` elements (the ceiling of
`n / 2`) from the old head and a right chain of `n / 2` elements from a
non-null head; both are non-empty and shorter than `n`; and `split_and_merge`
returns when its fuel is at least `n` (also for the chain of one element). -/
theorem split_halves (fuel : Nat) (h : Heap) (p : Option Ptr) (l : List Ptr)
    (hch : chain h p l) (h2 : 2 ≤ l.length) (hf : l.length ≤ fuel) :
    (∃ hd hn mid mn r, p = some hd ∧ h hd = some hn ∧
      split_loop fuel h p hn.next = some (some mid) ∧
      l[(l.length - 1) / 2]? = some mid ∧ h mid = some mn ∧ mn.next = some r ∧
      chain (h.set mid (some { mn with next := none })) p (l.take ((l.length + 1) / 2)) ∧
      chain (h.set mid (some { mn with next := none })) (some r)
        (l.drop ((l.length + 1) / 2))) ∧
    (l.take ((l.length + 1) / 2)).length = (l.length + 1) / 2 ∧
    (l.drop ((l.length + 1) / 2)).length = l.length / 2 ∧
    (l.length + 1) / 2 + l.length / 2 = l.length ∧
    l.length ≤ 2 * ((l.length + 1) / 2) ∧ 2 * ((l.length + 1) / 2) ≤ l.length + 1 ∧
    0 < (l.length + 1) / 2 ∧ (l.length + 1) / 2 < l.length ∧
    0 < l.length / 2 ∧ l.length / 2 < l.length ∧
    (∃ h' p', split_and_merge fuel h p = some (h', p')) ∧
    (∀ (h0 : Heap) (a : Ptr) (n : list_ele_t) (k : Nat),
      split_and_merge (k + 1) (h0.set a (some { n with next := none })) (some a) =
        some (h0.set a (some { n with next := none }), some a)) := by
  have hne : l ≠ [] := by rintro rfl; simp at h2
  obtain ⟨hd, hn, mid, mn, r, e1, e2, e3, e4, e5, e6, e7, e8⟩ := split_cut fuel h p l hch h2 hf
  obtain ⟨h', p', hrun, _⟩ := split_and_merge_spec fuel h p l hne hf hch
  refine ⟨⟨hd, hn, mid, mn, r, e1, e2, e3, e4, e5, e6, e7, e6 ▸ e8⟩, ?_, ?_, by omega, by omega,
    by omega, by omega, by omega, by omega, by omega, ⟨h', p', hrun⟩, ?_⟩
  · rw [List.length_take]; omega
  · rw [List.length_drop]; omega
  · intro h0 a n k
    simp [split_and_merge]

/-- Witness for C18: the chain banana, apple, cherry is cut into two elements
and one. -/
theorem split_halves_witness :
    chain heap_bac (some 0) [0, 1, 2] ∧
    ∃ hd hn mid mn r, (some 0 : Option Ptr) = some hd ∧ heap_bac hd = some hn ∧
      split_loop 3 heap_bac (some 0) hn.next = some (some mid) ∧
      [0, 1, 2][(([0, 1, 2] : List Ptr).length - 1) / 2]? = some mid ∧ heap_bac mid = some mn ∧
      mn.next = some r ∧
      chain (heap_bac.set mid (some { mn with next := none })) (some 0)
        ([0, 1, 2].take ((([0, 1, 2] : List Ptr).length + 1) / 2)) ∧
      chain (heap_bac.set mid (some { mn with next := none })) (some r)
        ([0, 1, 2].drop ((([0, 1, 2] : List Ptr).length + 1) / 2)) :=
  ⟨⟨rfl, _, rfl, ⟨rfl, _, rfl, ⟨rfl, _, rfl, rfl⟩⟩⟩,
    (split_halves 3 heap_bac (some 0) [0, 1, 2] ⟨rfl, _, rfl, ⟨rfl, _, rfl, ⟨rfl, _, rfl, rfl⟩⟩⟩
      (by decide) (by decide)).1⟩

/-! ## The invariant -/

theorem wf_new : wf (q_new true) [] := ⟨_, rfl, rfl, rfl, rfl⟩

theorem insert_head_preserves (w w' : World) (l : List Ptr) (s : List Nat)
    (newh : Option Ptr) (ok r : Bool) (hwf : wf w l)
    (h : q_insert_head w s newh ok = some (r, w')) : ∃ l', wf w' l' := by
  have hres := q_insert_head_result w s newh ok r w' h
  cases r with
  | false => exact ⟨l, by rw [hres.2 rfl]; exact hwf⟩
  | true =>
    obtain ⟨q, hq, _⟩ := id hwf
    cases newh with
    | none => simp [q_insert_head, hq] at h
    | some p =>
      cases hp : w.heap p with
      | some _ => simp [q_insert_head, hq, hp] at h
      | none =>
        cases ok with
        | false => simp [q_insert_head, hq, hp] at h
        | true =>
          obtain ⟨w1, _, _, hrun, _, _, hwf1, _⟩ := q_insert_head_spec w l s p hwf hp
          rw [hrun] at h
          have e : w1 = w' := by simpa using h
          subst e
          exact ⟨_, hwf1⟩

theorem insert_tail_preserves (w w' : World) (l : List Ptr) (s : List Nat)
    (newh : Option Ptr) (ok r : Bool) (hwf : wf w l)
    (h : q_insert_tail w s newh ok = some (r, w')) : ∃ l', wf w' l' := by
  have hres := q_insert_tail_result w s newh ok r w' h
  cases r with
  | false => exact ⟨l, by rw [hres.2 rfl]; exact hwf⟩
  | true =>
    obtain ⟨q, hq, _⟩ := id hwf
    cases newh with
    | none => simp [q_insert_tail, hq] at h
    | some p =>
      cases hp : w.heap p with
      | some _ => simp [q_insert_tail, hq, hp] at h
      | none =>
        cases ok with
        | false => simp [q_insert_tail, hq, hp] at h
        | true =>
          obtain ⟨w1, _, _, hrun, _, _, hwf1, _⟩ := q_insert_tail_spec w l s p hwf hp
          rw [hrun] at h
          have e : w1 = w' := by simpa using h
          subst e
          exact ⟨_, hwf1⟩

theorem remove_head_preserves (w w' : World) (a b : Ptr) (rest : List Ptr)
    (sp sp' : Option (List Nat)) (bufsize : Nat) (r : Bool) (hwf : wf w (a :: b :: rest))
    (h : q_remove_head w sp bufsize = some (r, w', sp')) : r = true ∧ wf w' (b :: rest) := by
  obtain ⟨q, hq, hch, hsz, htl⟩ := hwf
  have hnd := chain_nodup _ _ _ hch
  obtain ⟨hh, n, hn, hrest⟩ := hch
  have harest : a ∉ b :: rest := (List.nodup_cons.1 hnd).1
  simp only [q_remove_head, hq, hh, hn, Option.bind_eq_bind, Option.some_bind,
    Option.bind_eq_some] at h
  obtain ⟨sp1, _, h⟩ := h
  simp only [Option.some.injEq, Prod.mk.injEq] at h
  obtain ⟨rfl, rfl, _⟩ := h
  refine ⟨rfl, _, rfl, lseg_set _ _ _ _ harest _ _ hrest, ?_, ?_⟩
  · simp only [List.length_cons] at hsz ⊢
    simp only [hsz]; push_cast; ring
  · simp only [htl, List.getLast?_cons_cons]

theorem remove_head_empty (w w' : World) (sp sp' : Option (List Nat)) (bufsize : Nat)
    (r : Bool) (hwf : wf w []) (h : q_remove_head w sp bufsize = some (r, w', sp')) :
    w' = w := by
  obtain ⟨q, hq, hch, _, _⟩ := hwf
  have hh : q.head = none := hch
  simp only [q_remove_head, hq, hh, Option.some.injEq, Prod.mk.injEq] at h
  exact h.2.1.symm

theorem reach_wf (w : World) (hr : Reach w) : ∃ l, wf w l := by
  induction hr with
  | new => exact ⟨[], wf_new⟩
  | insert_head w w' s newh ok r _ h ih =>
    obtain ⟨l, hwf⟩ := ih
    exact insert_head_preserves w w' l s newh ok r hwf h
  | insert_tail w w' s newh ok r _ h ih =>
    obtain ⟨l, hwf⟩ := ih
    exact insert_tail_preserves w w' l s newh ok r hwf h
  | remove_head w w' sp sp' bufsize r _ hsz h ih =>
    obtain ⟨l, hwf⟩ := ih
    match l, hwf with
    | [], hwf => exact ⟨[], by rw [remove_head_empty w w' sp sp' bufsize r hwf h]; exact hwf⟩
    | [a], hwf =>
      obtain ⟨q, hq, _, hs, _⟩ := hwf
      exact absurd (by rw [q_size_eq w q hq, hs]; rfl) hsz
    | a :: b :: rest, hwf =>
      exact ⟨_, (remove_head_preserves w w' a b rest sp sp' bufsize r hwf h).2⟩
  | reverse w w' fuel _ hf h ih =>
    obtain ⟨l, hwf⟩ := ih
    have hlen : l.length ≤ fuel := by
      obtain ⟨q, hq, _, hs, _⟩ := id hwf
      rw [q_size_eq w q hq, hs] at hf
      exact_mod_cast hf
    obtain ⟨w1, _, _, hrun, _, _, hwf1, _⟩ := q_reverse_spec fuel w l hwf hlen
    rw [hrun] at h
    have e : w1 = w' := by simpa using h
    subst e
    exact ⟨_, hwf1⟩
  | sort w w' fuel _ hf h ih =>
    obtain ⟨l, hwf⟩ := ih
    have hlen : l.length ≤ fuel := by
      obtain ⟨q, hq, _, hs, _⟩ := id hwf
      rw [q_size_eq w q hq, hs] at hf
      exact_mod_cast hf
    obtain ⟨w1, _, _, hrun, _, _, hwf1, _⟩ := q_sort_spec fuel w l hwf hlen
    rw [hrun] at h
    have e : w1 = w' := by simpa using h
    subst e
    exact ⟨_, hwf1⟩

/-- C20: the well-formedness predicate holds after `q_new`; every
`q_insert_head` and `q_insert_tail` call that returns preserves it; `q_reverse`
and `q_sort` (with fuel at least the length) return and preserve it;
`q_remove_head` on a queue of at least two elements returns true and preserves
it; hence it holds in every state reached from `q_new` by calls among which no
`q_remove_head` is made on a queue of exactly one element. -/
theorem wf_invariant (w : World) (hr : Reach w) :
    (∃ l, wf w l) ∧ wf (q_new true) [] ∧
    (∀ (w0 w' : World) (l : List Ptr) (s : List Nat) (newh : Option Ptr) (ok r : Bool),
      wf w0 l → q_insert_head w0 s newh ok = some (r, w') → ∃ l', wf w' l') ∧
    (∀ (w0 w' : World) (l : List Ptr) (s : List Nat) (newh : Option Ptr) (ok r : Bool),
      wf w0 l → q_insert_tail w0 s newh ok = some (r, w') → ∃ l', wf w' l') ∧
    (∀ (w0 : World) (l : List Ptr) (fuel : Nat), wf w0 l → l.length ≤ fuel →
      ∃ w', q_reverse fuel w0 = some w' ∧ wf w' l.reverse) ∧
    (∀ (w0 : World) (l : List Ptr) (fuel : Nat), wf w0 l → l.length ≤ fuel →
      ∃ w' l', q_sort fuel w0 = some w' ∧ wf w' l') ∧
    (∀ (w0 w' : World) (a b : Ptr) (rest : List Ptr) (sp sp' : Option (List Nat))
      (bufsize : Nat) (r : Bool), wf w0 (a :: b :: rest) →
      q_remove_head w0 sp bufsize = some (r, w', sp') → r = true ∧ wf w' (b :: rest)) := by
  refine ⟨reach_wf w hr, wf_new, ?_, ?_, ?_, ?_, ?_⟩
  · intro w0 w' l s newh ok r hwf h
    exact insert_head_preserves w0 w' l s newh ok r hwf h
  · intro w0 w' l s newh ok r hwf h
    exact insert_tail_preserves w0 w' l s newh ok r hwf h
  · intro w0 l fuel hwf hf
    obtain ⟨w1, _, _, hrun, _, _, hwf1, _⟩ := q_reverse_spec fuel w0 l hwf hf
    exact ⟨w1, hrun, hwf1⟩
  · intro w0 l fuel hwf hf
    obtain ⟨w1, _, _, hrun, _, _, hwf1, _⟩ := q_sort_spec fuel w0 l hwf hf
    exact ⟨w1, _, hrun, hwf1⟩
  · intro w0 w' a b rest sp sp' bufsize r hwf h
    exact remove_head_preserves w0 w' a b rest sp sp' bufsize r hwf h

/-- Witness for C20: the state after `q_new` and one `q_insert_head`. -/
theorem wf_invariant_witness :
    ∃ w1, q_insert_head (q_new true) (bytes "a") (some 0) true = some (true, w1) ∧ Reach w1 ∧
      ∃ l, wf w1 l := by
  obtain ⟨w1, _, _, hins, _⟩ := q_insert_head_spec (q_new true) [] (bytes "a") 0 wf_new rfl
  have hr : Reach w1 := Reach.insert_head _ _ _ _ _ _ Reach.new hins
  exact ⟨w1, hins, hr, (wf_invariant w1 hr).1⟩

end Queue
